import Mathlib

/-!
# Image convolution with row-partitioned workers (`image_pthread.c`)

A shallow embedding of the convolution engine of `image_pthread.c`:

* `Dbl` : the C type `double` (IEEE-754 binary64, round to nearest, ties to even),
  with the three operations the program uses (`*`, `+`, `/`) and the two conversions
  (`uint8_t → double`, `double → uint8_t`);
* `Image`, `Index`, `Matrix`, `algorithms`, `KernelTypes` : the data model;
* `getPixelValue`, `convoluteThread`, `convolute`, `GetKernelType` and the
  partitioning loop of `main` (`splitWork`, `runThreads`, `runEngine`);
* `convoluteThreadLogged` : the same loops with a log of the offsets written;
* `convoluteThreadTraced`, `runThreadsTraced` : the same loops over a traced call of
  `getPixelValue` and a traced `writeByte`, with the trace of the calls and writes;
* `specPixel` : the output byte as section 4.3 of the specification words it.

Undefined behaviour of the C program (an access outside a buffer, a division by
zero) is the result `none`.  Threads are run to completion one after the other, in
any order; the integers of the program are unbounded (the decoder keeps
`width * height * bpp` below `2^31`).
-/

namespace PicProject

/-! ## The type `double` -/

/-- A value of the C type `double` (IEEE-754 binary64).  `fin neg mant exp` is the
finite number `(-1)^neg * mant * 2^exp`; the operations below only produce the
canonical form `mant < 2^53`, `-1074 ≤ exp ≤ 971`, and `2^52 ≤ mant` unless
`exp = -1074` (zero is `mant = 0`, `exp = -1074`). -/
inductive Dbl where
  | fin (neg : Bool) (mant : Nat) (exp : Int)
  | inf (neg : Bool)
  | nan
  deriving DecidableEq, Repr

namespace Dbl

/-- One step of a bisection: `p = (acc, m)`; when `m` has more than `s` binary digits
its low `s` digits are dropped and `s` is added to `acc`. -/
def bisect (s : Nat) (p : Nat × Nat) : Nat × Nat :=
  if p.2 < 2 ^ s then p else (p.1 + s, p.2 / 2 ^ s)

/-- The position of the leading binary digit of a number below `2^64`. -/
def log2Small (m : Nat) : Nat :=
  (bisect 1 (bisect 2 (bisect 4 (bisect 8 (bisect 16 (bisect 32 (0, m))))))).1

/-- The position of the leading binary digit, 64 digits at a time, in at most `fuel`
steps (`fuel = m` always suffices). -/
def log2Aux : Nat → Nat → Nat
  | 0, _ => 0
  | fuel + 1, m =>
    if m < 2 ^ 64 then log2Small m else log2Aux fuel (m / 2 ^ 64) + 64

/-- The position of the leading binary digit: `floor (log2 m)` for `m ≥ 1`. -/
def log2 (m : Nat) : Nat := log2Aux m m

/-- Rounding of the exact number `(-1)^neg * m * 2^e` to binary64, to nearest with
ties to even, with gradual underflow and overflow to infinity. -/
def round (neg : Bool) (m : Nat) (e : Int) : Dbl :=
  if m = 0 then fin neg 0 (-1074)
  else
    let n : Int := (log2 m : Int) + 1
    let t : Int := max (e + n - 53) (-1074)
    if t ≤ e then
      if t > 971 then inf neg else fin neg (m * 2 ^ (e - t).toNat) t
    else
      let s : Nat := (t - e).toNat
      let q : Nat := m / 2 ^ s
      let r : Nat := m % 2 ^ s
      let half : Nat := 2 ^ (s - 1)
      let q1 : Nat := if half < r ∨ (r = half ∧ q % 2 = 1) then q + 1 else q
      if q1 = 2 ^ 53 then
        (if t + 1 > 971 then inf neg else fin neg (2 ^ 52) (t + 1))
      else if t > 971 then inf neg
      else fin neg q1 t

/-- Conversion of an integer to `double` (exact below `2^53`). -/
def ofInt (z : Int) : Dbl := round (decide (z < 0)) z.natAbs 0

/-- The C operator `*` on `double`. -/
def mul : Dbl → Dbl → Dbl
  | nan, _ => nan
  | _, nan => nan
  | inf s, inf t => inf (xor s t)
  | inf s, fin t m _ => if m = 0 then nan else inf (xor s t)
  | fin s m _, inf t => if m = 0 then nan else inf (xor s t)
  | fin s m e, fin t m1 e1 => round (xor s t) (m * m1) (e + e1)

/-- The C operator `+` on `double`. -/
def add : Dbl → Dbl → Dbl
  | nan, _ => nan
  | _, nan => nan
  | inf s, inf t => if s = t then inf s else nan
  | inf s, fin _ _ _ => inf s
  | fin _ _ _, inf t => inf t
  | fin s m e, fin t m1 e1 =>
    let e0 : Int := min e e1
    let a : Int := (if s then -1 else 1) * ((m * 2 ^ (e - e0).toNat : Nat) : Int)
    let b : Int := (if t then -1 else 1) * ((m1 * 2 ^ (e1 - e0).toNat : Nat) : Int)
    let z : Int := a + b
    if z = 0 then fin (s && t) 0 (-1074)
    else round (decide (z < 0)) z.natAbs e0

/-- The C operator `/` on `double`.  The quotient of the mantissas is computed with
at least 64 bits and a sticky bit, then rounded once. -/
def div : Dbl → Dbl → Dbl
  | nan, _ => nan
  | _, nan => nan
  | inf _, inf _ => nan
  | inf s, fin t _ _ => inf (xor s t)
  | fin s _ _, inf t => fin (xor s t) 0 (-1074)
  | fin s m e, fin t m1 e1 =>
    if m1 = 0 then (if m = 0 then nan else inf (xor s t))
    else if m = 0 then fin (xor s t) 0 (-1074)
    else
      let k : Nat := 64 + log2 m1
      let q : Nat := (m * 2 ^ k) / m1
      let sticky : Nat := if (m * 2 ^ k) % m1 = 0 then 0 else 1
      round (xor s t) (2 * q + sticky) (e - e1 - (k : Int) - 1)

/-- Conversion `double → uint8_t`, as in `uint8_t result = <double expression>`.
The fractional part is discarded (truncation toward zero).  C leaves the conversion
undefined when the truncated value is outside `0..255`; the embedding takes the
unclamped narrowing the specification prescribes (section 4.3), which is what the
x86-64 code sequence does: `cvttsd2si` to a 32-bit integer (whose result for NaN,
infinities and values outside the 32-bit range is `0x80000000`), of which the low
byte is kept. -/
def toUInt8 : Dbl → Nat
  | fin s m e =>
    let a : Nat := if 0 ≤ e then m * 2 ^ e.toNat else m / 2 ^ (-e).toNat
    let z : Int := if s then -(a : Int) else (a : Int)
    if -2147483648 ≤ z ∧ z < 2147483648 then (z % 256).toNat else 0
  | inf _ => 0
  | nan => 0

end Dbl

/-! ## Data model (`image.h`, `algorithms`) -/

/-- The struct `Image`: the pixel bytes (`uint8_t* data`, interleaved channels, row
major) and the three `int` fields `width`, `height`, `bpp` (bytes per pixel). -/
structure Image where
  data : List Nat
  width : Int
  height : Int
  bpp : Int
  deriving DecidableEq, Repr

/-- Modelled from the spec: the macro `Index(x, y, width, bit, bpp)` of `image.h`,
a header that is not among the sources.  Section 3 gives the formula
`index(x,y,c) = (y*width + x)*channels + c`. -/
def Index (x y width bit bpp : Int) : Int := (y * width + x) * bpp + bit

/-- Modelled from the spec: the type `Matrix` of `image.h`, a fixed 3x3 matrix of
`double` weights (`algorithm[i][j]` is `algorithm i j`). -/
abbrev Matrix := Fin 3 → Fin 3 → Dbl

/-- One row `{a, b, c}` of a matrix initialiser. -/
def row3 (a b c : Dbl) : Fin 3 → Dbl
  | 0 => a
  | 1 => b
  | 2 => c

/-- A matrix initialiser `{{..}, {..}, {..}}`. -/
def mat3 (r0 r1 r2 : Fin 3 → Dbl) : Matrix
  | 0 => r0
  | 1 => r1
  | 2 => r2

/-- Modelled from the spec: the enumeration `KernelTypes` of `image.h`.  Its
enumerators are numbered in the order of the table `algorithms`, as the comment
above that table says. -/
inductive KernelTypes where
  | EDGE
  | SHARPEN
  | BLUR
  | GAUSE_BLUR
  | EMBOSS
  | IDENTITY
  deriving DecidableEq, Repr

/-- The integer value of an enumerator. -/
def KernelTypes.toNat : KernelTypes → Nat
  | EDGE => 0
  | SHARPEN => 1
  | BLUR => 2
  | GAUSE_BLUR => 3
  | EMBOSS => 4
  | IDENTITY => 5

/-- An integer constant used where a `double` is expected. -/
def lit (z : Int) : Dbl := Dbl.ofInt z

/-- The array `Matrix algorithms[]`, entry by entry as written in the source
(`1 / 9.0` and `1.0 / 16` are divisions of `double`s). -/
def algorithms : List Matrix :=
  [ mat3 (row3 (lit 0) (lit (-1)) (lit 0)) (row3 (lit (-1)) (lit 4) (lit (-1)))
      (row3 (lit 0) (lit (-1)) (lit 0)),
    mat3 (row3 (lit 0) (lit (-1)) (lit 0)) (row3 (lit (-1)) (lit 5) (lit (-1)))
      (row3 (lit 0) (lit (-1)) (lit 0)),
    mat3
      (row3 (Dbl.div (lit 1) (lit 9)) (Dbl.div (lit 1) (lit 9)) (Dbl.div (lit 1) (lit 9)))
      (row3 (Dbl.div (lit 1) (lit 9)) (Dbl.div (lit 1) (lit 9)) (Dbl.div (lit 1) (lit 9)))
      (row3 (Dbl.div (lit 1) (lit 9)) (Dbl.div (lit 1) (lit 9)) (Dbl.div (lit 1) (lit 9))),
    mat3
      (row3 (Dbl.div (lit 1) (lit 16)) (Dbl.div (lit 1) (lit 8)) (Dbl.div (lit 1) (lit 16)))
      (row3 (Dbl.div (lit 1) (lit 8)) (Dbl.div (lit 1) (lit 4)) (Dbl.div (lit 1) (lit 8)))
      (row3 (Dbl.div (lit 1) (lit 16)) (Dbl.div (lit 1) (lit 8)) (Dbl.div (lit 1) (lit 16))),
    mat3 (row3 (lit (-2)) (lit (-1)) (lit 0)) (row3 (lit (-1)) (lit 1) (lit 1))
      (row3 (lit 0) (lit 1) (lit 2)),
    mat3 (row3 (lit 0) (lit 0) (lit 0)) (row3 (lit 0) (lit 1) (lit 0))
      (row3 (lit 0) (lit 0) (lit 0)) ]

/-- The expression `algorithms[type]`.  The default is never used: every enumerator
is below the length of the table. -/
def kernelOf (type : KernelTypes) : Matrix :=
  algorithms.getD type.toNat (fun _ _ => Dbl.nan)

/-! ## `getPixelValue` -/

/-- The initialiser expression of `result` in `getPixelValue`, before its narrowing:
the nine bytes are converted to `double`, multiplied by the weights and the products
are added from left to right. -/
def kernelSum (algorithm : Matrix) (b00 b01 b02 b10 b11 b12 b20 b21 b22 : Nat) : Dbl :=
  Dbl.add (Dbl.add (Dbl.add (Dbl.add (Dbl.add (Dbl.add (Dbl.add (Dbl.add
    (Dbl.mul (algorithm 0 0) (Dbl.ofInt b00))
    (Dbl.mul (algorithm 0 1) (Dbl.ofInt b01)))
    (Dbl.mul (algorithm 0 2) (Dbl.ofInt b02)))
    (Dbl.mul (algorithm 1 0) (Dbl.ofInt b10)))
    (Dbl.mul (algorithm 1 1) (Dbl.ofInt b11)))
    (Dbl.mul (algorithm 1 2) (Dbl.ofInt b12)))
    (Dbl.mul (algorithm 2 0) (Dbl.ofInt b20)))
    (Dbl.mul (algorithm 2 1) (Dbl.ofInt b21)))
    (Dbl.mul (algorithm 2 2) (Dbl.ofInt b22))

/-- The read `data[i]` of a byte buffer; `none` outside the buffer. -/
def readByte (data : List Nat) (i : Int) : Option Nat :=
  if 0 ≤ i then data[i.toNat]? else none

/-- The function `getPixelValue`: the new value of channel `bit` of pixel `(x, y)`.
The four neighbour coordinates are clamped to the image, the nine bytes are read and
their weighted sum is narrowed to `uint8_t`. -/
def getPixelValue (srcImage : Image) (x y bit : Int) (algorithm : Matrix) : Option Nat :=
  let px := x + 1
  let py := y + 1
  let mx := x - 1
  let my := y - 1
  let mx := if mx < 0 then 0 else mx
  let my := if my < 0 then 0 else my
  let px := if px ≥ srcImage.width then srcImage.width - 1 else px
  let py := if py ≥ srcImage.height then srcImage.height - 1 else py
  let rd (u v : Int) : Option Nat :=
    readByte srcImage.data (Index u v srcImage.width bit srcImage.bpp)
  (rd mx my).bind fun b00 => (rd x my).bind fun b01 => (rd px my).bind fun b02 =>
  (rd mx y).bind fun b10 => (rd x y).bind fun b11 => (rd px y).bind fun b12 =>
  (rd mx py).bind fun b20 => (rd x py).bind fun b21 => (rd px py).bind fun b22 =>
    some (Dbl.toUInt8 (kernelSum algorithm b00 b01 b02 b10 b11 b12 b20 b21 b22))

/-! ## `convoluteThread` and the serial `convolute` -/

/-- The loop `for (i = i0; ...; i++) body`, run for `n` iterations from `i0`; the
state is threaded through the iterations and an undefined iteration stops the run. -/
def forLoop {σ : Type} (body : Int → σ → Option σ) : Nat → Int → σ → Option σ
  | 0, _, s => some s
  | n + 1, i, s => (body i s).bind (forLoop body n (i + 1))

/-- The loop `for (i = lo; i < hi; i++) body`: it makes `hi - lo` iterations, none
when `hi ≤ lo`. -/
def forRange {σ : Type} (lo hi : Int) (body : Int → σ → Option σ) (s : σ) : Option σ :=
  forLoop body (hi - lo).toNat lo s

/-- The write `data[i] = v` into a byte buffer; `none` outside the buffer. -/
def writeByte (data : List Nat) (i : Int) (v : Nat) : Option (List Nat) :=
  if 0 ≤ i ∧ i.toNat < data.length then some (data.set i.toNat v) else none

/-- The struct `ThreadData`.  The two images stand for the objects the pointers
`srcImage` and `destImage` refer to (two distinct objects in `main`). -/
structure ThreadData where
  srcImage : Image
  destImage : Image
  algorithm : Matrix
  startRow : Int
  endRow : Int

/-- The assignment
`destImage->data[Index(pix, row, width, bit, bpp)] = getPixelValue(srcImage, pix, row, bit, algorithm)`. -/
def storePixel (row pix bit : Int) (d : ThreadData) : Option ThreadData :=
  (getPixelValue d.srcImage pix row bit d.algorithm).bind fun v =>
    (writeByte d.destImage.data
      (Index pix row d.srcImage.width bit d.srcImage.bpp) v).map fun buf =>
        { d with destImage := { d.destImage with data := buf } }

/-- The function `convoluteThread`: rows `startRow .. endRow - 1`, every column,
every channel.  The result is the state of the record after the loops. -/
def convoluteThread (data : ThreadData) : Option ThreadData :=
  forRange data.startRow data.endRow (fun row d =>
    forRange 0 d.srcImage.width (fun pix d =>
      forRange 0 d.srcImage.bpp (fun bit d => storePixel row pix bit d) d) d) data

/-- The serial function `convolute` (kept in the source as a comment): all rows
`0 .. height - 1`.  The result is the destination image. -/
def convolute (srcImage destImage : Image) (algorithm : Matrix) : Option Image :=
  (forRange 0 srcImage.height (fun row d =>
    forRange 0 d.srcImage.width (fun pix d =>
      forRange 0 d.srcImage.bpp (fun bit d => storePixel row pix bit d) d) d)
    { srcImage := srcImage, destImage := destImage, algorithm := algorithm,
      startRow := 0, endRow := srcImage.height }).map fun d => d.destImage

/-! ## `GetKernelType` and `main` -/

/-- The function `GetKernelType`.  A C string is the Lean string of its characters
before the terminator; `!strcmp(a, b)` is equality of the two strings. -/
def GetKernelType (type : String) : KernelTypes :=
  if type = "edge" then KernelTypes.EDGE
  else if type = "sharpen" then KernelTypes.SHARPEN
  else if type = "blur" then KernelTypes.BLUR
  else if type = "gauss" then KernelTypes.GAUSE_BLUR
  else if type = "emboss" then KernelTypes.EMBOSS
  else KernelTypes.IDENTITY

/-- The value of `threadCount` in `main`. -/
def threadCount : Int := 4

/-- The buffer returned by `malloc(n)`: `n` bytes of indeterminate content, given
by `garbage`. -/
def mallocBytes (n : Int) (garbage : Nat → Nat) : List Nat :=
  (List.range n.toNat).map fun j => garbage j % 256

/-- The destination image set up in `main` before the threads start: the shape of
the source and a fresh buffer of `width * bpp * height` bytes. -/
def allocDest (srcImage : Image) (garbage : Nat → Nat) : Image :=
  { data := mallocBytes (1 * srcImage.width * srcImage.bpp * srcImage.height) garbage,
    width := srcImage.width, height := srcImage.height, bpp := srcImage.bpp }

/-- The record `threadDataArg[thread]` filled in by one iteration of the
partitioning loop of `main`, for a given `rowsPerThread`. -/
def threadArg (srcImage destImage : Image) (algorithm : Matrix)
    (nThreads rowsPerThread thread : Int) : ThreadData :=
  { srcImage := srcImage, destImage := destImage, algorithm := algorithm,
    startRow := thread * rowsPerThread,
    endRow := if thread = nThreads - 1 then srcImage.height
              else (thread + 1) * rowsPerThread }

/-- The partitioning loop of `main` with `threadCount = nThreads`: the records
`threadDataArg[0 .. nThreads - 1]`.  The division `height / threadCount` is
undefined for `nThreads = 0`; C division truncates toward zero. -/
def splitWork (srcImage destImage : Image) (algorithm : Matrix) (nThreads : Int) :
    Option (List ThreadData) :=
  if nThreads = 0 then none
  else
    let rowsPerThread := Int.tdiv srcImage.height nThreads
    some ((List.range nThreads.toNat).map fun (thread : Nat) =>
      threadArg srcImage destImage algorithm nThreads rowsPerThread (thread : Int))

/-- The row range `(startRow, endRow)` of a record. -/
def ThreadData.range (d : ThreadData) : Int × Int := (d.startRow, d.endRow)

/-- One thread run to completion on the shared destination image. -/
def runThread (dest : Image) (d : ThreadData) : Option Image :=
  (convoluteThread { d with destImage := dest }).map fun r => r.destImage

/-- The threads run to completion one after the other, in the order of the list,
on the shared destination image. -/
def runThreads (dest : Image) : List ThreadData → Option Image
  | [] => some dest
  | d :: ds => (runThread dest d).bind fun dest1 => runThreads dest1 ds

/-- The engine part of `main` for a worker count `nThreads` (`main` itself uses
`threadCount`): allocation of the destination, partition, all threads run (here in
creation order) and joined.  The result is the destination image that `main`
writes out. -/
def runEngine (srcImage : Image) (algorithm : Matrix) (nThreads : Int)
    (garbage : Nat → Nat) : Option Image :=
  let destImage := allocDest srcImage garbage
  (splitWork srcImage destImage algorithm nThreads).bind fun threads =>
    runThreads destImage threads

/-! ## Well-formed images and the expected content of the destination -/

/-- A well-formed image, as the decoder delivers it: positive dimensions, a buffer
of `width * height * bpp` bytes, every byte in `0..255`. -/
def Image.Valid (im : Image) : Prop :=
  1 ≤ im.width ∧ 1 ≤ im.height ∧ 1 ≤ im.bpp ∧
    (im.data.length : Int) = im.width * im.height * im.bpp ∧ ∀ b ∈ im.data, b < 256

instance (im : Image) : Decidable im.Valid := by
  unfold Image.Valid; infer_instance

/-- The byte `getPixelValue` computes for the cell stored at offset `j` of the
buffer (`0` when the call is undefined). -/
def pixelAt (srcImage : Image) (algorithm : Matrix) (j : Nat) : Nat :=
  (getPixelValue srcImage (((j : Int) / srcImage.bpp) % srcImage.width)
    (((j : Int) / srcImage.bpp) / srcImage.width) ((j : Int) % srcImage.bpp)
    algorithm).getD 0

/-- The buffer `buf` in which the offsets `lo ≤ j < hi` hold the convolved bytes
and every other offset keeps its content. -/
def fill (srcImage : Image) (algorithm : Matrix) (lo hi : Int) (buf : List Nat) : List Nat :=
  (List.range buf.length).map fun (j : Nat) =>
    if lo ≤ (j : Int) ∧ (j : Int) < hi then pixelAt srcImage algorithm j else buf.getD j 0

/-- The record `d` with the buffer of its destination image replaced. -/
def ThreadData.withDest (d : ThreadData) (buf : List Nat) : ThreadData :=
  { d with destImage := { d.destImage with data := buf } }

/-- The hypotheses under which a thread record can be run: a well-formed source
and a destination buffer of the size of the source buffer. -/
def ThreadData.Ready (d : ThreadData) : Prop :=
  d.srcImage.Valid ∧ d.destImage.data.length = d.srcImage.data.length

/-- The offset of the first byte of row `r`. -/
def rowOffset (src : Image) (r : Int) : Int := Index 0 r src.width 0 src.bpp

/-- The `double` `d` holds the integer `z` exactly: a finite value with a
non-positive exponent whose mantissa is `|z|` scaled accordingly, and the sign of
`z` (either sign for zero). -/
def Dbl.Holds (d : Dbl) (z : Int) : Prop :=
  ∃ (s : Bool) (m : Nat) (e : Int), d = Dbl.fin s m e ∧ e ≤ 0 ∧
    m = z.natAbs * 2 ^ (-e).toNat ∧ (z ≠ 0 → s = decide (z < 0))

/-- The clamp of the specification (section 4.3): the nearest value of `lo..hi`. -/
def clamp (v lo hi : Int) : Int := if v < lo then lo else if hi < v then hi else v

/-- The byte of channel `c` of the pixel at `(x + dx, y + dy)`, each coordinate
clamped independently to the image (`0` outside the buffer). -/
def neighbourByte (im : Image) (x y c dx dy : Int) : Nat :=
  im.data.getD (Index (clamp (x + dx) 0 (im.width - 1)) (clamp (y + dy) 0 (im.height - 1))
    im.width c im.bpp).toNat 0

/-- A 3x3 matrix of integers, row by row. -/
def mat3i (a00 a01 a02 a10 a11 a12 a20 a21 a22 : Int) : Fin 3 → Fin 3 → Int
  | 0, 0 => a00
  | 0, 1 => a01
  | 0, 2 => a02
  | 1, 0 => a10
  | 1, 1 => a11
  | 1, 2 => a12
  | 2, 0 => a20
  | 2, 1 => a21
  | 2, 2 => a22

/-- Offset `j` of the destination buffer belongs to the rows of one of the records. -/
def Covered (src : Image) (l : List ThreadData) (j : Nat) : Prop :=
  ∃ d ∈ l, rowOffset src d.startRow ≤ (j : Int) ∧ (j : Int) < rowOffset src d.endRow

instance (src : Image) (l : List ThreadData) (j : Nat) : Decidable (Covered src l j) := by
  unfold Covered; infer_instance

/-- The fully convolved buffer: the byte of `getPixelValue` at every offset. -/
def convolved (src : Image) (algorithm : Matrix) : List Nat :=
  (List.range src.data.length).map (pixelAt src algorithm)

/-- Records that work on the image `src` with the kernel `K`, on rows inside it. -/
def WorksOn (src : Image) (K : Matrix) (d : ThreadData) : Prop :=
  d.srcImage = src ∧ d.algorithm = K ∧ 0 ≤ d.startRow ∧ d.endRow ≤ src.height

/-- The 2x2 one-channel image `[[0,255],[255,0]]`. -/
def checker : Image := { data := [0, 255, 255, 0], width := 2, height := 2, bpp := 1 }

/-- The 4x4 one-channel image whose sixteen bytes are all `v`. -/
def uniform4 (v : Nat) : Image :=
  { data := List.replicate 16 v, width := 4, height := 4, bpp := 1 }

/-- The byte values `v` for which the box blur of a uniform field of value `v` comes
out as `v - 1`: the nine rounded products `(1 / 9.0) * v` add up to a `double` just
below `v`, which the narrowing truncates. -/
def blurLoss : List Nat :=
  [5, 7, 10, 11, 14, 15, 20, 21, 22, 28, 29, 30, 31, 40, 42, 44, 49, 51, 53, 56, 58, 60,
   62, 69, 71, 75, 79, 80, 84, 88, 89, 93, 97, 98, 102, 106, 107, 111, 112, 115, 116, 120,
   121, 124, 125, 129, 133, 138, 142, 149, 150, 151, 158, 159, 160, 167, 168, 169, 176,
   177, 178, 185, 186, 187, 194, 195, 196, 203, 204, 205, 212, 213, 214, 221, 222, 223,
   224, 230, 231, 232, 233, 239, 240, 241, 242, 248, 249, 250, 251]

/-- The column that `getPixelValue` reads for the kernel column `j`: `mx`, `x`, `px`. -/
def tapColumn (srcImage : Image) (x : Int) : Fin 3 → Int
  | 0 => if x - 1 < 0 then 0 else x - 1
  | 1 => x
  | 2 => if x + 1 ≥ srcImage.width then srcImage.width - 1 else x + 1

/-- The row that `getPixelValue` reads for the kernel row `i`: `my`, `y`, `py`. -/
def tapRow (srcImage : Image) (y : Int) : Fin 3 → Int
  | 0 => if y - 1 < 0 then 0 else y - 1
  | 1 => y
  | 2 => if y + 1 ≥ srcImage.height then srcImage.height - 1 else y + 1

/-- The neighbour position that the kernel entry `[i][j]` stands for at `(x, y)`. -/
def neighbourPos (x y : Int) (i j : Fin 3) : Int × Int :=
  (x + (j.val : Int) - 1, y + (i.val : Int) - 1)

/-- The position `p = (column, row)` lies inside the image. -/
def InImage (im : Image) (p : Int × Int) : Prop :=
  0 ≤ p.1 ∧ p.1 < im.width ∧ 0 ≤ p.2 ∧ p.2 < im.height

instance (im : Image) (p : Int × Int) : Decidable (InImage im p) := by
  unfold InImage; infer_instance

/-- The 3x3 one-channel image `[[10,20,30],[40,50,60],[70,80,90]]`. -/
def grid3 : Image :=
  { data := [10, 20, 30, 40, 50, 60, 70, 80, 90], width := 3, height := 3, bpp := 1 }

/-- The kernel whose only non-zero weight is `1` at `[0][2]` (neighbour `(+1, -1)`). -/
def topRight : Matrix :=
  mat3 (row3 (lit 0) (lit 0) (lit 1)) (row3 (lit 0) (lit 0) (lit 0))
    (row3 (lit 0) (lit 0) (lit 0))

/-- The 3x3 one-channel image with a centre of 255 and direct neighbours 0. -/
def spike : Image :=
  { data := [7, 0, 7, 0, 255, 0, 7, 0, 7], width := 3, height := 3, bpp := 1 }

/-- The 3x3 one-channel image that is 0 except for 255 just above the centre. -/
def above : Image :=
  { data := [0, 255, 0, 0, 0, 0, 0, 0, 0], width := 3, height := 3, bpp := 1 }

/-! ## The log of the writes -/

/-- The assignment of `storePixel` together with a log: the offset that was written
(for which `getPixelValue` was called once) is appended to the log. -/
def storePixelLogged (row pix bit : Int) (s : ThreadData × List Int) :
    Option (ThreadData × List Int) :=
  (storePixel row pix bit s.1).map fun d =>
    (d, s.2 ++ [Index pix row s.1.srcImage.width bit s.1.srcImage.bpp])

/-- The loops of `convoluteThread` with the log of the offsets written. -/
def convoluteThreadLogged (data : ThreadData) (log : List Int) :
    Option (ThreadData × List Int) :=
  forRange data.startRow data.endRow (fun row s =>
    forRange 0 s.1.srcImage.width (fun pix s =>
      forRange 0 s.1.srcImage.bpp (fun bit s => storePixelLogged row pix bit s) s) s)
    (data, log)

/-- The offsets `lo, lo + 1, ..., hi - 1`. -/
def offsets (lo hi : Int) : List Int :=
  (List.range (hi - lo).toNat).map fun (k : Nat) => lo + (k : Int)

/-- The state of a logged run of a thread whose rows start at offset `lo`, when the
next offset to be written is `k`. -/
def stateAt (d : ThreadData) (lo : Int) (log : List Int) (k : Int) :
    ThreadData × List Int :=
  (d.withDest (fill d.srcImage d.algorithm lo k d.destImage.data), log ++ offsets lo k)

/-- The offsets of the rows of one record. -/
def threadOffsets (src : Image) (d : ThreadData) : List Int :=
  offsets (rowOffset src d.startRow) (rowOffset src d.endRow)

/-- The offsets of the rows of the records of a list, record after record. -/
def writeLog (src : Image) : List ThreadData → List Int
  | [] => []
  | d :: ds => threadOffsets src d ++ writeLog src ds

/-! ## The trace of the calls and of the writes -/

/-- What a run did, in the order in which it did it: `calls` holds the arguments
`(x, y, bit)` of every call of `getPixelValue` that returned, and `writes` holds the
offset and the byte `(i, v)` of every store `data[i] = v` that was made. -/
structure Trace where
  calls : List (Int × Int × Int)
  writes : List (Int × Nat)

/-- The call `getPixelValue(srcImage, x, y, bit, algorithm)`: its value, and the trace
with the call recorded. -/
def getPixelValueTraced (srcImage : Image) (x y bit : Int) (algorithm : Matrix)
    (t : Trace) : Option (Nat × Trace) :=
  (getPixelValue srcImage x y bit algorithm).map fun v =>
    (v, { t with calls := t.calls ++ [(x, y, bit)] })

/-- The write `data[i] = v`: the buffer after it, and the trace with the write
recorded. -/
def writeByteTraced (data : List Nat) (i : Int) (v : Nat) (t : Trace) :
    Option (List Nat × Trace) :=
  (writeByte data i v).map fun buf => (buf, { t with writes := t.writes ++ [(i, v)] })

/-- The assignment of `storePixel`, made of the traced call and the traced write:
the right-hand side is evaluated, then its value is stored. -/
def storePixelTraced (row pix bit : Int) (s : ThreadData × Trace) :
    Option (ThreadData × Trace) :=
  (getPixelValueTraced s.1.srcImage pix row bit s.1.algorithm s.2).bind fun r =>
    (writeByteTraced s.1.destImage.data
      (Index pix row s.1.srcImage.width bit s.1.srcImage.bpp) r.1 r.2).map fun w =>
        ({ s.1 with destImage := { s.1.destImage with data := w.1 } }, w.2)

/-- The loops of `convoluteThread` over the traced assignment. -/
def convoluteThreadTraced (data : ThreadData) (t : Trace) : Option (ThreadData × Trace) :=
  forRange data.startRow data.endRow (fun row s =>
    forRange 0 s.1.srcImage.width (fun pix s =>
      forRange 0 s.1.srcImage.bpp (fun bit s => storePixelTraced row pix bit s) s) s)
    (data, t)

/-- The threads run one after the other on the shared destination, with one trace
for the whole run. -/
def runThreadsTraced (dest : Image) (t : Trace) : List ThreadData → Option (Image × Trace)
  | [] => some (dest, t)
  | d :: ds =>
    (convoluteThreadTraced { d with destImage := dest } t).bind fun r =>
      runThreadsTraced r.1.destImage r.2 ds

/-- The buffer `buf` after the writes of a list have been made with `writeByte`, in
order; `none` when one of them is outside the buffer. -/
def replay : List Nat → List (Int × Nat) → Option (List Nat)
  | buf, [] => some buf
  | buf, w :: ws => (writeByte buf w.1 w.2).bind fun b => replay b ws

/-- The cell `(x, y, bit)` stored at offset `i` of a buffer of the image. -/
def cellOf (src : Image) (i : Int) : Int × Int × Int :=
  ((i / src.bpp) % src.width, (i / src.bpp) / src.width, i % src.bpp)

/-- The write that stores at offset `i` the byte `getPixelValue` computes for the cell
kept there. -/
def entry (src : Image) (algorithm : Matrix) (i : Int) : Int × Nat :=
  (i, pixelAt src algorithm i.toNat)

/-- The trace `t` extended by the calls and the writes for the offsets `lo .. k - 1`,
in increasing order. -/
def traceAt (src : Image) (algorithm : Matrix) (lo k : Int) (t : Trace) : Trace :=
  { calls := t.calls ++ (offsets lo k).map (cellOf src),
    writes := t.writes ++ (offsets lo k).map (entry src algorithm) }

/-- The state of a traced run of a thread whose rows start at offset `lo`, when the
next offset to be written is `k`. -/
def stateTraced (d : ThreadData) (lo : Int) (t : Trace) (k : Int) : ThreadData × Trace :=
  (d.withDest (fill d.srcImage d.algorithm lo k d.destImage.data),
    traceAt d.srcImage d.algorithm lo k t)

/-- The `double` nearest to `1/9`, the value of the constant expression `1 / 9.0`:
`0x1.c71c71c71c71cp-4`. -/
def blurWeight : Dbl := Dbl.fin false 8006399337547548 (-56)

/-- The box-blur matrix with its nine weights evaluated. -/
def blurMatrix : Matrix :=
  mat3 (row3 blurWeight blurWeight blurWeight) (row3 blurWeight blurWeight blurWeight)
    (row3 blurWeight blurWeight blurWeight)

/-! ## The pixel value as the specification words it (section 4.3) -/

/-- The kernel entries `(row, column)` in row-major order, top-left to bottom-right. -/
def kernelOrder : List (Fin 3 × Fin 3) :=
  [(0, 0), (0, 1), (0, 2), (1, 0), (1, 1), (1, 2), (2, 0), (2, 1), (2, 2)]

/-- The nine products of the specification: for the kernel entry `[i][j]`, the
weight times the channel-`c` byte of the neighbour at offset `(j - 1, i - 1)`, each
coordinate clamped independently to the image. -/
def specTerms (src : Image) (x y c : Int) (K : Matrix) : List Dbl :=
  kernelOrder.map fun p =>
    Dbl.mul (K p.1 p.2)
      (Dbl.ofInt (neighbourByte src x y c ((p.2.val : Int) - 1) ((p.1.val : Int) - 1)))

/-- The sum of a list of `double`s from left to right. -/
def sumLeft : List Dbl → Dbl
  | [] => Dbl.ofInt 0
  | t :: ts => ts.foldl Dbl.add t

/-- The output byte of the specification: the nine products summed in row-major
order and narrowed to 8 bits. -/
def specPixel (src : Image) (x y c : Int) (K : Matrix) : Nat :=
  Dbl.toUInt8 (sumLeft (specTerms src x y c K))

/-- The `double` `d` holds the dyadic number `z / 2^k` exactly: a finite value whose
exponent is at most `-k`, whose mantissa is `|z|` scaled accordingly, with the sign
of `z` (either sign for zero). -/
def Dbl.HoldsS (d : Dbl) (z : Int) (k : Nat) : Prop :=
  ∃ (s : Bool) (m : Nat) (e : Int), d = Dbl.fin s m e ∧ e + (k : Int) ≤ 0 ∧
    m = z.natAbs * 2 ^ (-(e + (k : Int))).toNat ∧ (z ≠ 0 → s = decide (z < 0))

/-! ## Offsets -/

theorem Index_bounds (w h c x y b : Int) (hc : 1 ≤ c)
    (hx : 0 ≤ x ∧ x < w) (hy : 0 ≤ y ∧ y < h) (hb : 0 ≤ b ∧ b < c) :
    0 ≤ Index x y w b c ∧ Index x y w b c < w * h * c := by
  unfold Index
  have h1 : 0 ≤ y * w + x := by nlinarith [hx.1, hy.1, mul_nonneg hy.1 (by linarith : (0:Int) ≤ w)]
  have h2 : y * w + x ≤ h * w - 1 := by nlinarith [hx.2, hy.2]
  constructor
  · nlinarith [mul_nonneg h1 (by linarith : (0:Int) ≤ c), hb.1]
  · nlinarith [hb.2, mul_le_mul_of_nonneg_right h2 (by linarith : (0:Int) ≤ c)]

theorem Index_decode (w c x y b : Int)
    (hx : 0 ≤ x ∧ x < w) (hb : 0 ≤ b ∧ b < c) :
    Index x y w b c % c = b ∧ (Index x y w b c / c) % w = x ∧ (Index x y w b c / c) / w = y := by
  unfold Index
  have hc : c ≠ 0 := by omega
  have hw : w ≠ 0 := by omega
  have e1 : ((y * w + x) * c + b) % c = b := by
    rw [add_comm, Int.add_mul_emod_self]; exact Int.emod_eq_of_lt hb.1 hb.2
  have e2 : ((y * w + x) * c + b) / c = y * w + x := by
    rw [add_comm, Int.add_mul_ediv_right _ _ hc, Int.ediv_eq_zero_of_lt hb.1 hb.2, zero_add]
  refine ⟨e1, ?_, ?_⟩
  · rw [e2, add_comm, Int.add_mul_emod_self]; exact Int.emod_eq_of_lt hx.1 hx.2
  · rw [e2, add_comm, Int.add_mul_ediv_right _ _ hw, Int.ediv_eq_zero_of_lt hx.1 hx.2, zero_add]

theorem readByte_eq_some (data : List Nat) (i : Int) (h0 : 0 ≤ i) (h1 : i < data.length) :
    readByte data i = some (data.getD i.toNat 0) := by
  unfold readByte
  have : i.toNat < data.length := by omega
  simp [h0, List.getD_eq_getElem?_getD, List.getElem?_eq_getElem this]

/-- The clamped neighbour coordinates of an in-range coordinate are in range. -/
theorem clamp_bounds (x w : Int) (hx : 0 ≤ x ∧ x < w) :
    (0 ≤ (if x - 1 < 0 then 0 else x - 1) ∧ (if x - 1 < 0 then 0 else x - 1) < w) ∧
    (0 ≤ (if x + 1 ≥ w then w - 1 else x + 1) ∧ (if x + 1 ≥ w then w - 1 else x + 1) < w) := by
  split_ifs <;> omega

/-- On a well-formed image every read of `getPixelValue` at an in-range cell is
inside the buffer, so the call returns a byte. -/
theorem getPixelValue_eq_some (src : Image) (K : Matrix) (hv : src.Valid) (x y c : Int)
    (hx : 0 ≤ x ∧ x < src.width) (hy : 0 ≤ y ∧ y < src.height) (hc : 0 ≤ c ∧ c < src.bpp) :
    ∃ v, getPixelValue src x y c K = some v := by
  obtain ⟨hw, hh, hb, hlen, -⟩ := hv
  have rd : ∀ u v : Int, (0 ≤ u ∧ u < src.width) → (0 ≤ v ∧ v < src.height) →
      readByte src.data (Index u v src.width c src.bpp) =
        some (src.data.getD (Index u v src.width c src.bpp).toNat 0) := by
    intro u v hu hv
    have := Index_bounds src.width src.height src.bpp u v c hb hu hv hc
    exact readByte_eq_some _ _ this.1 (by rw [hlen]; exact this.2)
  obtain ⟨hmx, hpx⟩ := clamp_bounds x src.width hx
  obtain ⟨hmy, hpy⟩ := clamp_bounds y src.height hy
  unfold getPixelValue
  simp only [rd _ _ hmx hmy, rd _ _ hx hmy, rd _ _ hpx hmy, rd _ _ hmx hy, rd _ _ hx hy,
    rd _ _ hpx hy, rd _ _ hmx hpy, rd _ _ hx hpy, rd _ _ hpx hpy, Option.some_bind]
  exact ⟨_, rfl⟩

theorem getPixelValue_eq_pixelAt (src : Image) (K : Matrix) (hv : src.Valid) (x y c : Int)
    (hx : 0 ≤ x ∧ x < src.width) (hy : 0 ≤ y ∧ y < src.height) (hc : 0 ≤ c ∧ c < src.bpp) :
    getPixelValue src x y c K = some (pixelAt src K (Index x y src.width c src.bpp).toNat) := by
  obtain ⟨v, hv1⟩ := getPixelValue_eq_some src K hv x y c hx hy hc
  have hb := Index_bounds src.width src.height src.bpp x y c hv.2.2.1 hx hy hc
  obtain ⟨d1, d2, d3⟩ := Index_decode src.width src.bpp x y c hx hc
  unfold pixelAt
  rw [Int.toNat_of_nonneg hb.1, d1, d2, d3, hv1]
  rfl

/-! ## Loops -/

/-- A loop whose iterations follow a known trajectory `f 0, f 1, ...` ends in `f n`. -/
theorem forLoop_traj {σ : Type} (body : Int → σ → Option σ) (f : Nat → σ) (n : Nat) (i0 : Int)
    (h : ∀ k < n, body (i0 + k) (f k) = some (f (k + 1))) :
    forLoop body n i0 (f 0) = some (f n) := by
  induction n generalizing i0 f with
  | zero => rfl
  | succ n ih =>
    have h0 := h 0 (Nat.succ_pos n)
    simp only [Nat.cast_zero, add_zero] at h0
    rw [forLoop, h0, Option.some_bind]
    have := ih (fun k => f (k + 1)) (i0 + 1) (by
      intro k hk
      have := h (k + 1) (Nat.succ_lt_succ hk)
      simpa [add_assoc, add_comm 1 (k : Int)] using this)
    simpa using this

theorem forRange_traj {σ : Type} (body : Int → σ → Option σ) (f : Nat → σ) (lo hi : Int)
    (hle : lo ≤ hi) (h : ∀ k : Nat, (k : Int) < hi - lo → body (lo + k) (f k) = some (f (k + 1))) :
    forRange lo hi body (f 0) = some (f (hi - lo).toNat) := by
  unfold forRange
  apply forLoop_traj
  intro k hk
  apply h
  omega

theorem fill_length (src : Image) (K : Matrix) (lo hi : Int) (buf : List Nat) :
    (fill src K lo hi buf).length = buf.length := by
  simp [fill]

theorem fill_getD (src : Image) (K : Matrix) (lo hi : Int) (buf : List Nat) (j : Nat)
    (hj : j < buf.length) :
    (fill src K lo hi buf).getD j 0 =
      if lo ≤ (j : Int) ∧ (j : Int) < hi then pixelAt src K j else buf.getD j 0 := by
  simp [fill, List.getD_eq_getElem?_getD, hj]

/-- Two buffers of the same length with the same bytes are equal. -/
theorem ext_getD (a b : List Nat) (hl : a.length = b.length)
    (h : ∀ j < a.length, a.getD j 0 = b.getD j 0) : a = b := by
  apply List.ext_getElem hl
  intro j h1 h2
  have := h j h1
  simpa [List.getD_eq_getElem?_getD, List.getElem?_eq_getElem h1,
    List.getElem?_eq_getElem h2] using this

theorem fill_empty (src : Image) (K : Matrix) (lo hi : Int) (buf : List Nat) (h : hi ≤ lo) :
    fill src K lo hi buf = buf := by
  apply ext_getD _ _ (fill_length ..)
  intro j hj
  rw [fill_length] at hj
  rw [fill_getD _ _ _ _ _ _ hj, if_neg (by omega)]

/-- Writing the convolved byte at offset `k` extends the filled interval by one. -/
theorem writeByte_fill (src : Image) (K : Matrix) (lo : Int) (k : Nat) (buf : List Nat)
    (hlo : lo ≤ k) (hk : k < buf.length) :
    writeByte (fill src K lo k buf) (k : Int) (pixelAt src K k) =
      some (fill src K lo ((k : Int) + 1) buf) := by
  unfold writeByte
  rw [if_pos (by rw [fill_length]; exact ⟨by omega, by simpa using hk⟩)]
  congr 1
  apply ext_getD
  · simp [fill_length]
  · intro j hj
    rw [List.length_set, fill_length] at hj
    rw [fill_getD _ _ _ _ _ _ hj]
    simp only [Int.toNat_ofNat]
    rw [List.getD_eq_getElem?_getD, List.getElem?_set]
    by_cases hjk : k = j
    · subst hjk
      simp [fill_length, hk, hlo]
    · rw [if_neg hjk, ← List.getD_eq_getElem?_getD, fill_getD _ _ _ _ _ _ hj]
      have : ((j : Int) < k + 1) ↔ ((j : Int) < k) := by omega
      simp only [this]

theorem storePixel_fill (d : ThreadData) (hr : d.Ready) (lo : Int) (r p b : Int)
    (hy : 0 ≤ r ∧ r < d.srcImage.height) (hx : 0 ≤ p ∧ p < d.srcImage.width)
    (hc : 0 ≤ b ∧ b < d.srcImage.bpp)
    (hlo : lo ≤ Index p r d.srcImage.width b d.srcImage.bpp) :
    storePixel r p b (d.withDest (fill d.srcImage d.algorithm lo
        (Index p r d.srcImage.width b d.srcImage.bpp) d.destImage.data)) =
      some (d.withDest (fill d.srcImage d.algorithm lo
        (Index p r d.srcImage.width b d.srcImage.bpp + 1) d.destImage.data)) := by
  obtain ⟨hv, hlen⟩ := hr
  have hb := Index_bounds d.srcImage.width d.srcImage.height d.srcImage.bpp p r b hv.2.2.1 hx hy hc
  have hlt : (Index p r d.srcImage.width b d.srcImage.bpp).toNat < d.destImage.data.length := by
    have := hv.2.2.2.1
    omega
  have hw := writeByte_fill d.srcImage d.algorithm lo
    (Index p r d.srcImage.width b d.srcImage.bpp).toNat d.destImage.data
    (by rw [Int.toNat_of_nonneg hb.1]; exact hlo) hlt
  rw [Int.toNat_of_nonneg hb.1] at hw
  unfold storePixel
  show (getPixelValue d.srcImage p r b d.algorithm).bind _ = _
  rw [getPixelValue_eq_pixelAt d.srcImage d.algorithm hv p r b hx hy hc, Option.some_bind]
  show (writeByte (fill d.srcImage d.algorithm lo
      (Index p r d.srcImage.width b d.srcImage.bpp) d.destImage.data)
      (Index p r d.srcImage.width b d.srcImage.bpp)
      (pixelAt d.srcImage d.algorithm (Index p r d.srcImage.width b d.srcImage.bpp).toNat)).map
      _ = _
  rw [hw]
  rfl

/-- The loop over the channels of one pixel. -/
theorem bitLoop_fill (d : ThreadData) (hr : d.Ready) (lo : Int) (r p : Int)
    (hy : 0 ≤ r ∧ r < d.srcImage.height) (hx : 0 ≤ p ∧ p < d.srcImage.width)
    (hlo : lo ≤ Index p r d.srcImage.width 0 d.srcImage.bpp) :
    forRange 0 d.srcImage.bpp (fun bit s => storePixel r p bit s)
        (d.withDest (fill d.srcImage d.algorithm lo
          (Index p r d.srcImage.width 0 d.srcImage.bpp) d.destImage.data)) =
      some (d.withDest (fill d.srcImage d.algorithm lo
        (Index (p + 1) r d.srcImage.width 0 d.srcImage.bpp) d.destImage.data)) := by
  have hb1 : 1 ≤ d.srcImage.bpp := hr.1.2.2.1
  have key := forRange_traj (fun bit s => storePixel r p bit s)
    (fun k : Nat => d.withDest (fill d.srcImage d.algorithm lo
      (Index p r d.srcImage.width k d.srcImage.bpp) d.destImage.data)) 0 d.srcImage.bpp
    (by omega) (by
      intro k hk
      have := storePixel_fill d hr lo r p k hy hx ⟨by omega, by omega⟩
        (by unfold Index at hlo ⊢; omega)
      have e : Index p r d.srcImage.width (k : Int) d.srcImage.bpp + 1 =
          Index p r d.srcImage.width ((k + 1 : Nat) : Int) d.srcImage.bpp := by
        unfold Index; push_cast; ring
      simpa [e] using this)
  have e2 : Index p r d.srcImage.width ((d.srcImage.bpp - 0).toNat : Int) d.srcImage.bpp =
      Index (p + 1) r d.srcImage.width 0 d.srcImage.bpp := by
    rw [Int.toNat_of_nonneg (by omega)]; unfold Index; ring
  simp only [Nat.cast_zero] at key
  rw [e2] at key
  exact key

/-- The loop over the pixels of one row. -/
theorem pixLoop_fill (d : ThreadData) (hr : d.Ready) (lo : Int) (r : Int)
    (hy : 0 ≤ r ∧ r < d.srcImage.height)
    (hlo : lo ≤ Index 0 r d.srcImage.width 0 d.srcImage.bpp) :
    forRange 0 d.srcImage.width (fun pix s =>
        forRange 0 s.srcImage.bpp (fun bit s => storePixel r pix bit s) s)
        (d.withDest (fill d.srcImage d.algorithm lo
          (Index 0 r d.srcImage.width 0 d.srcImage.bpp) d.destImage.data)) =
      some (d.withDest (fill d.srcImage d.algorithm lo
        (Index 0 (r + 1) d.srcImage.width 0 d.srcImage.bpp) d.destImage.data)) := by
  have hw1 : 1 ≤ d.srcImage.width := hr.1.1
  have hb1 : 1 ≤ d.srcImage.bpp := hr.1.2.2.1
  have key := forRange_traj (fun pix s =>
      forRange 0 s.srcImage.bpp (fun bit s => storePixel r pix bit s) s)
    (fun k : Nat => d.withDest (fill d.srcImage d.algorithm lo
      (Index k r d.srcImage.width 0 d.srcImage.bpp) d.destImage.data)) 0 d.srcImage.width
    (by omega) (by
      intro k hk
      have := bitLoop_fill d hr lo r k hy ⟨by omega, by omega⟩
        (by
          have : 0 ≤ (k : Int) * d.srcImage.bpp := mul_nonneg (by omega) (by omega)
          unfold Index at hlo ⊢; nlinarith)
      simpa [ThreadData.withDest] using this)
  have e2 : Index ((d.srcImage.width - 0).toNat : Int) r d.srcImage.width 0 d.srcImage.bpp =
      Index 0 (r + 1) d.srcImage.width 0 d.srcImage.bpp := by
    rw [Int.toNat_of_nonneg (by omega)]; unfold Index; ring
  simp only [Nat.cast_zero] at key
  rw [e2] at key
  exact key

theorem rowOffset_mono (src : Image) (hv : src.Valid) (a b : Int) (h : a ≤ b) :
    rowOffset src a ≤ rowOffset src b := by
  have hw : 0 ≤ src.width := by have := hv.1; omega
  have hb : 0 ≤ src.bpp := by have := hv.2.2.1; omega
  unfold rowOffset Index
  have := mul_le_mul_of_nonneg_right (mul_le_mul_of_nonneg_right h hw) hb
  linarith

theorem withDest_self (d : ThreadData) : d.withDest d.destImage.data = d := rfl

/-- The three nested loops over the rows `s .. e - 1`. -/
theorem rowLoop_fill (d : ThreadData) (hr : d.Ready) (s e : Int)
    (hs : 0 ≤ s) (he : e ≤ d.srcImage.height) :
    forRange s e (fun row st =>
        forRange 0 st.srcImage.width (fun pix st =>
          forRange 0 st.srcImage.bpp (fun bit st => storePixel row pix bit st) st) st) d =
      some (d.withDest (fill d.srcImage d.algorithm (rowOffset d.srcImage s)
        (rowOffset d.srcImage e) d.destImage.data)) := by
  by_cases hse : s ≤ e
  · have key := forRange_traj (fun row st =>
        forRange 0 st.srcImage.width (fun pix st =>
          forRange 0 st.srcImage.bpp (fun bit st => storePixel row pix bit st) st) st)
      (fun k : Nat => d.withDest (fill d.srcImage d.algorithm (rowOffset d.srcImage s)
        (rowOffset d.srcImage (s + k)) d.destImage.data)) s e hse (by
        intro k hk
        have := pixLoop_fill d hr (rowOffset d.srcImage s) (s + k) ⟨by omega, by omega⟩
          (rowOffset_mono d.srcImage hr.1 _ _ (by omega))
        have e1 : s + ((k + 1 : Nat) : Int) = s + (k : Int) + 1 := by push_cast; ring
        simp only [e1]
        exact this)
    simp only [Nat.cast_zero, add_zero] at key
    rw [fill_empty _ _ _ _ _ (le_refl _), withDest_self] at key
    rw [Int.toNat_of_nonneg (by omega)] at key
    have e2 : s + (e - s) = e := by ring
    rw [e2] at key
    exact key
  · have h0 : (e - s).toNat = 0 := by omega
    rw [fill_empty _ _ _ _ _ (rowOffset_mono d.srcImage hr.1 _ _ (by omega)), withDest_self]
    unfold forRange
    rw [h0]
    rfl

/-- What `convoluteThread` does: it returns, and the destination buffer holds the
convolved bytes at the offsets of the rows `startRow .. endRow - 1` and is unchanged
elsewhere. -/
theorem convoluteThread_eq (d : ThreadData) (hr : d.Ready)
    (hs : 0 ≤ d.startRow) (he : d.endRow ≤ d.srcImage.height) :
    convoluteThread d =
      some (d.withDest (fill d.srcImage d.algorithm (rowOffset d.srcImage d.startRow)
        (rowOffset d.srcImage d.endRow) d.destImage.data)) :=
  rowLoop_fill d hr d.startRow d.endRow hs he

/-- What the serial `convolute` does. -/
theorem convolute_eq (src dest : Image) (K : Matrix) (hv : src.Valid)
    (hl : dest.data.length = src.data.length) :
    convolute src dest K =
      some { dest with data := fill src K 0 (src.data.length : Int) dest.data } := by
  unfold convolute
  have := rowLoop_fill (ThreadData.mk src dest K 0 src.height) ⟨hv, hl⟩ 0 src.height
    (le_refl _) (le_refl _)
  rw [this]
  have e0 : rowOffset src 0 = 0 := by unfold rowOffset Index; ring
  have e1 : rowOffset src src.height = (src.data.length : Int) := by
    rw [hv.2.2.2.1]; unfold rowOffset Index; ring
  simp only [Option.map_some', ThreadData.withDest, e0, e1]

theorem runThread_eq (dest : Image) (d : ThreadData) (hv : d.srcImage.Valid)
    (hl : dest.data.length = d.srcImage.data.length)
    (hs : 0 ≤ d.startRow) (he : d.endRow ≤ d.srcImage.height) :
    runThread dest d =
      some { dest with data := (fill d.srcImage d.algorithm (rowOffset d.srcImage d.startRow)
        (rowOffset d.srcImage d.endRow) dest.data) } := by
  unfold runThread
  rw [convoluteThread_eq (ThreadData.mk d.srcImage dest d.algorithm d.startRow d.endRow)
    ⟨hv, hl⟩ hs he]
  rfl

/-! ## Exact arithmetic on small integers -/

namespace Dbl

theorem log_div_pow (m s : Nat) : Nat.log 2 (m / 2 ^ s) = Nat.log 2 m - s := by
  induction s with
  | zero => simp
  | succ s ih =>
    rw [pow_succ, ← Nat.div_div_eq_div_mul, Nat.log_div_base, ih]
    omega

theorem log_split (m s : Nat) (h : 2 ^ s ≤ m) :
    Nat.log 2 m = Nat.log 2 (m / 2 ^ s) + s := by
  have h1 : s ≤ Nat.log 2 m :=
    (Nat.pow_le_iff_le_log (by norm_num) (by have := Nat.pos_pow_of_pos s (by norm_num : 0 < 2); omega)).1 h
  rw [log_div_pow]
  omega

/-- A bisection step keeps `acc + log2 m` and halves the number of digits. -/
theorem bisect_spec (s : Nat) (p : Nat × Nat) (hp : p.2 < 2 ^ (2 * s)) :
    (bisect s p).1 + Nat.log 2 (bisect s p).2 = p.1 + Nat.log 2 p.2 ∧
      (bisect s p).2 < 2 ^ s := by
  unfold bisect
  by_cases h : p.2 < 2 ^ s
  · rw [if_pos h]
    exact ⟨rfl, h⟩
  · rw [if_neg h]
    refine ⟨?_, ?_⟩
    · show p.1 + s + Nat.log 2 (p.2 / 2 ^ s) = _
      rw [log_split p.2 s (by omega)]
      omega
    · show p.2 / 2 ^ s < 2 ^ s
      apply Nat.div_lt_of_lt_mul
      rw [← pow_add]
      have : s + s = 2 * s := by ring
      rw [this]
      exact hp

theorem log2Small_eq (m : Nat) (h : m < 2 ^ 64) : log2Small m = Nat.log 2 m := by
  obtain ⟨e1, b1⟩ := bisect_spec 32 (0, m) h
  obtain ⟨e2, b2⟩ := bisect_spec 16 _ b1
  obtain ⟨e3, b3⟩ := bisect_spec 8 _ b2
  obtain ⟨e4, b4⟩ := bisect_spec 4 _ b3
  obtain ⟨e5, b5⟩ := bisect_spec 2 _ b4
  obtain ⟨e6, b6⟩ := bisect_spec 1 _ b5
  have hz : Nat.log 2
      (bisect 1 (bisect 2 (bisect 4 (bisect 8 (bisect 16 (bisect 32 (0, m))))))).2 = 0 :=
    Nat.log_of_lt b6
  unfold log2Small
  rw [hz] at e6
  simp only [Nat.zero_add, Nat.add_zero] at e1 e6
  omega

theorem log2Aux_eq (fuel m : Nat) (h : m ≤ fuel) : log2Aux fuel m = Nat.log 2 m := by
  induction fuel generalizing m with
  | zero =>
    have : m = 0 := by omega
    subst this
    simp [log2Aux]
  | succ n ih =>
    unfold log2Aux
    by_cases h2 : m < 2 ^ 64
    · rw [if_pos h2, log2Small_eq m h2]
    · rw [if_neg h2]
      have hm : m / 2 ^ 64 ≤ n := by
        have : m / 2 ^ 64 < m := Nat.div_lt_self (by omega) (by norm_num)
        omega
      rw [ih (m / 2 ^ 64) hm, ← log_split m 64 (by omega)]

theorem log2_eq (m : Nat) : log2 m = Nat.log 2 m := log2Aux_eq m m (le_refl m)

/-- The canonical form of a positive integer `P < 2^53`, scaled by any power of two
in the mantissa and the opposite power in the exponent: rounding is exact. -/
theorem round_scaled (neg : Bool) (P k : Nat) (hP : 0 < P) (hlt : P < 2 ^ 53) :
    round neg (P * 2 ^ k) (-(k : Int)) =
      fin neg (P * 2 ^ (52 - Nat.log 2 P)) ((Nat.log 2 P : Int) - 52) := by
  have hL : Nat.log 2 P < 53 := Nat.log_lt_of_lt_pow (by omega) hlt
  have hlog : Nat.log 2 (P * 2 ^ k) = Nat.log 2 P + k := by
    induction k with
    | zero => simp
    | succ k ih =>
      rw [pow_succ, ← mul_assoc, Nat.log_mul_base (by norm_num) (by positivity), ih]
      ring
  have hne : P * 2 ^ k ≠ 0 := by positivity
  unfold round
  rw [if_neg hne]
  simp only [log2_eq, hlog]
  have ht : max (-(k : Int) + (((Nat.log 2 P + k : Nat) : Int) + 1) - 53) (-1074) =
      (Nat.log 2 P : Int) - 52 := by
    push_cast; omega
  rw [ht]
  by_cases hc : (Nat.log 2 P : Int) - 52 ≤ -(k : Int)
  · rw [if_pos hc, if_neg (by omega)]
    have e : (-(k : Int) - ((Nat.log 2 P : Int) - 52)).toNat = 52 - Nat.log 2 P - k := by omega
    have e3 : k + (52 - Nat.log 2 P - k) = 52 - Nat.log 2 P := by omega
    rw [e, mul_assoc, ← pow_add, e3]
  · rw [if_neg hc]
    have e : ((Nat.log 2 P : Int) - 52 - -(k : Int)).toNat = k - (52 - Nat.log 2 P) := by omega
    simp only [e]
    have hk : k = (52 - Nat.log 2 P) + (k - (52 - Nat.log 2 P)) := by omega
    have hM : P * 2 ^ k = (P * 2 ^ (52 - Nat.log 2 P)) * 2 ^ (k - (52 - Nat.log 2 P)) := by
      rw [mul_assoc, ← pow_add, ← hk]
    have hq : P * 2 ^ k / 2 ^ (k - (52 - Nat.log 2 P)) = P * 2 ^ (52 - Nat.log 2 P) := by
      rw [hM]; exact Nat.mul_div_cancel _ (by positivity)
    have hr : P * 2 ^ k % 2 ^ (k - (52 - Nat.log 2 P)) = 0 := by
      rw [hM]; exact Nat.mul_mod_left _ _
    have hub : P * 2 ^ (52 - Nat.log 2 P) < 2 ^ 53 := by
      have h1 : P < 2 ^ (Nat.log 2 P + 1) := Nat.lt_pow_succ_log_self (by norm_num) P
      calc P * 2 ^ (52 - Nat.log 2 P) < 2 ^ (Nat.log 2 P + 1) * 2 ^ (52 - Nat.log 2 P) :=
            Nat.mul_lt_mul_of_pos_right h1 (by positivity)
        _ = 2 ^ 53 := by rw [← pow_add]; congr 1; omega
    have hpos : 0 < 2 ^ (k - (52 - Nat.log 2 P) - 1) := by positivity
    rw [hq, hr]
    have hcond : ¬ (2 ^ (k - (52 - Nat.log 2 P) - 1) < 0 ∨
        (0 = 2 ^ (k - (52 - Nat.log 2 P) - 1) ∧ P * 2 ^ (52 - Nat.log 2 P) % 2 = 1)) := by
      omega
    rw [if_neg hcond, if_neg (by omega), if_neg (by omega)]

/-- The result of an exact rounding holds the integer. -/
theorem holds_round (z : Int) (k : Nat) (hz : z.natAbs < 2 ^ 53) :
    Holds (round (decide (z < 0)) (z.natAbs * 2 ^ k) (-(k : Int))) z := by
  by_cases h0 : z = 0
  · subst h0
    refine ⟨false, 0, -1074, ?_, by norm_num, by rw [Int.natAbs_zero, zero_mul], by simp⟩
    simp [round]
  · have hpos : 0 < z.natAbs := Int.natAbs_pos.2 h0
    have hL : Nat.log 2 z.natAbs < 53 := Nat.log_lt_of_lt_pow (by omega) hz
    rw [round_scaled _ _ _ hpos hz]
    refine ⟨_, _, _, rfl, by omega, ?_, fun _ => rfl⟩
    congr 2
    omega

theorem holds_ofInt (z : Int) (hz : z.natAbs < 2 ^ 53) : Holds (ofInt z) z := by
  have := holds_round z 0 hz
  simpa [ofInt] using this

theorem holds_mul (a b : Dbl) (x y : Int) (ha : Holds a x) (hb : Holds b y)
    (hxy : (x * y).natAbs < 2 ^ 53) : Holds (mul a b) (x * y) := by
  obtain ⟨s, m, e, rfl, he, hm, hs⟩ := ha
  obtain ⟨t, m1, e1, rfl, he1, hm1, ht⟩ := hb
  have key := holds_round (x * y) ((-e).toNat + (-e1).toNat) hxy
  have e2 : e + e1 = -(((-e).toNat + (-e1).toNat : Nat) : Int) := by push_cast; omega
  have e3 : m * m1 = (x * y).natAbs * 2 ^ ((-e).toNat + (-e1).toNat) := by
    rw [hm, hm1, Int.natAbs_mul, pow_add]; ring
  show Holds (round (xor s t) (m * m1) (e + e1)) (x * y)
  rw [e2, e3]
  by_cases h0 : x * y = 0
  · rw [h0] at key ⊢
    simp only [Int.natAbs_zero, zero_mul] at key ⊢
    refine ⟨xor s t, 0, -1074, ?_, by norm_num, by rw [Int.natAbs_zero, zero_mul], by simp⟩
    simp [round]
  · have hx : x ≠ 0 := fun h => h0 (by rw [h, zero_mul])
    have hy : y ≠ 0 := fun h => h0 (by rw [h, mul_zero])
    have hsign : xor s t = decide (x * y < 0) := by
      rw [hs hx, ht hy]
      rcases lt_or_gt_of_ne hx with h1 | h1 <;> rcases lt_or_gt_of_ne hy with h2 | h2
      · have : ¬ (x * y < 0) := not_lt.2 (le_of_lt (mul_pos_of_neg_of_neg h1 h2))
        simp [h1, h2, this]
      · have : x * y < 0 := mul_neg_of_neg_of_pos h1 h2
        simp [h1, not_lt.2 (le_of_lt h2), this]
      · have : x * y < 0 := mul_neg_of_pos_of_neg h1 h2
        simp [h2, not_lt.2 (le_of_lt h1), this]
      · have : ¬ (x * y < 0) := not_lt.2 (le_of_lt (mul_pos h1 h2))
        simp [not_lt.2 (le_of_lt h1), not_lt.2 (le_of_lt h2), this]
    rw [hsign]
    exact key

/-- The signed mantissa of a value holding `x`, aligned to the exponent `-k`. -/
theorem holds_aligned (s : Bool) (m : Nat) (e : Int) (x : Int) (k : Nat)
    (hm : m = x.natAbs * 2 ^ (-e).toNat) (hs : x ≠ 0 → s = decide (x < 0))
    (he : e ≤ 0) (hk : -(k : Int) ≤ e) :
    (if s then -1 else 1) * ((m * 2 ^ (e - -(k : Int)).toNat : Nat) : Int) = x * 2 ^ k := by
  have ek : (-e).toNat + (e - -(k : Int)).toNat = k := by omega
  have hmk : m * 2 ^ (e - -(k : Int)).toNat = x.natAbs * 2 ^ k := by
    rw [hm, mul_assoc, ← pow_add, ek]
  rw [hmk]
  push_cast
  by_cases h0 : x = 0
  · subst h0; simp
  · rw [hs h0]
    rcases lt_or_gt_of_ne h0 with h1 | h1
    · simp only [h1, decide_True, if_true]
      rw [abs_of_neg h1]; ring
    · have h2 : ¬ x < 0 := not_lt.2 (le_of_lt h1)
      simp only [h2, decide_False, Bool.false_eq_true, if_false]
      rw [abs_of_pos h1]; ring

theorem holds_add (a b : Dbl) (x y : Int) (ha : Holds a x) (hb : Holds b y)
    (hxy : (x + y).natAbs < 2 ^ 53) : Holds (add a b) (x + y) := by
  obtain ⟨s, m, e, rfl, he, hm, hs⟩ := ha
  obtain ⟨t, m1, e1, rfl, he1, hm1, ht⟩ := hb
  obtain ⟨k, hk⟩ : ∃ k : Nat, min e e1 = -(k : Int) :=
    ⟨(-(min e e1)).toNat, by have := min_le_left e e1; omega⟩
  have hke : -(k : Int) ≤ e := by rw [← hk]; exact min_le_left _ _
  have hke1 : -(k : Int) ≤ e1 := by rw [← hk]; exact min_le_right _ _
  have ea := holds_aligned s m e x k hm hs he hke
  have eb := holds_aligned t m1 e1 y k hm1 ht he1 hke1
  have hpow : (0 : Int) < 2 ^ k := by positivity
  show Holds (if (if s then -1 else 1) * ((m * 2 ^ (e - min e e1).toNat : Nat) : Int) +
      (if t then -1 else 1) * ((m1 * 2 ^ (e1 - min e e1).toNat : Nat) : Int) = 0
    then fin (s && t) 0 (-1074)
    else round (decide ((if s then -1 else 1) * ((m * 2 ^ (e - min e e1).toNat : Nat) : Int) +
      (if t then -1 else 1) * ((m1 * 2 ^ (e1 - min e e1).toNat : Nat) : Int) < 0))
      ((if s then -1 else 1) * ((m * 2 ^ (e - min e e1).toNat : Nat) : Int) +
      (if t then -1 else 1) * ((m1 * 2 ^ (e1 - min e e1).toNat : Nat) : Int)).natAbs
      (min e e1)) (x + y)
  rw [hk, ea, eb, ← add_mul]
  by_cases h0 : x + y = 0
  · rw [h0, zero_mul, if_pos rfl]
    exact ⟨s && t, 0, -1074, rfl, by norm_num, by rw [Int.natAbs_zero, zero_mul], by simp⟩
  · have hne : (x + y) * 2 ^ k ≠ 0 := mul_ne_zero h0 (ne_of_gt hpow)
    rw [if_neg hne]
    have hsg : decide ((x + y) * 2 ^ k < 0) = decide (x + y < 0) := by
      congr 1
      exact propext ⟨fun h => by nlinarith, fun h => by nlinarith⟩
    have habs : ((x + y) * 2 ^ k).natAbs = (x + y).natAbs * 2 ^ k := by
      rw [Int.natAbs_mul, Int.natAbs_pow]; rfl
    rw [hsg, habs]
    exact holds_round (x + y) k hxy

theorem toUInt8_holds (d : Dbl) (z : Int) (h : Holds d z)
    (hz : -2147483648 ≤ z ∧ z < 2147483648) : toUInt8 d = (z % 256).toNat := by
  obtain ⟨s, m, e, rfl, he, hm, hs⟩ := h
  have ha : (if 0 ≤ e then m * 2 ^ e.toNat else m / 2 ^ (-e).toNat) = z.natAbs := by
    by_cases h0 : 0 ≤ e
    · have : e = 0 := le_antisymm he h0
      subst this
      simp [hm]
    · rw [if_neg h0, hm]
      exact Nat.mul_div_cancel _ (by positivity)
  have hzz : (if s then -((z.natAbs : Nat) : Int) else ((z.natAbs : Nat) : Int)) = z := by
    by_cases h0 : z = 0
    · subst h0; simp
    · rw [hs h0]
      rcases lt_or_gt_of_ne h0 with h1 | h1
      · simp only [h1, decide_True, if_true]; omega
      · have h2 : ¬ z < 0 := not_lt.2 (le_of_lt h1)
        simp only [h2, decide_False, Bool.false_eq_true, if_false]; omega
  show (if -2147483648 ≤ (if s then
      -((if 0 ≤ e then m * 2 ^ e.toNat else m / 2 ^ (-e).toNat : Nat) : Int)
      else ((if 0 ≤ e then m * 2 ^ e.toNat else m / 2 ^ (-e).toNat : Nat) : Int)) ∧
      (if s then -((if 0 ≤ e then m * 2 ^ e.toNat else m / 2 ^ (-e).toNat : Nat) : Int)
      else ((if 0 ≤ e then m * 2 ^ e.toNat else m / 2 ^ (-e).toNat : Nat) : Int)) < 2147483648
    then ((if s then -((if 0 ≤ e then m * 2 ^ e.toNat else m / 2 ^ (-e).toNat : Nat) : Int)
      else ((if 0 ≤ e then m * 2 ^ e.toNat else m / 2 ^ (-e).toNat : Nat) : Int)) % 256).toNat
    else 0) = (z % 256).toNat
  rw [ha, hzz, if_pos hz]

end Dbl

/-! ## Exact arithmetic on small dyadic numbers -/

namespace Dbl

/-- The canonical form of `P / 2^k` for a positive integer `P < 2^53`, from any
scaling of the mantissa: rounding is exact. -/
theorem round_scaledS (neg : Bool) (P j k : Nat) (hP : 0 < P) (hlt : P < 2 ^ 53)
    (hk : k ≤ 1000) :
    round neg (P * 2 ^ j) (-(j : Int) - (k : Int)) =
      fin neg (P * 2 ^ (52 - Nat.log 2 P)) ((Nat.log 2 P : Int) - 52 - (k : Int)) := by
  have hL : Nat.log 2 P < 53 := Nat.log_lt_of_lt_pow (by omega) hlt
  have hlog : Nat.log 2 (P * 2 ^ j) = Nat.log 2 P + j := by
    induction j with
    | zero => simp
    | succ j ih =>
      rw [pow_succ, ← mul_assoc, Nat.log_mul_base (by norm_num) (by positivity), ih]
      ring
  have hne : P * 2 ^ j ≠ 0 := by positivity
  unfold round
  rw [if_neg hne]
  simp only [log2_eq, hlog]
  have ht : max (-(j : Int) - (k : Int) + (((Nat.log 2 P + j : Nat) : Int) + 1) - 53) (-1074) =
      (Nat.log 2 P : Int) - 52 - (k : Int) := by
    push_cast; omega
  rw [ht]
  by_cases hc : (Nat.log 2 P : Int) - 52 - (k : Int) ≤ -(j : Int) - (k : Int)
  · rw [if_pos hc, if_neg (by omega)]
    have e : (-(j : Int) - (k : Int) - ((Nat.log 2 P : Int) - 52 - (k : Int))).toNat =
        52 - Nat.log 2 P - j := by omega
    have e3 : j + (52 - Nat.log 2 P - j) = 52 - Nat.log 2 P := by omega
    rw [e, mul_assoc, ← pow_add, e3]
  · rw [if_neg hc]
    have e : ((Nat.log 2 P : Int) - 52 - (k : Int) - (-(j : Int) - (k : Int))).toNat =
        j - (52 - Nat.log 2 P) := by omega
    simp only [e]
    have hj : j = (52 - Nat.log 2 P) + (j - (52 - Nat.log 2 P)) := by omega
    have hM : P * 2 ^ j = (P * 2 ^ (52 - Nat.log 2 P)) * 2 ^ (j - (52 - Nat.log 2 P)) := by
      rw [mul_assoc, ← pow_add, ← hj]
    have hq : P * 2 ^ j / 2 ^ (j - (52 - Nat.log 2 P)) = P * 2 ^ (52 - Nat.log 2 P) := by
      rw [hM]; exact Nat.mul_div_cancel _ (by positivity)
    have hr : P * 2 ^ j % 2 ^ (j - (52 - Nat.log 2 P)) = 0 := by
      rw [hM]; exact Nat.mul_mod_left _ _
    have hub : P * 2 ^ (52 - Nat.log 2 P) < 2 ^ 53 := by
      have h1 : P < 2 ^ (Nat.log 2 P + 1) := Nat.lt_pow_succ_log_self (by norm_num) P
      calc P * 2 ^ (52 - Nat.log 2 P) < 2 ^ (Nat.log 2 P + 1) * 2 ^ (52 - Nat.log 2 P) :=
            Nat.mul_lt_mul_of_pos_right h1 (by positivity)
        _ = 2 ^ 53 := by rw [← pow_add]; congr 1; omega
    have hpos : 0 < 2 ^ (j - (52 - Nat.log 2 P) - 1) := by positivity
    rw [hq, hr]
    have hcond : ¬ (2 ^ (j - (52 - Nat.log 2 P) - 1) < 0 ∨
        (0 = 2 ^ (j - (52 - Nat.log 2 P) - 1) ∧ P * 2 ^ (52 - Nat.log 2 P) % 2 = 1)) := by
      omega
    rw [if_neg hcond, if_neg (by omega), if_neg (by omega)]

theorem holdsS_round (z : Int) (j k : Nat) (hz : z.natAbs < 2 ^ 53) (hk : k ≤ 1000) :
    HoldsS (round (decide (z < 0)) (z.natAbs * 2 ^ j) (-(j : Int) - (k : Int))) z k := by
  by_cases h0 : z = 0
  · subst h0
    refine ⟨false, 0, -1074, ?_, by omega, by rw [Int.natAbs_zero, zero_mul], by simp⟩
    simp [round]
  · have hpos : 0 < z.natAbs := Int.natAbs_pos.2 h0
    have hL : Nat.log 2 z.natAbs < 53 := Nat.log_lt_of_lt_pow (by omega) hz
    rw [round_scaledS _ _ _ _ hpos hz hk]
    refine ⟨_, _, _, rfl, by omega, ?_, fun _ => rfl⟩
    congr 2
    omega

theorem holdsS_ofInt (z : Int) (hz : z.natAbs < 2 ^ 53) : HoldsS (ofInt z) z 0 := by
  have := holdsS_round z 0 0 hz (by omega)
  simpa [ofInt] using this

theorem holdsS_mul (a b : Dbl) (x y : Int) (k1 k2 : Nat) (ha : HoldsS a x k1)
    (hb : HoldsS b y k2) (hxy : (x * y).natAbs < 2 ^ 53) (hk : k1 + k2 ≤ 1000) :
    HoldsS (mul a b) (x * y) (k1 + k2) := by
  obtain ⟨s, m, e, rfl, he, hm, hs⟩ := ha
  obtain ⟨t, m1, e1, rfl, he1, hm1, ht⟩ := hb
  have key := holdsS_round (x * y) ((-(e + (k1 : Int))).toNat + (-(e1 + (k2 : Int))).toNat)
    (k1 + k2) hxy hk
  have e2 : e + e1 = -(((-(e + (k1 : Int))).toNat + (-(e1 + (k2 : Int))).toNat : Nat) : Int) -
      ((k1 + k2 : Nat) : Int) := by push_cast; omega
  have e3 : m * m1 =
      (x * y).natAbs * 2 ^ ((-(e + (k1 : Int))).toNat + (-(e1 + (k2 : Int))).toNat) := by
    rw [hm, hm1, Int.natAbs_mul, pow_add]; ring
  show HoldsS (round (xor s t) (m * m1) (e + e1)) (x * y) (k1 + k2)
  rw [e2, e3]
  by_cases h0 : x * y = 0
  · rw [h0]
    simp only [Int.natAbs_zero, zero_mul]
    refine ⟨xor s t, 0, -1074, ?_, by omega, by rw [Int.natAbs_zero, zero_mul], by simp⟩
    simp [round]
  · have hx : x ≠ 0 := fun h => h0 (by rw [h, zero_mul])
    have hy : y ≠ 0 := fun h => h0 (by rw [h, mul_zero])
    have hsign : xor s t = decide (x * y < 0) := by
      rw [hs hx, ht hy]
      rcases lt_or_gt_of_ne hx with h1 | h1 <;> rcases lt_or_gt_of_ne hy with h2 | h2
      · have : ¬ (x * y < 0) := not_lt.2 (le_of_lt (mul_pos_of_neg_of_neg h1 h2))
        simp [h1, h2, this]
      · have : x * y < 0 := mul_neg_of_neg_of_pos h1 h2
        simp [h1, not_lt.2 (le_of_lt h2), this]
      · have : x * y < 0 := mul_neg_of_pos_of_neg h1 h2
        simp [h2, not_lt.2 (le_of_lt h1), this]
      · have : ¬ (x * y < 0) := not_lt.2 (le_of_lt (mul_pos h1 h2))
        simp [not_lt.2 (le_of_lt h1), not_lt.2 (le_of_lt h2), this]
    rw [hsign]
    exact key

/-- The signed mantissa of a value holding `x / 2^k`, aligned to the exponent
`-j - k`. -/
theorem holdsS_aligned (s : Bool) (m : Nat) (e : Int) (x : Int) (j k : Nat)
    (hm : m = x.natAbs * 2 ^ (-(e + (k : Int))).toNat) (hs : x ≠ 0 → s = decide (x < 0))
    (he : e + (k : Int) ≤ 0) (hj : -(j : Int) - (k : Int) ≤ e) :
    (if s then -1 else 1) * ((m * 2 ^ (e - (-(j : Int) - (k : Int))).toNat : Nat) : Int) =
      x * 2 ^ j := by
  have ek : (-(e + (k : Int))).toNat + (e - (-(j : Int) - (k : Int))).toNat = j := by omega
  have hmk : m * 2 ^ (e - (-(j : Int) - (k : Int))).toNat = x.natAbs * 2 ^ j := by
    rw [hm, mul_assoc, ← pow_add, ek]
  rw [hmk]
  push_cast
  by_cases h0 : x = 0
  · subst h0; simp
  · rw [hs h0]
    rcases lt_or_gt_of_ne h0 with h1 | h1
    · simp only [h1, decide_True, if_true]
      rw [abs_of_neg h1]; ring
    · have h2 : ¬ x < 0 := not_lt.2 (le_of_lt h1)
      simp only [h2, decide_False, Bool.false_eq_true, if_false]
      rw [abs_of_pos h1]; ring

theorem holdsS_add (a b : Dbl) (x y : Int) (k : Nat) (ha : HoldsS a x k) (hb : HoldsS b y k)
    (hxy : (x + y).natAbs < 2 ^ 53) (hk : k ≤ 1000) : HoldsS (add a b) (x + y) k := by
  obtain ⟨s, m, e, rfl, he, hm, hs⟩ := ha
  obtain ⟨t, m1, e1, rfl, he1, hm1, ht⟩ := hb
  obtain ⟨j, hj⟩ : ∃ j : Nat, min e e1 = -(j : Int) - (k : Int) :=
    ⟨(-(min e e1 + (k : Int))).toNat, by have := min_le_left e e1; omega⟩
  have hje : -(j : Int) - (k : Int) ≤ e := by rw [← hj]; exact min_le_left _ _
  have hje1 : -(j : Int) - (k : Int) ≤ e1 := by rw [← hj]; exact min_le_right _ _
  have ea := holdsS_aligned s m e x j k hm hs he hje
  have eb := holdsS_aligned t m1 e1 y j k hm1 ht he1 hje1
  have hpow : (0 : Int) < 2 ^ j := by positivity
  show HoldsS (if (if s then -1 else 1) * ((m * 2 ^ (e - min e e1).toNat : Nat) : Int) +
      (if t then -1 else 1) * ((m1 * 2 ^ (e1 - min e e1).toNat : Nat) : Int) = 0
    then fin (s && t) 0 (-1074)
    else round (decide ((if s then -1 else 1) * ((m * 2 ^ (e - min e e1).toNat : Nat) : Int) +
      (if t then -1 else 1) * ((m1 * 2 ^ (e1 - min e e1).toNat : Nat) : Int) < 0))
      ((if s then -1 else 1) * ((m * 2 ^ (e - min e e1).toNat : Nat) : Int) +
      (if t then -1 else 1) * ((m1 * 2 ^ (e1 - min e e1).toNat : Nat) : Int)).natAbs
      (min e e1)) (x + y) k
  rw [hj, ea, eb, ← add_mul]
  by_cases h0 : x + y = 0
  · rw [h0, zero_mul, if_pos rfl]
    exact ⟨s && t, 0, -1074, rfl, by omega, by rw [Int.natAbs_zero, zero_mul], by simp⟩
  · have hne : (x + y) * 2 ^ j ≠ 0 := mul_ne_zero h0 (ne_of_gt hpow)
    rw [if_neg hne]
    have hsg : decide ((x + y) * 2 ^ j < 0) = decide (x + y < 0) := by
      congr 1
      exact propext ⟨fun h => by nlinarith, fun h => by nlinarith⟩
    have habs : ((x + y) * 2 ^ j).natAbs = (x + y).natAbs * 2 ^ j := by
      rw [Int.natAbs_mul, Int.natAbs_pow]; rfl
    rw [hsg, habs]
    exact holdsS_round (x + y) j k hxy hk

/-- The narrowing of a value holding `z / 2^k` with `z ≥ 0`: the quotient rounded
down, reduced modulo 256. -/
theorem toUInt8_holdsS (d : Dbl) (z : Int) (k : Nat) (h : HoldsS d z k) (hz0 : 0 ≤ z)
    (hz : z < 2147483648) : toUInt8 d = (z.toNat / 2 ^ k) % 256 := by
  obtain ⟨s, m, e, rfl, he, hm, hs⟩ := h
  have hnat : z.natAbs = z.toNat := by omega
  have ha : (if 0 ≤ e then m * 2 ^ e.toNat else m / 2 ^ (-e).toNat) = z.toNat / 2 ^ k := by
    by_cases h0 : 0 ≤ e
    · have hk0 : k = 0 := by omega
      have he0 : e = 0 := by omega
      subst hk0 he0
      simp [hm, hnat]
    · rw [if_neg h0, hm, hnat]
      have e1 : (-e).toNat = (-(e + (k : Int))).toNat + k := by omega
      rw [e1, pow_add, mul_comm (z.toNat) _]
      exact Nat.mul_div_mul_left _ _ (by positivity)
  have hq : z.toNat / 2 ^ k ≤ z.toNat := Nat.div_le_self _ _
  have hzz : (if s then -((z.toNat / 2 ^ k : Nat) : Int) else ((z.toNat / 2 ^ k : Nat) : Int)) =
      ((z.toNat / 2 ^ k : Nat) : Int) := by
    by_cases h0 : z = 0
    · subst h0; simp
    · rw [hs h0]
      have h2 : ¬ z < 0 := by omega
      simp only [h2, decide_False, Bool.false_eq_true, if_false]
  show (if -2147483648 ≤ (if s then
      -((if 0 ≤ e then m * 2 ^ e.toNat else m / 2 ^ (-e).toNat : Nat) : Int)
      else ((if 0 ≤ e then m * 2 ^ e.toNat else m / 2 ^ (-e).toNat : Nat) : Int)) ∧
      (if s then -((if 0 ≤ e then m * 2 ^ e.toNat else m / 2 ^ (-e).toNat : Nat) : Int)
      else ((if 0 ≤ e then m * 2 ^ e.toNat else m / 2 ^ (-e).toNat : Nat) : Int)) < 2147483648
    then ((if s then -((if 0 ≤ e then m * 2 ^ e.toNat else m / 2 ^ (-e).toNat : Nat) : Int)
      else ((if 0 ≤ e then m * 2 ^ e.toNat else m / 2 ^ (-e).toNat : Nat) : Int)) % 256).toNat
    else 0) = (z.toNat / 2 ^ k) % 256
  rw [ha, hzz, if_pos (by omega)]
  omega

end Dbl

/-! ## `getPixelValue` on a well-formed image -/

theorem clamp_code (x w : Int) (hx : 0 ≤ x ∧ x < w) :
    (if x - 1 < 0 then 0 else x - 1) = clamp (x + -1) 0 (w - 1) ∧
    x = clamp (x + 0) 0 (w - 1) ∧
    (if x + 1 ≥ w then w - 1 else x + 1) = clamp (x + 1) 0 (w - 1) := by
  unfold clamp
  refine ⟨?_, ?_, ?_⟩ <;> split_ifs <;> omega

theorem clamp_range (v w : Int) (hw : 1 ≤ w) :
    0 ≤ clamp v 0 (w - 1) ∧ clamp v 0 (w - 1) < w := by
  unfold clamp
  split_ifs <;> omega

theorem neighbourByte_lt (src : Image) (hv : src.Valid) (x y c dx dy : Int)
    (hc : 0 ≤ c ∧ c < src.bpp) : neighbourByte src x y c dx dy < 256 := by
  obtain ⟨hw, hh, hb, hlen, hbytes⟩ := hv
  have hi := Index_bounds src.width src.height src.bpp _ _ c hb
    (clamp_range (x + dx) src.width hw) (clamp_range (y + dy) src.height hh) hc
  unfold neighbourByte
  have hlt : (Index (clamp (x + dx) 0 (src.width - 1)) (clamp (y + dy) 0 (src.height - 1))
      src.width c src.bpp).toNat < src.data.length := by omega
  rw [List.getD_eq_getElem?_getD, List.getElem?_eq_getElem hlt]
  exact hbytes _ (List.getElem_mem _)

/-- On a well-formed image `getPixelValue` returns the narrowed weighted sum of the
nine clamped neighbours, taken in row-major order. -/
theorem getPixelValue_eq (src : Image) (K : Matrix) (hv : src.Valid) (x y c : Int)
    (hx : 0 ≤ x ∧ x < src.width) (hy : 0 ≤ y ∧ y < src.height) (hc : 0 ≤ c ∧ c < src.bpp) :
    getPixelValue src x y c K = some (Dbl.toUInt8 (kernelSum K
      (neighbourByte src x y c (-1) (-1)) (neighbourByte src x y c 0 (-1))
      (neighbourByte src x y c 1 (-1)) (neighbourByte src x y c (-1) 0)
      (neighbourByte src x y c 0 0) (neighbourByte src x y c 1 0)
      (neighbourByte src x y c (-1) 1) (neighbourByte src x y c 0 1)
      (neighbourByte src x y c 1 1))) := by
  obtain ⟨hw, hh, hb, hlen, -⟩ := hv
  have rd : ∀ u v : Int, (0 ≤ u ∧ u < src.width) → (0 ≤ v ∧ v < src.height) →
      readByte src.data (Index u v src.width c src.bpp) =
        some (src.data.getD (Index u v src.width c src.bpp).toNat 0) := by
    intro u v hu hv
    have := Index_bounds src.width src.height src.bpp u v c hb hu hv hc
    exact readByte_eq_some _ _ this.1 (by rw [hlen]; exact this.2)
  obtain ⟨hmx, hpx⟩ := clamp_bounds x src.width hx
  obtain ⟨hmy, hpy⟩ := clamp_bounds y src.height hy
  obtain ⟨cx1, cx2, cx3⟩ := clamp_code x src.width hx
  obtain ⟨cy1, cy2, cy3⟩ := clamp_code y src.height hy
  unfold getPixelValue
  simp only [rd _ _ hmx hmy, rd _ _ hx hmy, rd _ _ hpx hmy, rd _ _ hmx hy, rd _ _ hx hy,
    rd _ _ hpx hy, rd _ _ hmx hpy, rd _ _ hx hpy, rd _ _ hpx hpy, Option.some_bind]
  unfold neighbourByte
  rw [← cx1, ← cx2, ← cx3, ← cy1, ← cy2, ← cy3]

/-- On a uniform image every neighbour byte is the common value. -/
theorem neighbourByte_uniform (src : Image) (v : Nat) (hv : src.Valid)
    (hu : ∀ b ∈ src.data, b = v) (x y c dx dy : Int) (hc : 0 ≤ c ∧ c < src.bpp) :
    neighbourByte src x y c dx dy = v := by
  obtain ⟨hw, hh, hb, hlen, -⟩ := hv
  have hi := Index_bounds src.width src.height src.bpp _ _ c hb
    (clamp_range (x + dx) src.width hw) (clamp_range (y + dy) src.height hh) hc
  unfold neighbourByte
  have hlt : (Index (clamp (x + dx) 0 (src.width - 1)) (clamp (y + dy) 0 (src.height - 1))
      src.width c src.bpp).toNat < src.data.length := by omega
  rw [List.getD_eq_getElem?_getD, List.getElem?_eq_getElem hlt]
  exact hu _ (List.getElem_mem _)

/-! ## Kernels with integer weights -/

/-- One product `weight * byte` of the sum, for an integer weight. -/
theorem holds_term (k : Dbl) (w : Int) (b : Nat) (hk : Dbl.Holds k w)
    (hw : -524288 ≤ w ∧ w ≤ 524288) (hb : b < 256) :
    Dbl.Holds (Dbl.mul k (Dbl.ofInt b)) (w * b) ∧
      -133693440 ≤ w * b ∧ w * b ≤ 133693440 := by
  have hb0 : (0 : Int) ≤ b := Int.ofNat_nonneg b
  have hb1 : (b : Int) ≤ 255 := by omega
  have h1 : w * b ≤ 133693440 := by nlinarith
  have h2 : -133693440 ≤ w * b := by nlinarith
  refine ⟨Dbl.holds_mul _ _ _ _ hk (Dbl.holds_ofInt _ (by omega)) (by omega), h2, h1⟩

/-- For a kernel whose weights are the integers `W i j`, the narrowed sum is the
integer weighted sum reduced modulo 256. -/
theorem kernelSum_int (K : Matrix) (W : Fin 3 → Fin 3 → Int)
    (hK : ∀ i j, Dbl.Holds (K i j) (W i j) ∧ -524288 ≤ W i j ∧ W i j ≤ 524288)
    (b00 b01 b02 b10 b11 b12 b20 b21 b22 : Nat)
    (h00 : b00 < 256) (h01 : b01 < 256) (h02 : b02 < 256) (h10 : b10 < 256)
    (h11 : b11 < 256) (h12 : b12 < 256) (h20 : b20 < 256) (h21 : b21 < 256)
    (h22 : b22 < 256) :
    Dbl.toUInt8 (kernelSum K b00 b01 b02 b10 b11 b12 b20 b21 b22) =
      ((W 0 0 * b00 + W 0 1 * b01 + W 0 2 * b02 + W 1 0 * b10 + W 1 1 * b11 +
        W 1 2 * b12 + W 2 0 * b20 + W 2 1 * b21 + W 2 2 * b22) % 256).toNat := by
  obtain ⟨t00, l00, u00⟩ := holds_term _ _ b00 (hK 0 0).1 (hK 0 0).2 h00
  obtain ⟨t01, l01, u01⟩ := holds_term _ _ b01 (hK 0 1).1 (hK 0 1).2 h01
  obtain ⟨t02, l02, u02⟩ := holds_term _ _ b02 (hK 0 2).1 (hK 0 2).2 h02
  obtain ⟨t10, l10, u10⟩ := holds_term _ _ b10 (hK 1 0).1 (hK 1 0).2 h10
  obtain ⟨t11, l11, u11⟩ := holds_term _ _ b11 (hK 1 1).1 (hK 1 1).2 h11
  obtain ⟨t12, l12, u12⟩ := holds_term _ _ b12 (hK 1 2).1 (hK 1 2).2 h12
  obtain ⟨t20, l20, u20⟩ := holds_term _ _ b20 (hK 2 0).1 (hK 2 0).2 h20
  obtain ⟨t21, l21, u21⟩ := holds_term _ _ b21 (hK 2 1).1 (hK 2 1).2 h21
  obtain ⟨t22, l22, u22⟩ := holds_term _ _ b22 (hK 2 2).1 (hK 2 2).2 h22
  have s1 := Dbl.holds_add _ _ _ _ t00 t01 (by omega)
  have s2 := Dbl.holds_add _ _ _ _ s1 t02 (by omega)
  have s3 := Dbl.holds_add _ _ _ _ s2 t10 (by omega)
  have s4 := Dbl.holds_add _ _ _ _ s3 t11 (by omega)
  have s5 := Dbl.holds_add _ _ _ _ s4 t12 (by omega)
  have s6 := Dbl.holds_add _ _ _ _ s5 t20 (by omega)
  have s7 := Dbl.holds_add _ _ _ _ s6 t21 (by omega)
  have s8 := Dbl.holds_add _ _ _ _ s7 t22 (by omega)
  exact Dbl.toUInt8_holds _ _ s8 (by omega)

/-- The integer weights of the kernels written with integer constants. -/
theorem holds_lit (z : Int) (hz : -524288 ≤ z ∧ z ≤ 524288) :
    Dbl.Holds (lit z) z ∧ -524288 ≤ z ∧ z ≤ 524288 :=
  ⟨Dbl.holds_ofInt z (by omega), hz⟩

/-- A matrix written with integer constants holds those integers. -/
theorem holds_mat3i (a00 a01 a02 a10 a11 a12 a20 a21 a22 : Int)
    (h : ∀ z ∈ [a00, a01, a02, a10, a11, a12, a20, a21, a22], -524288 ≤ z ∧ z ≤ 524288) :
    ∀ i j : Fin 3,
      Dbl.Holds (mat3 (row3 (lit a00) (lit a01) (lit a02)) (row3 (lit a10) (lit a11) (lit a12))
        (row3 (lit a20) (lit a21) (lit a22)) i j)
        (mat3i a00 a01 a02 a10 a11 a12 a20 a21 a22 i j) ∧
      -524288 ≤ mat3i a00 a01 a02 a10 a11 a12 a20 a21 a22 i j ∧
      mat3i a00 a01 a02 a10 a11 a12 a20 a21 a22 i j ≤ 524288
  | 0, 0 => holds_lit a00 (h a00 (by simp))
  | 0, 1 => holds_lit a01 (h a01 (by simp))
  | 0, 2 => holds_lit a02 (h a02 (by simp))
  | 1, 0 => holds_lit a10 (h a10 (by simp))
  | 1, 1 => holds_lit a11 (h a11 (by simp))
  | 1, 2 => holds_lit a12 (h a12 (by simp))
  | 2, 0 => holds_lit a20 (h a20 (by simp))
  | 2, 1 => holds_lit a21 (h a21 (by simp))
  | 2, 2 => holds_lit a22 (h a22 (by simp))

theorem kernelOf_identity : kernelOf KernelTypes.IDENTITY =
    mat3 (row3 (lit 0) (lit 0) (lit 0)) (row3 (lit 0) (lit 1) (lit 0))
      (row3 (lit 0) (lit 0) (lit 0)) := rfl

theorem kernelOf_edge : kernelOf KernelTypes.EDGE =
    mat3 (row3 (lit 0) (lit (-1)) (lit 0)) (row3 (lit (-1)) (lit 4) (lit (-1)))
      (row3 (lit 0) (lit (-1)) (lit 0)) := rfl

theorem kernelOf_sharpen : kernelOf KernelTypes.SHARPEN =
    mat3 (row3 (lit 0) (lit (-1)) (lit 0)) (row3 (lit (-1)) (lit 5) (lit (-1)))
      (row3 (lit 0) (lit (-1)) (lit 0)) := rfl

theorem kernelOf_emboss : kernelOf KernelTypes.EMBOSS =
    mat3 (row3 (lit (-2)) (lit (-1)) (lit 0)) (row3 (lit (-1)) (lit 1) (lit 1))
      (row3 (lit 0) (lit 1) (lit 2)) := rfl

/-- The narrowed sum for a kernel written with integer constants. -/
theorem kernelSum_mat3i (a00 a01 a02 a10 a11 a12 a20 a21 a22 : Int)
    (h : ∀ z ∈ [a00, a01, a02, a10, a11, a12, a20, a21, a22], -524288 ≤ z ∧ z ≤ 524288)
    (b00 b01 b02 b10 b11 b12 b20 b21 b22 : Nat)
    (hb : ∀ b ∈ [b00, b01, b02, b10, b11, b12, b20, b21, b22], b < 256) :
    Dbl.toUInt8 (kernelSum (mat3 (row3 (lit a00) (lit a01) (lit a02))
        (row3 (lit a10) (lit a11) (lit a12)) (row3 (lit a20) (lit a21) (lit a22)))
        b00 b01 b02 b10 b11 b12 b20 b21 b22) =
      ((a00 * b00 + a01 * b01 + a02 * b02 + a10 * b10 + a11 * b11 +
        a12 * b12 + a20 * b20 + a21 * b21 + a22 * b22) % 256).toNat :=
  kernelSum_int _ _ (holds_mat3i a00 a01 a02 a10 a11 a12 a20 a21 a22 h)
    b00 b01 b02 b10 b11 b12 b20 b21 b22
    (hb _ (by simp)) (hb _ (by simp)) (hb _ (by simp)) (hb _ (by simp)) (hb _ (by simp))
    (hb _ (by simp)) (hb _ (by simp)) (hb _ (by simp)) (hb _ (by simp))

/-! ## Threads run one after the other -/

theorem runThreads_spec (src : Image) (K : Matrix) (hv : src.Valid) (l : List ThreadData)
    (hl : ∀ d ∈ l, WorksOn src K d) (dest : Image)
    (hd : dest.data.length = src.data.length) :
    ∃ buf, runThreads dest l = some { dest with data := buf } ∧
      buf.length = dest.data.length ∧
      ∀ j < buf.length, buf.getD j 0 =
        if Covered src l j then pixelAt src K j else dest.data.getD j 0 := by
  induction l generalizing dest with
  | nil =>
    refine ⟨dest.data, rfl, rfl, ?_⟩
    intro j _
    rw [if_neg]
    rintro ⟨d, hd, -⟩
    exact absurd hd (List.not_mem_nil d)
  | cons d ds ih =>
    obtain ⟨h1, h2, h3, h4⟩ := hl d (List.mem_cons_self d ds)
    have hrun := runThread_eq dest d (by rw [h1]; exact hv) (by rw [h1]; exact hd) h3
      (by rw [h1]; exact h4)
    rw [h1, h2] at hrun
    obtain ⟨buf, hb1, hb2, hb3⟩ := ih (fun e he => hl e (List.mem_cons_of_mem d he))
      { dest with data := (fill src K (rowOffset src d.startRow) (rowOffset src d.endRow)
          dest.data) }
      (by rw [← hd]; exact fill_length ..)
    refine ⟨buf, ?_, ?_, ?_⟩
    · show (runThread dest d).bind _ = _
      rw [hrun, Option.some_bind, hb1]
    · rw [hb2]; exact fill_length ..
    · intro j hj
      have hj2 : j < dest.data.length := by
        rw [hb2] at hj; simpa [fill_length] using hj
      rw [hb3 j hj]
      show (if Covered src ds j then pixelAt src K j
        else (fill src K (rowOffset src d.startRow) (rowOffset src d.endRow)
          dest.data).getD j 0) = _
      rw [fill_getD _ _ _ _ _ _ hj2]
      by_cases hc : Covered src ds j
      · have : Covered src (d :: ds) j := by
          obtain ⟨e, he, h⟩ := hc
          exact ⟨e, List.mem_cons_of_mem d he, h⟩
        rw [if_pos hc, if_pos this]
      · rw [if_neg hc]
        by_cases hin : rowOffset src d.startRow ≤ (j : Int) ∧ (j : Int) < rowOffset src d.endRow
        · rw [if_pos hin, if_pos ⟨d, List.mem_cons_self d ds, hin⟩]
        · rw [if_neg hin, if_neg]
          rintro ⟨e, he, h⟩
          rcases List.mem_cons.1 he with rfl | he
          · exact hin h
          · exact hc ⟨e, he, h⟩

theorem fill_full (src : Image) (K : Matrix) (buf : List Nat)
    (h : buf.length = src.data.length) :
    fill src K 0 (src.data.length : Int) buf = convolved src K := by
  unfold fill convolved
  rw [h]
  apply List.map_congr_left
  intro j hj
  rw [List.mem_range] at hj
  rw [if_pos ⟨by omega, by omega⟩]

/-- Threads whose rows cover the whole image leave the fully convolved buffer,
whatever their order and whatever the destination held before. -/
theorem runThreads_covering (src : Image) (K : Matrix) (hv : src.Valid) (l : List ThreadData)
    (hl : ∀ d ∈ l, WorksOn src K d) (dest : Image)
    (hd : dest.data.length = src.data.length)
    (hcov : ∀ j < src.data.length, Covered src l j) :
    runThreads dest l = some { dest with data := convolved src K } := by
  obtain ⟨buf, h1, h2, h3⟩ := runThreads_spec src K hv l hl dest hd
  rw [h1]
  congr 2
  apply ext_getD
  · rw [h2, hd]; simp [convolved]
  · intro j hj
    have hj2 : j < src.data.length := by rw [h2, hd] at hj; exact hj
    rw [h3 j hj, if_pos (hcov j hj2)]
    simp [convolved, List.getD_eq_getElem?_getD, hj2]

/-! ## The partition of the rows -/

theorem splitWork_eq (src dest : Image) (K : Matrix) (n : Int) (hn : 1 ≤ n)
    (hh : 0 ≤ src.height) :
    splitWork src dest K n = some ((List.range n.toNat).map fun i : Nat =>
      threadArg src dest K n (src.height / n) (i : Int)) := by
  unfold splitWork
  rw [if_neg (by omega), Int.tdiv_eq_ediv hh (by omega)]

/-- Facts on the quotient `rowsPerThread = height / threadCount`. -/
theorem rowsPerThread_facts (h n : Int) (hn : 1 ≤ n) (hh : 0 ≤ h) :
    0 ≤ h / n ∧ n * (h / n) ≤ h ∧ h < n * (h / n) + n := by
  refine ⟨Int.ediv_nonneg hh (by omega), ?_, ?_⟩
  · have := Int.ediv_mul_le h (b := n) (by omega)
    linarith
  · have := Int.lt_ediv_add_one_mul_self h (b := n) (by omega)
    linarith

/-- The row range of thread `i`: it starts at `i * rowsPerThread`, is not reversed
and lies inside the image. -/
theorem threadArg_range (src dest : Image) (K : Matrix) (n : Int) (hn : 1 ≤ n)
    (hh : 0 ≤ src.height) (i : Int) (hi : 0 ≤ i ∧ i < n) :
    0 ≤ (threadArg src dest K n (src.height / n) i).startRow ∧
    (threadArg src dest K n (src.height / n) i).startRow ≤
      (threadArg src dest K n (src.height / n) i).endRow ∧
    (threadArg src dest K n (src.height / n) i).endRow ≤ src.height := by
  obtain ⟨h1, h2, -⟩ := rowsPerThread_facts src.height n hn hh
  show 0 ≤ i * (src.height / n) ∧
    i * (src.height / n) ≤ (if i = n - 1 then src.height else (i + 1) * (src.height / n)) ∧
    (if i = n - 1 then src.height else (i + 1) * (src.height / n)) ≤ src.height
  have h3 : 0 ≤ i * (src.height / n) := mul_nonneg hi.1 h1
  split_ifs with hc
  · subst hc
    refine ⟨h3, by nlinarith, le_refl _⟩
  · have : i + 1 ≤ n - 1 := by omega
    refine ⟨h3, by nlinarith, by nlinarith⟩

theorem threadArg_worksOn (src dest : Image) (K : Matrix) (n : Int) (hn : 1 ≤ n)
    (hh : 0 ≤ src.height) (i : Int) (hi : 0 ≤ i ∧ i < n) :
    WorksOn src K (threadArg src dest K n (src.height / n) i) := by
  obtain ⟨h1, -, h3⟩ := threadArg_range src dest K n hn hh i hi
  exact ⟨rfl, rfl, h1, h3⟩

/-- Every row of the image belongs to the range of some thread. -/
theorem row_in_some_range (src dest : Image) (K : Matrix) (n : Int) (hn : 1 ≤ n)
    (y : Int) (hy : 0 ≤ y ∧ y < src.height) :
    ∃ i : Nat, (i : Int) < n ∧
      (threadArg src dest K n (src.height / n) i).startRow ≤ y ∧
      y < (threadArg src dest K n (src.height / n) i).endRow := by
  have hh : 0 ≤ src.height := by omega
  obtain ⟨h1, h2, -⟩ := rowsPerThread_facts src.height n hn hh
  by_cases hlast : (n - 1) * (src.height / n) ≤ y
  · refine ⟨(n - 1).toNat, by omega, ?_, ?_⟩
    · show ((n - 1).toNat : Int) * (src.height / n) ≤ y
      rw [Int.toNat_of_nonneg (by omega)]; exact hlast
    · show y < (if (((n - 1).toNat : Nat) : Int) = n - 1 then src.height
        else ((((n - 1).toNat : Nat) : Int) + 1) * (src.height / n))
      rw [if_pos (by omega)]; exact hy.2
  · have hlt : y < (n - 1) * (src.height / n) := not_le.1 hlast
    have hr : 0 < src.height / n := by
      rcases h1.lt_or_eq with h | h
      · exact h
      · rw [← h] at hlt; omega
    have hq0 : 0 ≤ y / (src.height / n) := Int.ediv_nonneg hy.1 h1
    have hq1 : y / (src.height / n) < n - 1 := Int.ediv_lt_of_lt_mul hr hlt
    refine ⟨(y / (src.height / n)).toNat, by omega, ?_, ?_⟩
    · show (((y / (src.height / n)).toNat : Nat) : Int) * (src.height / n) ≤ y
      rw [Int.toNat_of_nonneg hq0]
      exact Int.ediv_mul_le y (ne_of_gt hr)
    · show y < (if (((y / (src.height / n)).toNat : Nat) : Int) = n - 1 then src.height
        else ((((y / (src.height / n)).toNat : Nat) : Int) + 1) * (src.height / n))
      rw [Int.toNat_of_nonneg hq0, if_neg (by omega)]
      exact Int.lt_ediv_add_one_mul_self y hr

/-- Every offset of the buffer lies in a row of the image. -/
theorem offset_row (src : Image) (hv : src.Valid) (j : Nat) (hj : j < src.data.length) :
    ∃ y : Int, (0 ≤ y ∧ y < src.height) ∧
      rowOffset src y ≤ (j : Int) ∧ (j : Int) < rowOffset src (y + 1) := by
  obtain ⟨hw, hh, hb, hlen, -⟩ := hv
  have hpos : 0 < src.width * src.bpp := by positivity
  have hj2 : (j : Int) < src.width * src.height * src.bpp := by rw [← hlen]; exact_mod_cast hj
  refine ⟨(j : Int) / (src.width * src.bpp), ⟨Int.ediv_nonneg (by omega) (le_of_lt hpos), ?_⟩,
    ?_, ?_⟩
  · apply Int.ediv_lt_of_lt_mul hpos
    linarith
  · have := Int.ediv_mul_le (j : Int) (ne_of_gt hpos)
    unfold rowOffset Index
    linarith
  · have := Int.lt_ediv_add_one_mul_self (j : Int) hpos
    unfold rowOffset Index
    linarith

/-- The threads of the partition cover every offset of the destination buffer. -/
theorem splitWork_covers (src dest : Image) (K : Matrix) (hv : src.Valid) (n : Int)
    (hn : 1 ≤ n) (j : Nat) (hj : j < src.data.length) :
    Covered src ((List.range n.toNat).map fun i : Nat =>
      threadArg src dest K n (src.height / n) (i : Int)) j := by
  obtain ⟨y, hy, hlo, hhi⟩ := offset_row src hv j hj
  obtain ⟨i, hi, hs, he⟩ := row_in_some_range src dest K n hn y hy
  refine ⟨threadArg src dest K n (src.height / n) i, ?_, ?_, ?_⟩
  · rw [List.mem_map]
    exact ⟨i, List.mem_range.2 (by omega), rfl⟩
  · exact le_trans (rowOffset_mono src hv _ _ hs) hlo
  · exact lt_of_lt_of_le hhi (rowOffset_mono src hv _ _ (by omega))

/-- The engine: for every worker count `n ≥ 1` and every order in which the threads
run, the destination ends up as the fully convolved buffer. -/
theorem threads_any_order (src dest : Image) (K : Matrix) (hv : src.Valid) (n : Int)
    (hn : 1 ≤ n) (hd : dest.data.length = src.data.length) :
    ∃ threads, splitWork src dest K n = some threads ∧ threads.length = n.toNat ∧
      ∀ order : List ThreadData, order.Perm threads →
        runThreads dest order = some { dest with data := convolved src K } := by
  have hh : 0 ≤ src.height := by have := hv.2.1; omega
  refine ⟨_, splitWork_eq src dest K n hn hh, by simp, ?_⟩
  intro order hp
  apply runThreads_covering src K hv order _ dest hd
  · intro j hj
    obtain ⟨d, hd1, hd2⟩ := splitWork_covers src dest K hv n hn j hj
    exact ⟨d, hp.mem_iff.2 hd1, hd2⟩
  · intro d hdm
    have := hp.mem_iff.1 hdm
    rw [List.mem_map] at this
    obtain ⟨i, hi, rfl⟩ := this
    rw [List.mem_range] at hi
    exact threadArg_worksOn src dest K n hn hh i ⟨by omega, by omega⟩

/-! ## The convolved buffer, cell by cell -/

/-- Every offset of the buffer is the offset of exactly the cell it decodes to. -/
theorem offset_decode (src : Image) (hv : src.Valid) (j : Nat) (hj : j < src.data.length) :
    (0 ≤ ((j : Int) / src.bpp) % src.width ∧ ((j : Int) / src.bpp) % src.width < src.width) ∧
    (0 ≤ ((j : Int) / src.bpp) / src.width ∧ ((j : Int) / src.bpp) / src.width < src.height) ∧
    (0 ≤ (j : Int) % src.bpp ∧ (j : Int) % src.bpp < src.bpp) ∧
    Index (((j : Int) / src.bpp) % src.width) (((j : Int) / src.bpp) / src.width) src.width
      ((j : Int) % src.bpp) src.bpp = (j : Int) := by
  obtain ⟨hw, hh, hb, hlen, -⟩ := hv
  have hj2 : (j : Int) < src.width * src.height * src.bpp := by rw [← hlen]; exact_mod_cast hj
  have hq0 : 0 ≤ (j : Int) / src.bpp := Int.ediv_nonneg (by omega) (by omega)
  have hq1 : (j : Int) / src.bpp < src.width * src.height :=
    Int.ediv_lt_of_lt_mul (by omega) hj2
  refine ⟨⟨Int.emod_nonneg _ (by omega), Int.emod_lt_of_pos _ (by omega)⟩,
    ⟨Int.ediv_nonneg hq0 (by omega), Int.ediv_lt_of_lt_mul (by omega) (by linarith)⟩,
    ⟨Int.emod_nonneg _ (by omega), Int.emod_lt_of_pos _ (by omega)⟩, ?_⟩
  unfold Index
  have e1 := Int.emod_add_ediv ((j : Int) / src.bpp) src.width
  have e2 := Int.emod_add_ediv (j : Int) src.bpp
  have e3 : (j : Int) / src.bpp / src.width * src.width + (j : Int) / src.bpp % src.width =
      (j : Int) / src.bpp := by linarith
  rw [e3]
  linarith

theorem convolved_length (src : Image) (K : Matrix) :
    (convolved src K).length = src.data.length := by
  simp [convolved]

/-- The byte of the convolved buffer at the offset of an in-range cell is the value
of `getPixelValue` for that cell. -/
theorem convolved_at (src : Image) (K : Matrix) (hv : src.Valid) (x y c : Int)
    (hx : 0 ≤ x ∧ x < src.width) (hy : 0 ≤ y ∧ y < src.height) (hc : 0 ≤ c ∧ c < src.bpp) :
    getPixelValue src x y c K =
      (convolved src K)[(Index x y src.width c src.bpp).toNat]? := by
  have hb := Index_bounds src.width src.height src.bpp x y c hv.2.2.1 hx hy hc
  have hlt : (Index x y src.width c src.bpp).toNat < src.data.length := by
    have := hv.2.2.2.1; omega
  rw [getPixelValue_eq_pixelAt src K hv x y c hx hy hc]
  simp [convolved, hlt]

/-- The byte stored at the offset of an in-range cell, as a neighbour with offset
`(0, 0)`. -/
theorem neighbourByte_centre (src : Image) (x y c : Int)
    (hx : 0 ≤ x ∧ x < src.width) (hy : 0 ≤ y ∧ y < src.height) :
    neighbourByte src x y c 0 0 = src.data.getD (Index x y src.width c src.bpp).toNat 0 := by
  unfold neighbourByte
  rw [← (clamp_code x src.width hx).2.1, ← (clamp_code y src.height hy).2.1]

/-- With the identity kernel `getPixelValue` returns the source byte of the cell. -/
theorem getPixelValue_identity (src : Image) (hv : src.Valid) (x y c : Int)
    (hx : 0 ≤ x ∧ x < src.width) (hy : 0 ≤ y ∧ y < src.height) (hc : 0 ≤ c ∧ c < src.bpp) :
    getPixelValue src x y c (kernelOf KernelTypes.IDENTITY) =
      some (src.data.getD (Index x y src.width c src.bpp).toNat 0) := by
  rw [getPixelValue_eq src _ hv x y c hx hy hc, kernelOf_identity,
    kernelSum_mat3i 0 0 0 0 1 0 0 0 0 (by decide)]
  · have h := neighbourByte_lt src hv x y c 0 0 hc
    rw [← neighbourByte_centre src x y c hx hy]
    congr 1
    omega
  · intro b hb
    simp only [List.mem_cons, List.mem_singleton, List.not_mem_nil, or_false] at hb
    rcases hb with rfl | rfl | rfl | rfl | rfl | rfl | rfl | rfl | rfl <;>
      exact neighbourByte_lt src hv x y c _ _ hc

/-- With the identity kernel the convolved buffer is the source buffer. -/
theorem convolved_identity (src : Image) (hv : src.Valid) :
    convolved src (kernelOf KernelTypes.IDENTITY) = src.data := by
  apply ext_getD _ _ (convolved_length ..)
  intro j hj
  rw [convolved_length] at hj
  obtain ⟨dx, dy, dc, di⟩ := offset_decode src hv j hj
  have := getPixelValue_identity src hv _ _ _ dx dy dc
  rw [di] at this
  simp only [convolved, List.getD_eq_getElem?_getD, List.getElem?_map, List.getElem?_range hj,
    Option.map_some', Option.getD_some]
  unfold pixelAt
  rw [this]
  simp [List.getD_eq_getElem?_getD]

/-- The engine on a well-formed image, for every worker count `n ≥ 1`: it returns
the image of the shape of the source whose buffer is the convolved buffer. -/
theorem runEngine_eq (src : Image) (K : Matrix) (hv : src.Valid) (n : Int) (hn : 1 ≤ n)
    (garbage : Nat → Nat) :
    runEngine src K n garbage =
      some { data := convolved src K, width := src.width, height := src.height,
             bpp := src.bpp } := by
  have hlen : (allocDest src garbage).data.length = src.data.length := by
    obtain ⟨hw, hh, hb, hl, -⟩ := hv
    have hpos : 0 ≤ 1 * src.width * src.bpp * src.height := by positivity
    have : ((1 * src.width * src.bpp * src.height).toNat : Int) = (src.data.length : Int) := by
      rw [Int.toNat_of_nonneg hpos, hl]; ring
    simp only [allocDest, mallocBytes, List.length_map, List.length_range]
    exact_mod_cast this
  obtain ⟨threads, h1, -, h3⟩ := threads_any_order src (allocDest src garbage) K hv n hn hlen
  unfold runEngine
  simp only [h1, Option.some_bind]
  rw [h3 threads (List.Perm.refl _)]
  rfl

theorem convolute_eq_convolved (src dest : Image) (K : Matrix) (hv : src.Valid)
    (hl : dest.data.length = src.data.length) :
    convolute src dest K = some { dest with data := convolved src K } := by
  rw [convolute_eq src dest K hv hl, fill_full src K dest.data hl]

theorem allocDest_length (src : Image) (hv : src.Valid) (garbage : Nat → Nat) :
    (allocDest src garbage).data.length = src.data.length := by
  obtain ⟨hw, hh, hb, hl, -⟩ := hv
  have hpos : 0 ≤ 1 * src.width * src.bpp * src.height := by positivity
  have : ((1 * src.width * src.bpp * src.height).toNat : Int) = (src.data.length : Int) := by
    rw [Int.toNat_of_nonneg hpos, hl]; ring
  simp only [allocDest, mallocBytes, List.length_map, List.length_range]
  exact_mod_cast this

/-- The records of the partition, by index. -/
theorem splitWork_getElem (src dest : Image) (K : Matrix) (n : Int) (i : Nat)
    (d : ThreadData)
    (h : ((List.range n.toNat).map fun k : Nat =>
      threadArg src dest K n (src.height / n) (k : Int))[i]? = some d) :
    (i : Int) < n ∧ d = threadArg src dest K n (src.height / n) (i : Int) := by
  rw [List.getElem?_map] at h
  by_cases hi : i < n.toNat
  · rw [List.getElem?_range hi] at h
    simp only [Option.map_some', Option.some.injEq] at h
    exact ⟨by omega, h.symm⟩
  · rw [List.getElem?_eq_none (by simpa using hi)] at h
    simp at h

/-- The division `1 / 9.0` evaluated. -/
theorem div_one_nine : Dbl.div (lit 1) (lit 9) = blurWeight := by decide!

theorem kernelOf_blur : kernelOf KernelTypes.BLUR = blurMatrix := by
  show mat3 (row3 (Dbl.div (lit 1) (lit 9)) (Dbl.div (lit 1) (lit 9)) (Dbl.div (lit 1) (lit 9)))
    (row3 (Dbl.div (lit 1) (lit 9)) (Dbl.div (lit 1) (lit 9)) (Dbl.div (lit 1) (lit 9)))
    (row3 (Dbl.div (lit 1) (lit 9)) (Dbl.div (lit 1) (lit 9)) (Dbl.div (lit 1) (lit 9))) = _
  rw [div_one_nine]
  rfl

/-- The box blur of nine equal bytes `v`, for `0 ≤ v < 64`. -/
theorem blur_bytes_0 : ∀ k < 64,
    Dbl.toUInt8 (kernelSum blurMatrix (k + 0) (k + 0) (k + 0) (k + 0)
      (k + 0) (k + 0) (k + 0) (k + 0) (k + 0)) =
      if k + 0 ∈ blurLoss then k + 0 - 1 else k + 0 := by decide!

/-- The box blur of nine equal bytes `v`, for `64 ≤ v < 128`. -/
theorem blur_bytes_1 : ∀ k < 64,
    Dbl.toUInt8 (kernelSum blurMatrix (k + 64) (k + 64) (k + 64) (k + 64)
      (k + 64) (k + 64) (k + 64) (k + 64) (k + 64)) =
      if k + 64 ∈ blurLoss then k + 64 - 1 else k + 64 := by decide!

/-- The box blur of nine equal bytes `v`, for `128 ≤ v < 192`. -/
theorem blur_bytes_2 : ∀ k < 64,
    Dbl.toUInt8 (kernelSum blurMatrix (k + 128) (k + 128) (k + 128) (k + 128)
      (k + 128) (k + 128) (k + 128) (k + 128) (k + 128)) =
      if k + 128 ∈ blurLoss then k + 128 - 1 else k + 128 := by decide!

/-- The box blur of nine equal bytes `v`, for `192 ≤ v < 256`. -/
theorem blur_bytes_3 : ∀ k < 64,
    Dbl.toUInt8 (kernelSum blurMatrix (k + 192) (k + 192) (k + 192) (k + 192)
      (k + 192) (k + 192) (k + 192) (k + 192) (k + 192)) =
      if k + 192 ∈ blurLoss then k + 192 - 1 else k + 192 := by decide!

/-- The box blur of nine equal bytes, for each of the 256 byte values. -/
theorem blur_uniform_bytes : ∀ v < 256,
    Dbl.toUInt8 (kernelSum (kernelOf KernelTypes.BLUR) v v v v v v v v v) =
      if v ∈ blurLoss then v - 1 else v := by
  intro v hv
  rw [kernelOf_blur]
  rcases Nat.lt_or_ge v 64 with h0 | h0
  · have := blur_bytes_0 v h0
    simpa using this
  rcases Nat.lt_or_ge v 128 with h1 | h1
  · have := blur_bytes_1 (v - 64) (by omega)
    rwa [Nat.sub_add_cancel h0] at this
  rcases Nat.lt_or_ge v 192 with h2 | h2
  · have := blur_bytes_2 (v - 128) (by omega)
    rwa [Nat.sub_add_cancel h1] at this
  · have := blur_bytes_3 (v - 192) (by omega)
    rwa [Nat.sub_add_cancel h2] at this

/-! ## The logged run -/

theorem forLoop_fst {σ τ : Type} (body : Int → σ → Option σ)
    (bodyL : Int → σ × τ → Option (σ × τ))
    (h : ∀ i s, (bodyL i s).map Prod.fst = body i s.1) (n : Nat) (i : Int)
    (s : σ × τ) :
    (forLoop bodyL n i s).map Prod.fst = forLoop body n i s.1 := by
  induction n generalizing i s with
  | zero => rfl
  | succ n ih =>
    rw [forLoop, forLoop]
    have hb := h i s
    cases hL : bodyL i s with
    | none =>
      rw [hL] at hb
      rw [← hb]
      rfl
    | some s1 =>
      rw [hL] at hb
      rw [← hb]
      exact ih (i + 1) s1

/-- Dropping the log of a logged thread run gives the run of `convoluteThread`. -/
theorem convoluteThreadLogged_fst (d : ThreadData) (log : List Int) :
    (convoluteThreadLogged d log).map Prod.fst = convoluteThread d := by
  unfold convoluteThreadLogged convoluteThread forRange
  apply forLoop_fst
  intro row s
  apply forLoop_fst
  intro pix s
  apply forLoop_fst
  intro bit s
  unfold storePixelLogged
  rw [Option.map_map]
  cases storePixel row pix bit s.1 <;> rfl

theorem offsets_succ (lo k : Int) (h : lo ≤ k) : offsets lo (k + 1) = offsets lo k ++ [k] := by
  unfold offsets
  have e : (k + 1 - lo).toNat = (k - lo).toNat + 1 := by omega
  rw [e, List.range_succ, List.map_append]
  congr 1
  simp only [List.map_cons, List.map_nil]
  congr 1
  omega

theorem offsets_empty (lo hi : Int) (h : hi ≤ lo) : offsets lo hi = [] := by
  unfold offsets
  have e : (hi - lo).toNat = 0 := by omega
  rw [e]
  rfl

theorem storePixelLogged_step (d : ThreadData) (hr : d.Ready) (lo : Int) (log : List Int)
    (r p b : Int)
    (hy : 0 ≤ r ∧ r < d.srcImage.height) (hx : 0 ≤ p ∧ p < d.srcImage.width)
    (hc : 0 ≤ b ∧ b < d.srcImage.bpp)
    (hlo : lo ≤ Index p r d.srcImage.width b d.srcImage.bpp) :
    storePixelLogged r p b (stateAt d lo log (Index p r d.srcImage.width b d.srcImage.bpp)) =
      some (stateAt d lo log (Index p r d.srcImage.width b d.srcImage.bpp + 1)) := by
  have h := storePixel_fill d hr lo r p b hy hx hc hlo
  unfold storePixelLogged stateAt
  simp only
  rw [h, offsets_succ lo _ hlo, List.append_assoc]
  rfl

theorem bitLoopLogged (d : ThreadData) (hr : d.Ready) (lo : Int) (log : List Int) (r p : Int)
    (hy : 0 ≤ r ∧ r < d.srcImage.height) (hx : 0 ≤ p ∧ p < d.srcImage.width)
    (hlo : lo ≤ Index p r d.srcImage.width 0 d.srcImage.bpp) :
    forRange 0 d.srcImage.bpp (fun bit s => storePixelLogged r p bit s)
        (stateAt d lo log (Index p r d.srcImage.width 0 d.srcImage.bpp)) =
      some (stateAt d lo log (Index (p + 1) r d.srcImage.width 0 d.srcImage.bpp)) := by
  have hb1 : 1 ≤ d.srcImage.bpp := hr.1.2.2.1
  have key := forRange_traj (fun bit s => storePixelLogged r p bit s)
    (fun k : Nat => stateAt d lo log (Index p r d.srcImage.width k d.srcImage.bpp))
    0 d.srcImage.bpp (by omega) (by
      intro k hk
      have := storePixelLogged_step d hr lo log r p k hy hx ⟨by omega, by omega⟩
        (by unfold Index at hlo ⊢; omega)
      have e : Index p r d.srcImage.width (k : Int) d.srcImage.bpp + 1 =
          Index p r d.srcImage.width ((k + 1 : Nat) : Int) d.srcImage.bpp := by
        unfold Index; push_cast; ring
      simpa [e] using this)
  have e2 : Index p r d.srcImage.width ((d.srcImage.bpp - 0).toNat : Int) d.srcImage.bpp =
      Index (p + 1) r d.srcImage.width 0 d.srcImage.bpp := by
    rw [Int.toNat_of_nonneg (by omega)]; unfold Index; ring
  simp only [Nat.cast_zero] at key
  rw [e2] at key
  exact key

theorem pixLoopLogged (d : ThreadData) (hr : d.Ready) (lo : Int) (log : List Int) (r : Int)
    (hy : 0 ≤ r ∧ r < d.srcImage.height)
    (hlo : lo ≤ Index 0 r d.srcImage.width 0 d.srcImage.bpp) :
    forRange 0 d.srcImage.width (fun pix s =>
        forRange 0 s.1.srcImage.bpp (fun bit s => storePixelLogged r pix bit s) s)
        (stateAt d lo log (Index 0 r d.srcImage.width 0 d.srcImage.bpp)) =
      some (stateAt d lo log (Index 0 (r + 1) d.srcImage.width 0 d.srcImage.bpp)) := by
  have hw1 : 1 ≤ d.srcImage.width := hr.1.1
  have hb1 : 1 ≤ d.srcImage.bpp := hr.1.2.2.1
  have key := forRange_traj (fun pix s =>
      forRange 0 s.1.srcImage.bpp (fun bit s => storePixelLogged r pix bit s) s)
    (fun k : Nat => stateAt d lo log (Index k r d.srcImage.width 0 d.srcImage.bpp))
    0 d.srcImage.width (by omega) (by
      intro k hk
      have := bitLoopLogged d hr lo log r k hy ⟨by omega, by omega⟩
        (by
          have : 0 ≤ (k : Int) * d.srcImage.bpp := mul_nonneg (by omega) (by omega)
          unfold Index at hlo ⊢; nlinarith)
      simpa [stateAt, ThreadData.withDest] using this)
  have e2 : Index ((d.srcImage.width - 0).toNat : Int) r d.srcImage.width 0 d.srcImage.bpp =
      Index 0 (r + 1) d.srcImage.width 0 d.srcImage.bpp := by
    rw [Int.toNat_of_nonneg (by omega)]; unfold Index; ring
  simp only [Nat.cast_zero] at key
  rw [e2] at key
  exact key

/-- What a logged thread run does: the destination is filled as by
`convoluteThread` and the log grows by the offsets of the rows of the thread, each
once, in increasing order. -/
theorem convoluteThreadLogged_eq (d : ThreadData) (hr : d.Ready) (log : List Int)
    (hs : 0 ≤ d.startRow) (he : d.endRow ≤ d.srcImage.height) :
    convoluteThreadLogged d log =
      some (stateAt d (rowOffset d.srcImage d.startRow) log
        (rowOffset d.srcImage d.endRow)) := by
  unfold convoluteThreadLogged
  by_cases hse : d.startRow ≤ d.endRow
  · have key := forRange_traj (fun row s =>
        forRange 0 s.1.srcImage.width (fun pix s =>
          forRange 0 s.1.srcImage.bpp (fun bit s => storePixelLogged row pix bit s) s) s)
      (fun k : Nat => stateAt d (rowOffset d.srcImage d.startRow) log
        (rowOffset d.srcImage (d.startRow + k))) d.startRow d.endRow hse (by
        intro k hk
        have := pixLoopLogged d hr (rowOffset d.srcImage d.startRow) log (d.startRow + k)
          ⟨by omega, by omega⟩ (rowOffset_mono d.srcImage hr.1 _ _ (by omega))
        have e1 : d.startRow + ((k + 1 : Nat) : Int) = d.startRow + (k : Int) + 1 := by
          push_cast; ring
        simp only [e1]
        exact this)
    simp only [Nat.cast_zero, add_zero] at key
    have e0 : stateAt d (rowOffset d.srcImage d.startRow) log
        (rowOffset d.srcImage d.startRow) = (d, log) := by
      unfold stateAt
      rw [fill_empty _ _ _ _ _ (le_refl _), withDest_self, offsets_empty _ _ (le_refl _),
        List.append_nil]
    rw [e0, Int.toNat_of_nonneg (by omega)] at key
    have e2 : d.startRow + (d.endRow - d.startRow) = d.endRow := by ring
    rw [e2] at key
    exact key
  · have h0 : (d.endRow - d.startRow).toNat = 0 := by omega
    have hm := rowOffset_mono d.srcImage hr.1 d.endRow d.startRow (by omega)
    unfold stateAt
    rw [fill_empty _ _ _ _ _ hm, withDest_self, offsets_empty _ _ hm, List.append_nil]
    unfold forRange
    rw [h0]
    rfl

theorem offsets_append (a b : Int) (m : Nat) (h : a ≤ b) :
    offsets a b ++ offsets b (b + m) = offsets a (b + m) := by
  induction m with
  | zero =>
    have e : b + ((0 : Nat) : Int) = b := by simp
    rw [e, offsets_empty b b (le_refl _), List.append_nil]
  | succ m ih =>
    have e : b + ((m + 1 : Nat) : Int) = b + (m : Int) + 1 := by push_cast; ring
    rw [e, offsets_succ b _ (by omega), offsets_succ a _ (by omega), ← List.append_assoc, ih]

theorem offsets_append_le (a b c : Int) (h : a ≤ b) (h2 : b ≤ c) :
    offsets a b ++ offsets b c = offsets a c := by
  have := offsets_append a b (c - b).toNat h
  rwa [Int.toNat_of_nonneg (by omega), add_sub_cancel] at this

theorem mem_offsets (lo hi j : Int) : j ∈ offsets lo hi ↔ lo ≤ j ∧ j < hi := by
  unfold offsets
  rw [List.mem_map]
  constructor
  · rintro ⟨k, hk, rfl⟩
    rw [List.mem_range] at hk
    omega
  · intro h
    exact ⟨(j - lo).toNat, List.mem_range.2 (by omega), by omega⟩

theorem offsets_nodup (lo hi : Int) : (offsets lo hi).Nodup := by
  unfold offsets
  apply List.Nodup.map _ (List.nodup_range _)
  intro a b h
  simpa using h

theorem offsets_length (lo hi : Int) : (offsets lo hi).length = (hi - lo).toNat := by
  simp [offsets]

theorem writeLog_append (src : Image) (l1 l2 : List ThreadData) :
    writeLog src (l1 ++ l2) = writeLog src l1 ++ writeLog src l2 := by
  induction l1 with
  | nil => rfl
  | cons d ds ih => simp [writeLog, ih, List.append_assoc]

theorem writeLog_perm (src : Image) (l1 l2 : List ThreadData) (h : l1.Perm l2) :
    (writeLog src l1).Perm (writeLog src l2) := by
  induction h with
  | nil => exact List.Perm.refl _
  | cons d _ ih => exact List.Perm.append_left _ ih
  | swap a b l =>
    simp only [writeLog]
    rw [← List.append_assoc, ← List.append_assoc]
    exact List.Perm.append_right _ List.perm_append_comm
  | trans _ _ ih1 ih2 => exact ih1.trans ih2

/-- The offsets of the rows of the first `k` threads, none of which is the last. -/
theorem writeLog_initial (src dest : Image) (K : Matrix) (hv : src.Valid) (n : Int)
    (hn : 1 ≤ n) (k : Nat) (hk : (k : Int) ≤ n - 1) :
    writeLog src ((List.range k).map fun i : Nat =>
      threadArg src dest K n (src.height / n) (i : Int)) =
      offsets 0 (rowOffset src ((k : Int) * (src.height / n))) := by
  have hh : 0 ≤ src.height := by have := hv.2.1; omega
  obtain ⟨r0, -, -⟩ := rowsPerThread_facts src.height n hn hh
  induction k with
  | zero =>
    have : rowOffset src (((0 : Nat) : Int) * (src.height / n)) = 0 := by
      unfold rowOffset Index; simp
    rw [this, offsets_empty 0 0 (le_refl _)]
    rfl
  | succ k ih =>
    have ihk := ih (by push_cast at hk; omega)
    rw [List.range_succ, List.map_append, writeLog_append, ihk]
    have hlast : threadOffsets src (threadArg src dest K n (src.height / n) (k : Int)) =
        offsets (rowOffset src ((k : Int) * (src.height / n)))
          (rowOffset src (((k + 1 : Nat) : Int) * (src.height / n))) := by
      show offsets (rowOffset src ((k : Int) * (src.height / n)))
        (rowOffset src (if (k : Int) = n - 1 then src.height
          else ((k : Int) + 1) * (src.height / n))) = _
      rw [if_neg (by push_cast at hk; omega)]
      push_cast
      rfl
    simp only [List.map_cons, List.map_nil, writeLog, List.append_nil]
    rw [hlast]
    apply offsets_append_le
    · have := rowOffset_mono src hv 0 ((k : Int) * (src.height / n))
        (mul_nonneg (by omega) r0)
      have e0 : rowOffset src 0 = 0 := by unfold rowOffset Index; ring
      rw [e0] at this
      exact this
    · apply rowOffset_mono src hv
      push_cast
      nlinarith

/-- The offsets written by the threads of the partition, in creation order: every
offset of the buffer, once, in increasing order. -/
theorem writeLog_splitWork (src dest : Image) (K : Matrix) (hv : src.Valid) (n : Int)
    (hn : 1 ≤ n) :
    writeLog src ((List.range n.toNat).map fun i : Nat =>
      threadArg src dest K n (src.height / n) (i : Int)) =
      offsets 0 (src.width * src.height * src.bpp) := by
  have hh : 0 ≤ src.height := by have := hv.2.1; omega
  obtain ⟨r0, r1, -⟩ := rowsPerThread_facts src.height n hn hh
  have en : n.toNat = (n.toNat - 1) + 1 := by omega
  have ec : ((n.toNat - 1 : Nat) : Int) = n - 1 := by omega
  rw [en, List.range_succ, List.map_append, writeLog_append,
    writeLog_initial src dest K hv n hn (n.toNat - 1) (by omega)]
  have hlast : threadOffsets src
      (threadArg src dest K n (src.height / n) ((n.toNat - 1 : Nat) : Int)) =
      offsets (rowOffset src (((n.toNat - 1 : Nat) : Int) * (src.height / n)))
        (rowOffset src src.height) := by
    show offsets (rowOffset src (((n.toNat - 1 : Nat) : Int) * (src.height / n)))
      (rowOffset src (if ((n.toNat - 1 : Nat) : Int) = n - 1 then src.height
        else (((n.toNat - 1 : Nat) : Int) + 1) * (src.height / n))) = _
    rw [if_pos ec]
  simp only [List.map_cons, List.map_nil, writeLog, List.append_nil]
  rw [hlast]
  have eL : src.width * src.height * src.bpp = rowOffset src src.height := by
    unfold rowOffset Index; ring
  rw [eL]
  apply offsets_append_le
  · have := rowOffset_mono src hv 0 (((n.toNat - 1 : Nat) : Int) * (src.height / n))
      (mul_nonneg (by omega) r0)
    have e0 : rowOffset src 0 = 0 := by unfold rowOffset Index; ring
    rw [e0] at this
    exact this
  · apply rowOffset_mono src hv
    rw [ec]
    nlinarith

/-- The offset of a cell lies in the rows `s .. e - 1` exactly when its row does. -/
theorem index_mem_rows (src : Image) (hv : src.Valid) (x y c s e : Int)
    (hx : 0 ≤ x ∧ x < src.width) (hc : 0 ≤ c ∧ c < src.bpp) :
    Index x y src.width c src.bpp ∈ offsets (rowOffset src s) (rowOffset src e) ↔
      s ≤ y ∧ y < e := by
  have hw : 0 ≤ src.width := by have := hv.1; omega
  have hb : 0 ≤ src.bpp := by have := hv.2.2.1; omega
  have h1 : rowOffset src y ≤ Index x y src.width c src.bpp := by
    unfold rowOffset Index
    nlinarith [mul_nonneg hx.1 hb, hc.1]
  have h2 : Index x y src.width c src.bpp < rowOffset src (y + 1) := by
    unfold rowOffset Index
    have : (x + 1) * src.bpp ≤ src.width * src.bpp :=
      mul_le_mul_of_nonneg_right (by omega) hb
    nlinarith [hc.2]
  rw [mem_offsets]
  constructor
  · rintro ⟨ha, hb2⟩
    constructor
    · by_contra hcon
      have := rowOffset_mono src hv (y + 1) s (by omega)
      omega
    · by_contra hcon
      have := rowOffset_mono src hv e y (by omega)
      omega
  · rintro ⟨ha, hb2⟩
    exact ⟨le_trans (rowOffset_mono src hv _ _ ha) h1,
      lt_of_lt_of_le h2 (rowOffset_mono src hv _ _ (by omega))⟩

/-- Distinct in-range cells have distinct offsets. -/
theorem Index_injective (w bpp x y c x1 y1 c1 : Int)
    (hx : 0 ≤ x ∧ x < w) (hc : 0 ≤ c ∧ c < bpp)
    (hx1 : 0 ≤ x1 ∧ x1 < w) (hc1 : 0 ≤ c1 ∧ c1 < bpp)
    (h : Index x y w c bpp = Index x1 y1 w c1 bpp) : x = x1 ∧ y = y1 ∧ c = c1 := by
  obtain ⟨a1, a2, a3⟩ := Index_decode w bpp x y c hx hc
  obtain ⟨b1, b2, b3⟩ := Index_decode w bpp x1 y1 c1 hx1 hc1
  rw [h] at a1 a2 a3
  exact ⟨a2.symm.trans b2, a3.symm.trans b3, a1.symm.trans b1⟩

/-! ## The traced run -/

/-- The traced assignment is the assignment of `storePixel` with the call and the
write recorded. -/
theorem storePixelTraced_eq (row pix bit : Int) (s : ThreadData × Trace) :
    storePixelTraced row pix bit s =
      (getPixelValue s.1.srcImage pix row bit s.1.algorithm).bind fun v =>
        (storePixel row pix bit s.1).map fun d =>
          (d, Trace.mk (s.2.calls ++ [(pix, row, bit)])
            (s.2.writes ++ [(Index pix row s.1.srcImage.width bit s.1.srcImage.bpp, v)])) := by
  unfold storePixelTraced getPixelValueTraced writeByteTraced storePixel
  cases h1 : getPixelValue s.1.srcImage pix row bit s.1.algorithm with
  | none => rfl
  | some v =>
    simp only [Option.map_some', Option.some_bind]
    cases h2 : writeByte s.1.destImage.data
        (Index pix row s.1.srcImage.width bit s.1.srcImage.bpp) v with
    | none => rfl
    | some buf => rfl

/-- Dropping the trace of a traced thread run gives the run of `convoluteThread`. -/
theorem convoluteThreadTraced_fst (d : ThreadData) (t : Trace) :
    (convoluteThreadTraced d t).map Prod.fst = convoluteThread d := by
  unfold convoluteThreadTraced convoluteThread forRange
  apply forLoop_fst
  intro row s
  apply forLoop_fst
  intro pix s
  apply forLoop_fst
  intro bit s
  rw [storePixelTraced_eq]
  unfold storePixel
  cases getPixelValue s.1.srcImage pix row bit s.1.algorithm with
  | none => rfl
  | some v =>
    simp only [Option.some_bind, Option.map_map]
    cases writeByte s.1.destImage.data
      (Index pix row s.1.srcImage.width bit s.1.srcImage.bpp) v <;> rfl

/-- Dropping the trace of a traced run of a list of threads gives `runThreads`. -/
theorem runThreadsTraced_fst (l : List ThreadData) (dest : Image) (t : Trace) :
    (runThreadsTraced dest t l).map Prod.fst = runThreads dest l := by
  induction l generalizing dest t with
  | nil => rfl
  | cons d ds ih =>
    have h := convoluteThreadTraced_fst { d with destImage := dest } t
    show ((convoluteThreadTraced { d with destImage := dest } t).bind _).map _ =
      (runThread dest d).bind _
    unfold runThread
    rw [← h]
    cases convoluteThreadTraced { d with destImage := dest } t with
    | none => rfl
    | some r => exact ih r.1.destImage r.2

/-- The cell kept at the offset of an in-range cell is that cell. -/
theorem cellOf_Index (src : Image) (x y c : Int) (hx : 0 ≤ x ∧ x < src.width)
    (hc : 0 ≤ c ∧ c < src.bpp) : cellOf src (Index x y src.width c src.bpp) = (x, y, c) := by
  obtain ⟨d1, d2, d3⟩ := Index_decode src.width src.bpp x y c hx hc
  unfold cellOf
  rw [d1, d2, d3]

/-- The cell kept at an offset of the buffer is in range, and the offset is its
offset. -/
theorem cellOf_spec (src : Image) (hv : src.Valid) (i : Int)
    (hi : 0 ≤ i ∧ i < src.width * src.height * src.bpp) :
    (0 ≤ (cellOf src i).1 ∧ (cellOf src i).1 < src.width) ∧
    (0 ≤ (cellOf src i).2.1 ∧ (cellOf src i).2.1 < src.height) ∧
    (0 ≤ (cellOf src i).2.2 ∧ (cellOf src i).2.2 < src.bpp) ∧
    Index (cellOf src i).1 (cellOf src i).2.1 src.width (cellOf src i).2.2 src.bpp = i := by
  have e : ((i.toNat : Nat) : Int) = i := Int.toNat_of_nonneg hi.1
  have hlt : i.toNat < src.data.length := by
    have := hv.2.2.2.1
    omega
  have h := offset_decode src hv i.toNat hlt
  rw [e] at h
  exact h

theorem traceAt_succ (src : Image) (K : Matrix) (lo : Int) (t : Trace) (x y c : Int)
    (hx : 0 ≤ x ∧ x < src.width) (hc : 0 ≤ c ∧ c < src.bpp)
    (hlo : lo ≤ Index x y src.width c src.bpp) :
    traceAt src K lo (Index x y src.width c src.bpp + 1) t =
      Trace.mk ((traceAt src K lo (Index x y src.width c src.bpp) t).calls ++ [(x, y, c)])
        ((traceAt src K lo (Index x y src.width c src.bpp) t).writes ++
          [(Index x y src.width c src.bpp,
            pixelAt src K (Index x y src.width c src.bpp).toNat)]) := by
  unfold traceAt
  rw [offsets_succ lo _ hlo]
  simp only [List.map_append, List.map_cons, List.map_nil, List.append_assoc,
    cellOf_Index src x y c hx hc]
  rfl

theorem storePixelTraced_step (d : ThreadData) (hr : d.Ready) (lo : Int) (t : Trace)
    (r p b : Int)
    (hy : 0 ≤ r ∧ r < d.srcImage.height) (hx : 0 ≤ p ∧ p < d.srcImage.width)
    (hc : 0 ≤ b ∧ b < d.srcImage.bpp)
    (hlo : lo ≤ Index p r d.srcImage.width b d.srcImage.bpp) :
    storePixelTraced r p b (stateTraced d lo t (Index p r d.srcImage.width b d.srcImage.bpp)) =
      some (stateTraced d lo t (Index p r d.srcImage.width b d.srcImage.bpp + 1)) := by
  have h := storePixel_fill d hr lo r p b hy hx hc hlo
  have hg := getPixelValue_eq_pixelAt d.srcImage d.algorithm hr.1 p r b hx hy hc
  rw [storePixelTraced_eq]
  unfold stateTraced
  show (getPixelValue d.srcImage p r b d.algorithm).bind _ = _
  rw [hg, Option.some_bind]
  show (storePixel r p b (d.withDest (fill d.srcImage d.algorithm lo
    (Index p r d.srcImage.width b d.srcImage.bpp) d.destImage.data))).map _ = _
  rw [h, Option.map_some', traceAt_succ d.srcImage d.algorithm lo t p r b hx hc hlo]
  rfl

theorem bitLoopTraced (d : ThreadData) (hr : d.Ready) (lo : Int) (t : Trace) (r p : Int)
    (hy : 0 ≤ r ∧ r < d.srcImage.height) (hx : 0 ≤ p ∧ p < d.srcImage.width)
    (hlo : lo ≤ Index p r d.srcImage.width 0 d.srcImage.bpp) :
    forRange 0 d.srcImage.bpp (fun bit s => storePixelTraced r p bit s)
        (stateTraced d lo t (Index p r d.srcImage.width 0 d.srcImage.bpp)) =
      some (stateTraced d lo t (Index (p + 1) r d.srcImage.width 0 d.srcImage.bpp)) := by
  have hb1 : 1 ≤ d.srcImage.bpp := hr.1.2.2.1
  have key := forRange_traj (fun bit s => storePixelTraced r p bit s)
    (fun k : Nat => stateTraced d lo t (Index p r d.srcImage.width k d.srcImage.bpp))
    0 d.srcImage.bpp (by omega) (by
      intro k hk
      have := storePixelTraced_step d hr lo t r p k hy hx ⟨by omega, by omega⟩
        (by unfold Index at hlo ⊢; omega)
      have e : Index p r d.srcImage.width (k : Int) d.srcImage.bpp + 1 =
          Index p r d.srcImage.width ((k + 1 : Nat) : Int) d.srcImage.bpp := by
        unfold Index; push_cast; ring
      simpa [e] using this)
  have e2 : Index p r d.srcImage.width ((d.srcImage.bpp - 0).toNat : Int) d.srcImage.bpp =
      Index (p + 1) r d.srcImage.width 0 d.srcImage.bpp := by
    rw [Int.toNat_of_nonneg (by omega)]; unfold Index; ring
  simp only [Nat.cast_zero] at key
  rw [e2] at key
  exact key

theorem pixLoopTraced (d : ThreadData) (hr : d.Ready) (lo : Int) (t : Trace) (r : Int)
    (hy : 0 ≤ r ∧ r < d.srcImage.height)
    (hlo : lo ≤ Index 0 r d.srcImage.width 0 d.srcImage.bpp) :
    forRange 0 d.srcImage.width (fun pix s =>
        forRange 0 s.1.srcImage.bpp (fun bit s => storePixelTraced r pix bit s) s)
        (stateTraced d lo t (Index 0 r d.srcImage.width 0 d.srcImage.bpp)) =
      some (stateTraced d lo t (Index 0 (r + 1) d.srcImage.width 0 d.srcImage.bpp)) := by
  have hw1 : 1 ≤ d.srcImage.width := hr.1.1
  have hb1 : 1 ≤ d.srcImage.bpp := hr.1.2.2.1
  have key := forRange_traj (fun pix s =>
      forRange 0 s.1.srcImage.bpp (fun bit s => storePixelTraced r pix bit s) s)
    (fun k : Nat => stateTraced d lo t (Index k r d.srcImage.width 0 d.srcImage.bpp))
    0 d.srcImage.width (by omega) (by
      intro k hk
      have := bitLoopTraced d hr lo t r k hy ⟨by omega, by omega⟩
        (by
          have : 0 ≤ (k : Int) * d.srcImage.bpp := mul_nonneg (by omega) (by omega)
          unfold Index at hlo ⊢; nlinarith)
      simpa [stateTraced, ThreadData.withDest] using this)
  have e2 : Index ((d.srcImage.width - 0).toNat : Int) r d.srcImage.width 0 d.srcImage.bpp =
      Index 0 (r + 1) d.srcImage.width 0 d.srcImage.bpp := by
    rw [Int.toNat_of_nonneg (by omega)]; unfold Index; ring
  simp only [Nat.cast_zero] at key
  rw [e2] at key
  exact key

theorem traceAt_empty (src : Image) (K : Matrix) (lo hi : Int) (t : Trace) (h : hi ≤ lo) :
    traceAt src K lo hi t = t := by
  unfold traceAt
  rw [offsets_empty lo hi h]
  simp

/-- What a traced thread run does: the destination is filled as by
`convoluteThread`, and the trace grows by one call and one write for every offset of
the rows of the thread, in increasing order. -/
theorem convoluteThreadTraced_eq (d : ThreadData) (hr : d.Ready) (t : Trace)
    (hs : 0 ≤ d.startRow) (he : d.endRow ≤ d.srcImage.height) :
    convoluteThreadTraced d t =
      some (stateTraced d (rowOffset d.srcImage d.startRow) t
        (rowOffset d.srcImage d.endRow)) := by
  unfold convoluteThreadTraced
  by_cases hse : d.startRow ≤ d.endRow
  · have key := forRange_traj (fun row s =>
        forRange 0 s.1.srcImage.width (fun pix s =>
          forRange 0 s.1.srcImage.bpp (fun bit s => storePixelTraced row pix bit s) s) s)
      (fun k : Nat => stateTraced d (rowOffset d.srcImage d.startRow) t
        (rowOffset d.srcImage (d.startRow + k))) d.startRow d.endRow hse (by
        intro k hk
        have := pixLoopTraced d hr (rowOffset d.srcImage d.startRow) t (d.startRow + k)
          ⟨by omega, by omega⟩ (rowOffset_mono d.srcImage hr.1 _ _ (by omega))
        have e1 : d.startRow + ((k + 1 : Nat) : Int) = d.startRow + (k : Int) + 1 := by
          push_cast; ring
        simp only [e1]
        exact this)
    simp only [Nat.cast_zero, add_zero] at key
    have e0 : stateTraced d (rowOffset d.srcImage d.startRow) t
        (rowOffset d.srcImage d.startRow) = (d, t) := by
      unfold stateTraced
      rw [fill_empty _ _ _ _ _ (le_refl _), withDest_self, traceAt_empty _ _ _ _ _ (le_refl _)]
    rw [e0, Int.toNat_of_nonneg (by omega)] at key
    have e2 : d.startRow + (d.endRow - d.startRow) = d.endRow := by ring
    rw [e2] at key
    exact key
  · have h0 : (d.endRow - d.startRow).toNat = 0 := by omega
    have hm := rowOffset_mono d.srcImage hr.1 d.endRow d.startRow (by omega)
    unfold stateTraced
    rw [fill_empty _ _ _ _ _ hm, withDest_self, traceAt_empty _ _ _ _ _ hm]
    unfold forRange
    rw [h0]
    rfl

theorem replay_append (buf : List Nat) (a b : List (Int × Nat)) :
    replay buf (a ++ b) = (replay buf a).bind fun x => replay x b := by
  induction a generalizing buf with
  | nil => rfl
  | cons w ws ih =>
    show (writeByte buf w.1 w.2).bind _ = ((writeByte buf w.1 w.2).bind _).bind _
    cases writeByte buf w.1 w.2 with
    | none => rfl
    | some x => exact ih x

/-- Replaying the writes for the offsets `lo .. lo + m - 1` fills these offsets. -/
theorem replay_fill (src : Image) (K : Matrix) (buf : List Nat) (lo : Int) (m : Nat)
    (h0 : 0 ≤ lo) (h1 : lo + m ≤ buf.length) :
    replay buf ((offsets lo (lo + m)).map (entry src K)) =
      some (fill src K lo (lo + m) buf) := by
  induction m with
  | zero =>
    have e : lo + ((0 : Nat) : Int) = lo := by simp
    rw [e, offsets_empty lo lo (le_refl _), fill_empty _ _ _ _ _ (le_refl _)]
    rfl
  | succ m ih =>
    have e : lo + ((m + 1 : Nat) : Int) = lo + (m : Int) + 1 := by push_cast; ring
    have hk : ((lo + (m : Int)).toNat : Int) = lo + (m : Int) :=
      Int.toNat_of_nonneg (by omega)
    have hw := writeByte_fill src K lo (lo + (m : Int)).toNat buf (by omega)
      (by push_cast at h1; omega)
    rw [hk] at hw
    rw [e, offsets_succ lo _ (by omega), List.map_append, replay_append,
      ih (by push_cast at h1; omega), Option.some_bind]
    show (writeByte (fill src K lo (lo + (m : Int)) buf) (lo + (m : Int))
      (pixelAt src K (lo + (m : Int)).toNat)).bind _ = _
    rw [hw]
    rfl

theorem replay_fill_le (src : Image) (K : Matrix) (buf : List Nat) (lo hi : Int)
    (h0 : 0 ≤ lo) (h1 : hi ≤ buf.length) :
    replay buf ((offsets lo hi).map (entry src K)) = some (fill src K lo hi buf) := by
  by_cases h : lo ≤ hi
  · have := replay_fill src K buf lo (hi - lo).toNat h0 (by omega)
    rwa [Int.toNat_of_nonneg (by omega), add_sub_cancel] at this
  · rw [offsets_empty lo hi (by omega), fill_empty _ _ _ _ _ (by omega)]
    rfl

theorem rowOffset_range (src : Image) (hv : src.Valid) (s e : Int) (hs : 0 ≤ s)
    (he : e ≤ src.height) :
    0 ≤ rowOffset src s ∧ rowOffset src e ≤ (src.data.length : Int) := by
  have h1 := rowOffset_mono src hv 0 s hs
  have h2 := rowOffset_mono src hv e src.height he
  have e0 : rowOffset src 0 = 0 := by unfold rowOffset Index; ring
  have eL : rowOffset src src.height = src.width * src.height * src.bpp := by
    unfold rowOffset Index; ring
  rw [e0] at h1
  rw [eL, ← hv.2.2.2.1] at h2
  exact ⟨h1, h2⟩

/-- The traced run of a list of threads: the trace grows by one call and one write for
every offset of the rows of each thread, the destination is the one of the run
without a trace, and it is the initial buffer with the writes of the trace made. -/
theorem runThreadsTraced_eq (src : Image) (K : Matrix) (hv : src.Valid) (l : List ThreadData)
    (hl : ∀ d ∈ l, WorksOn src K d) (dest : Image) (t : Trace)
    (hd : dest.data.length = src.data.length) :
    ∃ out, runThreadsTraced dest t l =
        some (out, Trace.mk (t.calls ++ (writeLog src l).map (cellOf src))
          (t.writes ++ (writeLog src l).map (entry src K))) ∧
      runThreads dest l = some out ∧
      replay dest.data ((writeLog src l).map (entry src K)) = some out.data := by
  induction l generalizing dest t with
  | nil => exact ⟨dest, by simp [runThreadsTraced, writeLog], rfl, rfl⟩
  | cons d ds ih =>
    obtain ⟨h1, h2, h3, h4⟩ := hl d (List.mem_cons_self d ds)
    have hrun := runThread_eq dest d (by rw [h1]; exact hv) (by rw [h1]; exact hd) h3
      (by rw [h1]; exact h4)
    have hlog := convoluteThreadTraced_eq
      (ThreadData.mk d.srcImage dest d.algorithm d.startRow d.endRow)
      ⟨by rw [h1]; exact hv, by rw [h1]; exact hd⟩ t h3 (by rw [h1]; exact h4)
    obtain ⟨out, ho1, ho2, ho3⟩ := ih (fun e he => hl e (List.mem_cons_of_mem d he))
      { dest with data := (fill d.srcImage d.algorithm (rowOffset d.srcImage d.startRow)
          (rowOffset d.srcImage d.endRow) dest.data) }
      (traceAt d.srcImage d.algorithm (rowOffset d.srcImage d.startRow)
        (rowOffset d.srcImage d.endRow) t)
      (by rw [← hd]; exact fill_length ..)
    obtain ⟨r0, r1⟩ := rowOffset_range src hv d.startRow d.endRow h3 h4
    refine ⟨out, ?_, ?_, ?_⟩
    · show (convoluteThreadTraced
        (ThreadData.mk d.srcImage dest d.algorithm d.startRow d.endRow) t).bind _ = _
      rw [hlog, Option.some_bind]
      show runThreadsTraced _ _ ds = _
      have e : Trace.mk (t.calls ++ (writeLog src (d :: ds)).map (cellOf src))
          (t.writes ++ (writeLog src (d :: ds)).map (entry src K)) =
          Trace.mk ((traceAt d.srcImage d.algorithm (rowOffset d.srcImage d.startRow)
              (rowOffset d.srcImage d.endRow) t).calls ++ (writeLog src ds).map (cellOf src))
            ((traceAt d.srcImage d.algorithm (rowOffset d.srcImage d.startRow)
              (rowOffset d.srcImage d.endRow) t).writes ++
                (writeLog src ds).map (entry src K)) := by
        simp only [writeLog, threadOffsets, traceAt, h1, h2, List.map_append,
          List.append_assoc]
      rw [e]
      exact ho1
    · show (runThread dest d).bind _ = _
      rw [hrun, Option.some_bind]
      exact ho2
    · show replay dest.data ((threadOffsets src d ++ writeLog src ds).map (entry src K)) = _
      rw [List.map_append, replay_append]
      unfold threadOffsets
      rw [replay_fill_le src K dest.data _ _ r0 (by rw [hd]; exact r1), Option.some_bind]
      rw [h1, h2] at ho3
      exact ho3

/-- Two lists made from the same list are related entry by entry. -/
theorem forall₂_map_same {α β γ : Type} (R : β → γ → Prop) (f : α → β) (g : α → γ)
    (l : List α) (h : ∀ a ∈ l, R (f a) (g a)) : List.Forall₂ R (l.map f) (l.map g) := by
  induction l with
  | nil => exact List.Forall₂.nil
  | cons a as ih =>
    exact List.Forall₂.cons (h a (List.mem_cons_self a as))
      (ih fun b hb => h b (List.mem_cons_of_mem a hb))

/-- The call and the write made for an offset of the buffer: the write is at the
offset of the cell of the call, and stores the value of the call. -/
theorem entry_spec (src : Image) (K : Matrix) (hv : src.Valid) (i : Int)
    (hi : 0 ≤ i ∧ i < src.width * src.height * src.bpp) :
    (entry src K i).1 = Index (cellOf src i).1 (cellOf src i).2.1 src.width
        (cellOf src i).2.2 src.bpp ∧
      getPixelValue src (cellOf src i).1 (cellOf src i).2.1 (cellOf src i).2.2 K =
        some (entry src K i).2 := by
  obtain ⟨hx, hy, hc, he⟩ := cellOf_spec src hv i hi
  refine ⟨he.symm, ?_⟩
  rw [getPixelValue_eq_pixelAt src K hv _ _ _ hx hy hc, he]
  rfl

theorem cellOf_injOn (src : Image) (hv : src.Valid) (i j : Int)
    (hi : 0 ≤ i ∧ i < src.width * src.height * src.bpp)
    (hj : 0 ≤ j ∧ j < src.width * src.height * src.bpp)
    (h : cellOf src i = cellOf src j) : i = j := by
  obtain ⟨-, -, -, ei⟩ := cellOf_spec src hv i hi
  obtain ⟨-, -, -, ej⟩ := cellOf_spec src hv j hj
  rw [← ei, ← ej, h]

theorem map_fst_entry (src : Image) (K : Matrix) (l : List Int) :
    (l.map (entry src K)).map Prod.fst = l := by
  rw [List.map_map]
  exact List.map_id l

/-! ## The gaussian-blur kernel -/

/-- One product `weight * byte` of the sum, for a dyadic weight `w / 2^k`, `w ≥ 0`. -/
theorem holdsS_term (d : Dbl) (w : Int) (k b : Nat) (hd : Dbl.HoldsS d w k)
    (hw : 0 ≤ w ∧ w ≤ 524288) (hk : k ≤ 1000) (hb : b < 256) :
    Dbl.HoldsS (Dbl.mul d (Dbl.ofInt b)) (w * b) k ∧ 0 ≤ w * b ∧ w * b ≤ 133693440 := by
  have hb0 : (0 : Int) ≤ b := Int.ofNat_nonneg b
  have hb1 : (b : Int) ≤ 255 := by omega
  have h1 : w * b ≤ 133693440 := by nlinarith
  have h2 : 0 ≤ w * b := mul_nonneg hw.1 hb0
  exact ⟨Dbl.holdsS_mul _ _ _ _ k 0 hd (Dbl.holdsS_ofInt _ (by omega)) (by omega) (by omega),
    h2, h1⟩

/-- For a kernel whose weights are the dyadic numbers `W i j / 2^k` with `W i j ≥ 0`,
the narrowed sum is the integer weighted sum divided by `2^k`, rounded down, reduced
modulo 256. -/
theorem kernelSum_dyadic (K : Matrix) (W : Fin 3 → Fin 3 → Int) (k : Nat) (hk : k ≤ 1000)
    (hK : ∀ i j, Dbl.HoldsS (K i j) (W i j) k ∧ 0 ≤ W i j ∧ W i j ≤ 524288)
    (b00 b01 b02 b10 b11 b12 b20 b21 b22 : Nat)
    (h00 : b00 < 256) (h01 : b01 < 256) (h02 : b02 < 256) (h10 : b10 < 256)
    (h11 : b11 < 256) (h12 : b12 < 256) (h20 : b20 < 256) (h21 : b21 < 256)
    (h22 : b22 < 256) :
    Dbl.toUInt8 (kernelSum K b00 b01 b02 b10 b11 b12 b20 b21 b22) =
      ((W 0 0 * b00 + W 0 1 * b01 + W 0 2 * b02 + W 1 0 * b10 + W 1 1 * b11 +
        W 1 2 * b12 + W 2 0 * b20 + W 2 1 * b21 + W 2 2 * b22).toNat / 2 ^ k) % 256 := by
  obtain ⟨t00, l00, u00⟩ := holdsS_term _ _ k b00 (hK 0 0).1 (hK 0 0).2 hk h00
  obtain ⟨t01, l01, u01⟩ := holdsS_term _ _ k b01 (hK 0 1).1 (hK 0 1).2 hk h01
  obtain ⟨t02, l02, u02⟩ := holdsS_term _ _ k b02 (hK 0 2).1 (hK 0 2).2 hk h02
  obtain ⟨t10, l10, u10⟩ := holdsS_term _ _ k b10 (hK 1 0).1 (hK 1 0).2 hk h10
  obtain ⟨t11, l11, u11⟩ := holdsS_term _ _ k b11 (hK 1 1).1 (hK 1 1).2 hk h11
  obtain ⟨t12, l12, u12⟩ := holdsS_term _ _ k b12 (hK 1 2).1 (hK 1 2).2 hk h12
  obtain ⟨t20, l20, u20⟩ := holdsS_term _ _ k b20 (hK 2 0).1 (hK 2 0).2 hk h20
  obtain ⟨t21, l21, u21⟩ := holdsS_term _ _ k b21 (hK 2 1).1 (hK 2 1).2 hk h21
  obtain ⟨t22, l22, u22⟩ := holdsS_term _ _ k b22 (hK 2 2).1 (hK 2 2).2 hk h22
  have s1 := Dbl.holdsS_add _ _ _ _ k t00 t01 (by omega) hk
  have s2 := Dbl.holdsS_add _ _ _ _ k s1 t02 (by omega) hk
  have s3 := Dbl.holdsS_add _ _ _ _ k s2 t10 (by omega) hk
  have s4 := Dbl.holdsS_add _ _ _ _ k s3 t11 (by omega) hk
  have s5 := Dbl.holdsS_add _ _ _ _ k s4 t12 (by omega) hk
  have s6 := Dbl.holdsS_add _ _ _ _ k s5 t20 (by omega) hk
  have s7 := Dbl.holdsS_add _ _ _ _ k s6 t21 (by omega) hk
  have s8 := Dbl.holdsS_add _ _ _ _ k s7 t22 (by omega) hk
  exact Dbl.toUInt8_holdsS _ _ k s8 (by omega) (by omega)

/-- The three divisions of the gaussian-blur table, evaluated: `1.0 / 16`, `1.0 / 8`
and `1.0 / 4` are the powers of two `2^-4`, `2^-3`, `2^-2`. -/
theorem gauss_weights :
    Dbl.div (lit 1) (lit 16) = Dbl.fin false 4503599627370496 (-56) ∧
    Dbl.div (lit 1) (lit 8) = Dbl.fin false 4503599627370496 (-55) ∧
    Dbl.div (lit 1) (lit 4) = Dbl.fin false 4503599627370496 (-54) := by decide!

theorem kernelOf_gauss : kernelOf KernelTypes.GAUSE_BLUR =
    mat3
      (row3 (Dbl.div (lit 1) (lit 16)) (Dbl.div (lit 1) (lit 8)) (Dbl.div (lit 1) (lit 16)))
      (row3 (Dbl.div (lit 1) (lit 8)) (Dbl.div (lit 1) (lit 4)) (Dbl.div (lit 1) (lit 8)))
      (row3 (Dbl.div (lit 1) (lit 16)) (Dbl.div (lit 1) (lit 8)) (Dbl.div (lit 1) (lit 16))) :=
  rfl

/-- A matrix of the shape `a b a / b c b / a b a` whose entries hold `1/16`, `2/16`
and `4/16`. -/
theorem holdsS_mat3 (a b c : Dbl) (ha : Dbl.HoldsS a 1 4) (hb : Dbl.HoldsS b 2 4)
    (hc : Dbl.HoldsS c 4 4) :
    ∀ i j : Fin 3,
      Dbl.HoldsS (mat3 (row3 a b a) (row3 b c b) (row3 a b a) i j)
        (mat3i 1 2 1 2 4 2 1 2 1 i j) 4 ∧
      0 ≤ mat3i 1 2 1 2 4 2 1 2 1 i j ∧ mat3i 1 2 1 2 4 2 1 2 1 i j ≤ 524288
  | 0, 0 => ⟨ha, by decide, by decide⟩
  | 0, 1 => ⟨hb, by decide, by decide⟩
  | 0, 2 => ⟨ha, by decide, by decide⟩
  | 1, 0 => ⟨hb, by decide, by decide⟩
  | 1, 1 => ⟨hc, by decide, by decide⟩
  | 1, 2 => ⟨hb, by decide, by decide⟩
  | 2, 0 => ⟨ha, by decide, by decide⟩
  | 2, 1 => ⟨hb, by decide, by decide⟩
  | 2, 2 => ⟨ha, by decide, by decide⟩

/-- The weights of the gaussian-blur kernel are `1/16, 2/16, 1/16 / 2/16, 4/16, 2/16 /
1/16, 2/16, 1/16`, held exactly. -/
theorem gauss_holds : ∀ i j : Fin 3,
    Dbl.HoldsS (kernelOf KernelTypes.GAUSE_BLUR i j) (mat3i 1 2 1 2 4 2 1 2 1 i j) 4 ∧
    0 ≤ mat3i 1 2 1 2 4 2 1 2 1 i j ∧ mat3i 1 2 1 2 4 2 1 2 1 i j ≤ 524288 := by
  obtain ⟨w16, w8, w4⟩ := gauss_weights
  have h16 : Dbl.HoldsS (Dbl.div (lit 1) (lit 16)) 1 4 := by
    rw [w16]
    exact ⟨false, 4503599627370496, -56, rfl, by decide, by decide, fun _ => by decide⟩
  have h8 : Dbl.HoldsS (Dbl.div (lit 1) (lit 8)) 2 4 := by
    rw [w8]
    exact ⟨false, 4503599627370496, -55, rfl, by decide, by decide, fun _ => by decide⟩
  have h4 : Dbl.HoldsS (Dbl.div (lit 1) (lit 4)) 4 4 := by
    rw [w4]
    exact ⟨false, 4503599627370496, -54, rfl, by decide, by decide, fun _ => by decide⟩
  rw [kernelOf_gauss]
  exact holdsS_mat3 _ _ _ h16 h8 h4

/-! ## Claims -/

/-- C1: convolving a well-formed image with the identity kernel reproduces the
source byte for byte: `getPixelValue` returns the source byte of every in-range
cell, the serial `convolute` leaves the source buffer in the destination, and so
does the threaded engine for every worker count. -/
theorem C1_identity_reproduces_source (src : Image) (hv : src.Valid) :
    (∀ x y c : Int, 0 ≤ x ∧ x < src.width → 0 ≤ y ∧ y < src.height →
      0 ≤ c ∧ c < src.bpp →
      ∃ b, src.data[(Index x y src.width c src.bpp).toNat]? = some b ∧
        getPixelValue src x y c (kernelOf KernelTypes.IDENTITY) = some b) ∧
    (∀ dest : Image, dest.data.length = src.data.length →
      convolute src dest (kernelOf KernelTypes.IDENTITY) =
        some { dest with data := src.data }) ∧
    (∀ (n : Int) (garbage : Nat → Nat), 1 ≤ n →
      runEngine src (kernelOf KernelTypes.IDENTITY) n garbage = some src) := by
  refine ⟨?_, ?_, ?_⟩
  · intro x y c hx hy hc
    have hb := Index_bounds src.width src.height src.bpp x y c hv.2.2.1 hx hy hc
    have hlt : (Index x y src.width c src.bpp).toNat < src.data.length := by
      have := hv.2.2.2.1; omega
    refine ⟨src.data.getD (Index x y src.width c src.bpp).toNat 0, ?_,
      getPixelValue_identity src hv x y c hx hy hc⟩
    simp [List.getD_eq_getElem?_getD, hlt]
  · intro dest hd
    rw [convolute_eq_convolved src dest _ hv hd, convolved_identity src hv]
  · intro n garbage hn
    rw [runEngine_eq src _ hv n hn garbage, convolved_identity src hv]

/-- Witness of C1: the 2x2 one-channel image `[[0,255],[255,0]]` comes back
unchanged from the engine run with four workers. -/
theorem C1_identity_witness :
    checker.Valid ∧
      runEngine checker (kernelOf KernelTypes.IDENTITY) 4 (fun _ => 0) = some checker :=
  ⟨by decide, (C1_identity_reproduces_source checker (by decide)).2.2 4 (fun _ => 0)
    (by decide)⟩

/-- C2: for `height ≥ 1` and `n ≥ 1` workers the partitioning loop of `main` yields
exactly `n` row ranges, `start = i * (height / n)`, `end = (i + 1) * (height / n)`
but `height` for the last; they lie in `[0, height]`, are not reversed, contiguous,
ordered by start, pairwise non-overlapping, start at `0`, end at `height`, and
every row belongs to exactly one of them. -/
theorem C2_partition_covers_rows (src dest : Image) (K : Matrix) (n : Int)
    (hh : 1 ≤ src.height) (hn : 1 ≤ n) :
    ∃ threads, splitWork src dest K n = some threads ∧
      (threads.length : Int) = n ∧
      (∀ (i : Nat) (d : ThreadData), threads[i]? = some d →
        d.startRow = i * (src.height / n) ∧
        d.endRow = (if (i : Int) = n - 1 then src.height else (i + 1) * (src.height / n)) ∧
        0 ≤ d.startRow ∧ d.startRow ≤ d.endRow ∧ d.endRow ≤ src.height) ∧
      (∀ (i : Nat) (d e : ThreadData), threads[i]? = some d → threads[i + 1]? = some e →
        d.endRow = e.startRow) ∧
      (∀ (i j : Nat) (d e : ThreadData), i < j → threads[i]? = some d →
        threads[j]? = some e → d.startRow ≤ e.startRow ∧ d.endRow ≤ e.startRow) ∧
      (∃ d, threads[0]? = some d ∧ d.startRow = 0) ∧
      (∃ d, threads[threads.length - 1]? = some d ∧ d.endRow = src.height) ∧
      (∀ y : Int, 0 ≤ y → y < src.height →
        ∃! i : Nat, ∃ d, threads[i]? = some d ∧ d.startRow ≤ y ∧ y < d.endRow) := by
  have hh0 : 0 ≤ src.height := by omega
  obtain ⟨r0, r1, -⟩ := rowsPerThread_facts src.height n hn hh0
  have hget : ∀ (i : Nat), (i : Int) < n →
      ((List.range n.toNat).map fun k : Nat =>
        threadArg src dest K n (src.height / n) (k : Int))[i]? =
        some (threadArg src dest K n (src.height / n) (i : Int)) := by
    intro i hi
    rw [List.getElem?_map, List.getElem?_range (by omega)]
    rfl
  have hord : ∀ (i j : Nat) (d e : ThreadData), i < j →
      ((List.range n.toNat).map fun k : Nat =>
        threadArg src dest K n (src.height / n) (k : Int))[i]? = some d →
      ((List.range n.toNat).map fun k : Nat =>
        threadArg src dest K n (src.height / n) (k : Int))[j]? = some e →
      d.startRow ≤ e.startRow ∧ d.endRow ≤ e.startRow := by
    intro i j d e hij hd he
    obtain ⟨hi, rfl⟩ := splitWork_getElem src dest K n i d hd
    obtain ⟨hj, rfl⟩ := splitWork_getElem src dest K n j e he
    show (i : Int) * (src.height / n) ≤ (j : Int) * (src.height / n) ∧
      (if (i : Int) = n - 1 then src.height else ((i : Int) + 1) * (src.height / n)) ≤
        (j : Int) * (src.height / n)
    have hij2 : (i : Int) + 1 ≤ j := by omega
    rw [if_neg (by omega)]
    constructor <;> nlinarith
  refine ⟨_, splitWork_eq src dest K n hn hh0, ?_, ?_, ?_, hord, ?_, ?_, ?_⟩
  · simp only [List.length_map, List.length_range]
    omega
  · intro i d hd
    obtain ⟨hi, rfl⟩ := splitWork_getElem src dest K n i d hd
    obtain ⟨h1, h2, h3⟩ := threadArg_range src dest K n hn hh0 i ⟨by omega, hi⟩
    exact ⟨rfl, rfl, h1, h2, h3⟩
  · intro i d e hd he
    obtain ⟨hi, rfl⟩ := splitWork_getElem src dest K n i d hd
    obtain ⟨hj, rfl⟩ := splitWork_getElem src dest K n (i + 1) e he
    show (if (i : Int) = n - 1 then src.height else ((i : Int) + 1) * (src.height / n)) =
      ((i + 1 : Nat) : Int) * (src.height / n)
    rw [if_neg (by push_cast at hj; omega)]
    push_cast
    ring
  · refine ⟨_, hget 0 (by omega), ?_⟩
    show ((0 : Nat) : Int) * (src.height / n) = 0
    simp
  · refine ⟨threadArg src dest K n (src.height / n) ((n.toNat - 1 : Nat) : Int), ?_, ?_⟩
    · simp only [List.length_map, List.length_range]
      exact hget (n.toNat - 1) (by omega)
    · show (if ((n.toNat - 1 : Nat) : Int) = n - 1 then src.height
        else (((n.toNat - 1 : Nat) : Int) + 1) * (src.height / n)) = src.height
      rw [if_pos (by omega)]
  · intro y hy0 hy1
    obtain ⟨i, hi, hs, he⟩ := row_in_some_range src dest K n hn y ⟨hy0, hy1⟩
    refine ⟨i, ⟨_, hget i hi, hs, he⟩, ?_⟩
    rintro j ⟨e, hje, hjs, hjy⟩
    by_contra hne
    rcases Nat.lt_or_gt_of_ne hne with hlt | hlt
    · have := (hord j i e _ hlt hje (hget i hi)).2
      omega
    · have := (hord i j _ e hlt (hget i hi) hje).2
      omega

/-- Witness of C2: an image of 10 rows split among 4 workers. -/
theorem C2_partition_witness :
    ∃ threads, splitWork { data := [], width := 1, height := 10, bpp := 1 } checker
        (kernelOf KernelTypes.IDENTITY) 4 = some threads ∧
      threads.map ThreadData.range = [(0, 2), (2, 4), (4, 6), (6, 10)] := by
  obtain ⟨threads, h, -⟩ := C2_partition_covers_rows
    { data := [], width := 1, height := 10, bpp := 1 } checker
    (kernelOf KernelTypes.IDENTITY) 4 (by decide) (by decide)
  exact ⟨threads, h, by
    have h2 : splitWork { data := [], width := 1, height := 10, bpp := 1 } checker
      (kernelOf KernelTypes.IDENTITY) 4 = some _ := rfl
    rw [h2] at h
    cases h
    rfl⟩

/-- C3: for every well-formed source, kernel and worker count `n ≥ 1` (also
`n > height`), running `convoluteThread` once for each range of the partition, in
any order, leaves the destination that the serial `convolute` over all rows
produces; the engine result is the same for every worker count and does not depend
on what the destination held before. -/
theorem C3_partitioned_equals_serial (src dest : Image) (K : Matrix) (n : Int)
    (hv : src.Valid) (hn : 1 ≤ n) (hd : dest.data.length = src.data.length) :
    ∃ threads out, splitWork src dest K n = some threads ∧
      convolute src dest K = some out ∧
      (∀ order : List ThreadData, order.Perm threads → runThreads dest order = some out) ∧
      (∀ garbage : Nat → Nat,
        runEngine src K n garbage = convolute src (allocDest src garbage) K) ∧
      (∀ (m : Int) (g1 g2 : Nat → Nat), 1 ≤ m →
        runEngine src K m g1 = runEngine src K n g2) := by
  obtain ⟨threads, h1, -, h3⟩ := threads_any_order src dest K hv n hn hd
  refine ⟨threads, _, h1, convolute_eq_convolved src dest K hv hd, h3, ?_, ?_⟩
  · intro garbage
    rw [runEngine_eq src K hv n hn garbage,
      convolute_eq_convolved src _ K hv (allocDest_length src hv garbage)]
    rfl
  · intro m g1 g2 hm
    rw [runEngine_eq src K hv n hn g2, runEngine_eq src K hv m hm g1]

/-- Witness of C3: the 2x2 image `checker` with the edge kernel and 1, 2, 4 workers
(4 is more than the height). -/
theorem C3_partitioned_witness :
    checker.Valid ∧
      runEngine checker (kernelOf KernelTypes.EDGE) 1 (fun _ => 0) =
        runEngine checker (kernelOf KernelTypes.EDGE) 4 (fun _ => 9) ∧
      runEngine checker (kernelOf KernelTypes.EDGE) 2 (fun _ => 0) =
        runEngine checker (kernelOf KernelTypes.EDGE) 4 (fun _ => 9) := by
  obtain ⟨_, _, -, -, -, -, h⟩ := C3_partitioned_equals_serial checker checker
    (kernelOf KernelTypes.EDGE) 4 (by decide) (by decide) rfl
  exact ⟨by decide, h 1 _ _ (by decide), h 2 _ _ (by decide)⟩

/-- C4, counterexample: the box blur of a uniform field of value 5 is 4, at a
pixel and over the whole 4x4 image run through the engine. -/
theorem C4_blur_uniform_counterexample :
    (uniform4 5).Valid ∧ (∀ b ∈ (uniform4 5).data, b = 5) ∧
      getPixelValue (uniform4 5) 1 1 0 (kernelOf KernelTypes.BLUR) = some 4 ∧
      runEngine (uniform4 5) (kernelOf KernelTypes.BLUR) 4 (fun _ => 0) =
        some (uniform4 4) := by
  decide!

/-- C4, as amended: on a well-formed image whose bytes all equal `v`, the box blur
returns `v - 1` at every in-range cell when `v` is one of the 89 values of
`blurLoss`, and `v` otherwise (for instance for `v = 100`). -/
theorem C4_blur_uniform (src : Image) (v : Nat) (hv : src.Valid)
    (hu : ∀ b ∈ src.data, b = v) (x y c : Int)
    (hx : 0 ≤ x ∧ x < src.width) (hy : 0 ≤ y ∧ y < src.height) (hc : 0 ≤ c ∧ c < src.bpp) :
    getPixelValue src x y c (kernelOf KernelTypes.BLUR) =
      some (if v ∈ blurLoss then v - 1 else v) := by
  have hn : ∀ dx dy : Int, neighbourByte src x y c dx dy = v :=
    fun dx dy => neighbourByte_uniform src v hv hu x y c dx dy hc
  have hv256 : v < 256 := by
    rw [← hn 0 0]; exact neighbourByte_lt src hv x y c 0 0 hc
  rw [getPixelValue_eq src _ hv x y c hx hy hc]
  simp only [hn]
  rw [blur_uniform_bytes v hv256]

/-- Witness of C4 as amended: the 4x4 one-channel image of all 100 yields 100. -/
theorem C4_blur_uniform_witness :
    (uniform4 100).Valid ∧ (∀ b ∈ (uniform4 100).data, b = 100) ∧
      getPixelValue (uniform4 100) 0 0 0 (kernelOf KernelTypes.BLUR) = some 100 :=
  ⟨by decide, by decide,
    C4_blur_uniform (uniform4 100) 100 (by decide) (by decide) 0 0 0 (by decide)
      (by decide) (by decide)⟩

/-- The reads of `getPixelValue`, entry by entry: the byte multiplied by
`algorithm[i][j]` is read at column `tapColumn j` and row `tapRow i`. -/
theorem getPixelValue_taps (src : Image) (x y c : Int) (K : Matrix) :
    getPixelValue src x y c K =
      let rd (i j : Fin 3) : Option Nat :=
        readByte src.data (Index (tapColumn src x j) (tapRow src y i) src.width c src.bpp)
      (rd 0 0).bind fun b00 => (rd 0 1).bind fun b01 => (rd 0 2).bind fun b02 =>
      (rd 1 0).bind fun b10 => (rd 1 1).bind fun b11 => (rd 1 2).bind fun b12 =>
      (rd 2 0).bind fun b20 => (rd 2 1).bind fun b21 => (rd 2 2).bind fun b22 =>
        some (Dbl.toUInt8 (kernelSum K b00 b01 b02 b10 b11 b12 b20 b21 b22)) := rfl

/-- C5, counterexample: on the 3x3 image `grid3`, at the corner `(0,0)`, five
neighbour positions are out of range, not three, and two of them do not read the
pixel `(0,0)`: the position `(1,-1)` reads `(1,0)` and `(-1,1)` reads `(0,1)`; with a
kernel that weighs only `(1,-1)` the result is the byte 20 of `(1,0)`, not the byte
10 of `(0,0)`. -/
theorem C5_corner_counterexample :
    (Finset.univ.filter fun p : Fin 3 × Fin 3 =>
      ¬ InImage grid3 (neighbourPos 0 0 p.1 p.2)).card = 5 ∧
    ¬ (∀ i j : Fin 3, ¬ InImage grid3 (neighbourPos 0 0 i j) →
        (tapColumn grid3 0 j, tapRow grid3 0 i) = (0, 0)) ∧
    ¬ InImage grid3 (neighbourPos 0 0 0 2) ∧
    (tapColumn grid3 0 2, tapRow grid3 0 0) = (1, 0) ∧
    ¬ InImage grid3 (neighbourPos 0 0 2 0) ∧
    (tapColumn grid3 0 0, tapRow grid3 0 2) = (0, 1) ∧
    getPixelValue grid3 0 0 0 topRight = some 20 := by
  refine ⟨by decide, ?_, by decide, by decide, by decide, by decide, by decide!⟩
  intro h
  exact absurd (h 0 2 (by decide)) (by decide)

/-- C5, as amended: on a well-formed 3x3 image, at the corner `(0,0)`, the
out-of-range neighbour positions are the five positions of the kernel's first row
and first column; each coordinate is clamped on its own, so `(-1,-1)`, `(0,-1)` and
`(-1,0)` read the pixel `(0,0)`, `(1,-1)` reads `(1,0)` and `(-1,1)` reads `(0,1)`;
every read is a source byte (none is replaced by zero or wraps around) and the
result is the narrowed weighted sum of these bytes. -/
theorem C5_corner_clamp (src : Image) (K : Matrix) (c : Int) (hv : src.Valid)
    (hw : src.width = 3) (hh : src.height = 3) (hc : 0 ≤ c ∧ c < src.bpp) :
    (∀ i j : Fin 3, ¬ InImage src (neighbourPos 0 0 i j) ↔ (i = 0 ∨ j = 0)) ∧
    (tapColumn src 0 0, tapRow src 0 0) = (0, 0) ∧
    (tapColumn src 0 1, tapRow src 0 0) = (0, 0) ∧
    (tapColumn src 0 2, tapRow src 0 0) = (1, 0) ∧
    (tapColumn src 0 0, tapRow src 0 1) = (0, 0) ∧
    (tapColumn src 0 0, tapRow src 0 2) = (0, 1) ∧
    (∀ i j : Fin 3, InImage src (tapColumn src 0 j, tapRow src 0 i)) ∧
    (∃ a b d e : Nat,
      src.data[(Index 0 0 src.width c src.bpp).toNat]? = some a ∧
      src.data[(Index 1 0 src.width c src.bpp).toNat]? = some b ∧
      src.data[(Index 0 1 src.width c src.bpp).toNat]? = some d ∧
      src.data[(Index 1 1 src.width c src.bpp).toNat]? = some e ∧
      getPixelValue src 0 0 c K =
        some (Dbl.toUInt8 (kernelSum K a a b a a b d d e))) := by
  have rd : ∀ u v : Int, (0 ≤ u ∧ u < src.width) → (0 ≤ v ∧ v < src.height) →
      src.data[(Index u v src.width c src.bpp).toNat]? =
        some (src.data.getD (Index u v src.width c src.bpp).toNat 0) ∧
      readByte src.data (Index u v src.width c src.bpp) =
        some (src.data.getD (Index u v src.width c src.bpp).toNat 0) := by
    intro u v hu hv2
    have hb := Index_bounds src.width src.height src.bpp u v c hv.2.2.1 hu hv2 hc
    have hlt : (Index u v src.width c src.bpp).toNat < src.data.length := by
      have := hv.2.2.2.1; omega
    refine ⟨by simp [List.getD_eq_getElem?_getD, hlt], ?_⟩
    exact readByte_eq_some _ _ hb.1 (by have := hv.2.2.2.1; omega)
  have t0 : tapColumn src 0 0 = 0 := rfl
  have t1 : tapColumn src 0 1 = 0 := rfl
  have t2 : tapColumn src 0 2 = 1 := by
    show (if (0 : Int) + 1 ≥ src.width then src.width - 1 else 0 + 1) = 1
    rw [hw]; rfl
  have r0 : tapRow src 0 0 = 0 := rfl
  have r1 : tapRow src 0 1 = 0 := rfl
  have r2 : tapRow src 0 2 = 1 := by
    show (if (0 : Int) + 1 ≥ src.height then src.height - 1 else 0 + 1) = 1
    rw [hh]; rfl
  refine ⟨?_, by rw [t0, r0], by rw [t1, r0], by rw [t2, r0], by rw [t0, r1],
    by rw [t0, r2], ?_, ?_⟩
  · intro i j
    unfold InImage neighbourPos
    rw [hw, hh]
    fin_cases i <;> fin_cases j <;> simp
  · intro i j
    unfold InImage
    rw [hw, hh]
    fin_cases i <;> fin_cases j <;>
      simp only [Fin.zero_eta, Fin.mk_one, Fin.reduceFinMk, t0, t1, t2, r0, r1, r2] <;> decide
  · have h00 := rd 0 0 (by omega) (by omega)
    have h10 := rd 1 0 (by omega) (by omega)
    have h01 := rd 0 1 (by omega) (by omega)
    have h11 := rd 1 1 (by omega) (by omega)
    refine ⟨_, _, _, _, h00.1, h10.1, h01.1, h11.1, ?_⟩
    rw [getPixelValue_taps]
    simp only [t0, t1, t2, r0, r1, r2, h00.2, h10.2, h01.2, h11.2, Option.some_bind]

/-- Witness of C5 as amended: the image `grid3`, whose corner value is
`K[0][0]*10 + K[0][1]*10 + K[0][2]*20 + ...`. -/
theorem C5_corner_witness :
    grid3.Valid ∧ grid3.width = 3 ∧ grid3.height = 3 ∧
      (tapColumn grid3 0 2, tapRow grid3 0 0) = (1, 0) :=
  ⟨by decide, rfl, rfl,
    (C5_corner_clamp grid3 topRight 0 (by decide) rfl rfl (by decide)).2.2.2.1⟩

/-- C6: `GetKernelType` maps exactly the five names `edge`, `sharpen`, `blur`,
`gauss`, `emboss` to their enumerators and every other string to `IDENTITY` (so
`identity`, `Edge`, the empty string, a prefix or an extension of a name); it is
total, and the kernel of an unrecognised name is the identity matrix. -/
theorem C6_kernel_lookup :
    GetKernelType "edge" = KernelTypes.EDGE ∧
    GetKernelType "sharpen" = KernelTypes.SHARPEN ∧
    GetKernelType "blur" = KernelTypes.BLUR ∧
    GetKernelType "gauss" = KernelTypes.GAUSE_BLUR ∧
    GetKernelType "emboss" = KernelTypes.EMBOSS ∧
    (∀ s : String, s ∉ ["edge", "sharpen", "blur", "gauss", "emboss"] →
      GetKernelType s = KernelTypes.IDENTITY ∧
      kernelOf (GetKernelType s) =
        mat3 (row3 (lit 0) (lit 0) (lit 0)) (row3 (lit 0) (lit 1) (lit 0))
          (row3 (lit 0) (lit 0) (lit 0))) ∧
    (∀ s : String, GetKernelType s ≠ KernelTypes.IDENTITY →
      s ∈ ["edge", "sharpen", "blur", "gauss", "emboss"]) ∧
    GetKernelType "identity" = KernelTypes.IDENTITY ∧
    GetKernelType "Edge" = KernelTypes.IDENTITY ∧
    GetKernelType "" = KernelTypes.IDENTITY ∧
    GetKernelType "edg" = KernelTypes.IDENTITY ∧
    GetKernelType "edges" = KernelTypes.IDENTITY ∧
    (∀ i j : Fin 3, kernelOf KernelTypes.IDENTITY i j =
      if i = 1 ∧ j = 1 then Dbl.ofInt 1 else Dbl.ofInt 0) := by
  have key : ∀ s : String, s ∉ ["edge", "sharpen", "blur", "gauss", "emboss"] →
      GetKernelType s = KernelTypes.IDENTITY := by
    intro s hs
    simp only [List.mem_cons, List.mem_singleton, List.not_mem_nil, or_false, not_or] at hs
    obtain ⟨h1, h2, h3, h4, h5⟩ := hs
    unfold GetKernelType
    rw [if_neg h1, if_neg h2, if_neg h3, if_neg h4, if_neg h5]
  refine ⟨by decide, by decide, by decide, by decide, by decide, ?_, ?_, key _ (by decide),
    key _ (by decide), key _ (by decide), key _ (by decide), key _ (by decide), ?_⟩
  · intro s hs
    rw [key s hs]
    exact ⟨rfl, rfl⟩
  · intro s hs
    by_contra hn
    exact hs (key s hn)
  · intro i j
    fin_cases i <;> fin_cases j <;> rfl

/-- C7: the narrowing wraps around and never saturates: for the kernels with
integer weights (edge, sharpen, emboss) `getPixelValue` returns the exact integer
weighted sum of the nine clamped neighbours, reduced modulo 256. -/
theorem C7_integer_kernels_wrap (src : Image) (hv : src.Valid) (x y c : Int)
    (hx : 0 ≤ x ∧ x < src.width) (hy : 0 ≤ y ∧ y < src.height) (hc : 0 ≤ c ∧ c < src.bpp) :
    getPixelValue src x y c (kernelOf KernelTypes.EDGE) = some
      ((0 * (neighbourByte src x y c (-1) (-1) : Int) + -1 * neighbourByte src x y c 0 (-1) +
        0 * neighbourByte src x y c 1 (-1) + -1 * neighbourByte src x y c (-1) 0 +
        4 * neighbourByte src x y c 0 0 + -1 * neighbourByte src x y c 1 0 +
        0 * neighbourByte src x y c (-1) 1 + -1 * neighbourByte src x y c 0 1 +
        0 * neighbourByte src x y c 1 1) % 256).toNat ∧
    getPixelValue src x y c (kernelOf KernelTypes.SHARPEN) = some
      ((0 * (neighbourByte src x y c (-1) (-1) : Int) + -1 * neighbourByte src x y c 0 (-1) +
        0 * neighbourByte src x y c 1 (-1) + -1 * neighbourByte src x y c (-1) 0 +
        5 * neighbourByte src x y c 0 0 + -1 * neighbourByte src x y c 1 0 +
        0 * neighbourByte src x y c (-1) 1 + -1 * neighbourByte src x y c 0 1 +
        0 * neighbourByte src x y c 1 1) % 256).toNat ∧
    getPixelValue src x y c (kernelOf KernelTypes.EMBOSS) = some
      ((-2 * (neighbourByte src x y c (-1) (-1) : Int) + -1 * neighbourByte src x y c 0 (-1) +
        0 * neighbourByte src x y c 1 (-1) + -1 * neighbourByte src x y c (-1) 0 +
        1 * neighbourByte src x y c 0 0 + 1 * neighbourByte src x y c 1 0 +
        0 * neighbourByte src x y c (-1) 1 + 1 * neighbourByte src x y c 0 1 +
        2 * neighbourByte src x y c 1 1) % 256).toNat := by
  have hb : ∀ b ∈ [neighbourByte src x y c (-1) (-1), neighbourByte src x y c 0 (-1),
      neighbourByte src x y c 1 (-1), neighbourByte src x y c (-1) 0,
      neighbourByte src x y c 0 0, neighbourByte src x y c 1 0,
      neighbourByte src x y c (-1) 1, neighbourByte src x y c 0 1,
      neighbourByte src x y c 1 1], b < 256 := by
    intro b hb
    simp only [List.mem_cons, List.mem_singleton, List.not_mem_nil, or_false] at hb
    rcases hb with rfl | rfl | rfl | rfl | rfl | rfl | rfl | rfl | rfl <;>
      exact neighbourByte_lt src hv x y c _ _ hc
  refine ⟨?_, ?_, ?_⟩
  · rw [getPixelValue_eq src _ hv x y c hx hy hc, kernelOf_edge,
      kernelSum_mat3i 0 (-1) 0 (-1) 4 (-1) 0 (-1) 0 (by decide) _ _ _ _ _ _ _ _ _ hb]
  · rw [getPixelValue_eq src _ hv x y c hx hy hc, kernelOf_sharpen,
      kernelSum_mat3i 0 (-1) 0 (-1) 5 (-1) 0 (-1) 0 (by decide) _ _ _ _ _ _ _ _ _ hb]
  · rw [getPixelValue_eq src _ hv x y c hx hy hc, kernelOf_emboss,
      kernelSum_mat3i (-2) (-1) 0 (-1) 1 1 0 1 2 (by decide) _ _ _ _ _ _ _ _ _ hb]

/-- Witness of C7: sharpen at a pixel of value 255 whose four direct neighbours are 0
gives `5 * 255 = 1275`, narrowed to 251 (not 255); the edge kernel at a pixel 0 below
a pixel 255 gives `-255`, narrowed to 1 (not 0). -/
theorem C7_integer_kernels_witness :
    spike.Valid ∧ above.Valid ∧
      getPixelValue spike 1 1 0 (kernelOf KernelTypes.SHARPEN) = some 251 ∧
      getPixelValue above 1 1 0 (kernelOf KernelTypes.EDGE) = some 1 :=
  ⟨by decide, by decide,
    (C7_integer_kernels_wrap spike (by decide) 1 1 0 (by decide) (by decide)
      (by decide)).2.1.trans (by decide),
    (C7_integer_kernels_wrap above (by decide) 1 1 0 (by decide) (by decide)
      (by decide)).1.trans (by decide)⟩

/-- C9: the destination image set up by `main` has the width, height and channel
count of the source and a buffer of the same length `width * height * bpp`;
`convoluteThread` returns and keeps the shape and the length of the destination, and
so does the whole engine. -/
theorem C9_shape_preserved (src : Image) (K : Matrix) (garbage : Nat → Nat)
    (hv : src.Valid) :
    (allocDest src garbage).width = src.width ∧
    (allocDest src garbage).height = src.height ∧
    (allocDest src garbage).bpp = src.bpp ∧
    (allocDest src garbage).data.length = src.data.length ∧
    ((allocDest src garbage).data.length : Int) = src.width * src.height * src.bpp ∧
    (∀ d : ThreadData, d.srcImage = src → d.destImage.data.length = src.data.length →
      0 ≤ d.startRow → d.endRow ≤ src.height →
      ∃ r, convoluteThread d = some r ∧ r.srcImage = d.srcImage ∧
        r.destImage.width = d.destImage.width ∧ r.destImage.height = d.destImage.height ∧
        r.destImage.bpp = d.destImage.bpp ∧
        r.destImage.data.length = d.destImage.data.length) ∧
    (∀ n : Int, 1 ≤ n → ∃ out, runEngine src K n garbage = some out ∧
      out.width = src.width ∧ out.height = src.height ∧ out.bpp = src.bpp ∧
      out.data.length = src.data.length ∧
      (out.data.length : Int) = src.width * src.height * src.bpp) := by
  have hl := allocDest_length src hv garbage
  refine ⟨rfl, rfl, rfl, hl, by rw [hl]; exact hv.2.2.2.1, ?_, ?_⟩
  · intro d hs hd h0 h1
    subst hs
    refine ⟨_, convoluteThread_eq d ⟨hv, hd⟩ h0 h1, rfl, rfl, rfl, rfl, ?_⟩
    exact fill_length ..
  · intro n hn
    refine ⟨_, runEngine_eq src K hv n hn garbage, rfl, rfl, rfl, convolved_length .., ?_⟩
    show ((convolved src K).length : Int) = _
    rw [convolved_length]; exact hv.2.2.2.1

/-- Witness of C9: the 2x2 image `checker`. -/
theorem C9_shape_witness :
    checker.Valid ∧ (allocDest checker (fun _ => 0)).data.length = checker.data.length :=
  ⟨by decide, (C9_shape_preserved checker (kernelOf KernelTypes.EDGE) (fun _ => 0)
    (by decide)).2.2.2.1⟩

/-- C8: for every well-formed source and worker count `n ≥ 1`, in whatever order the
workers of the partition run, the trace of the run (one entry per call of
`getPixelValue`, one per write `data[i] = v` made by `writeByte`) shows that every
destination cell is written exactly once: the offsets written are a rearrangement of
`0 .. width*height*bpp - 1` (`width*height*bpp` writes, no offset twice, the offset
of every in-range cell exactly once); `getPixelValue` is called `width*height*bpp`
times, once for every in-range cell and for nothing else; call and write number `k`
belong together (the write is at the offset of the cell of the call and stores the
value of the call); the run without a trace gives the same output, which is the
initial buffer with exactly the traced writes made, and holds at the offset of every
cell the value of `getPixelValue` for it.  Each worker makes the writes of its own
rows, every in-range cell lies in the rows of exactly one worker, and distinct cells
have distinct offsets. -/
theorem C8_each_cell_written_once (src dest : Image) (K : Matrix) (n : Int)
    (hv : src.Valid) (hn : 1 ≤ n) (hd : dest.data.length = src.data.length) :
    ∃ threads, splitWork src dest K n = some threads ∧
      (∀ order : List ThreadData, order.Perm threads →
        ∃ out tr, runThreadsTraced dest (Trace.mk [] []) order = some (out, tr) ∧
          runThreads dest order = some out ∧
          replay dest.data tr.writes = some out.data ∧
          (tr.writes.map Prod.fst).Perm (offsets 0 (src.width * src.height * src.bpp)) ∧
          (tr.writes.length : Int) = src.width * src.height * src.bpp ∧
          (tr.writes.map Prod.fst).Nodup ∧
          (∀ x y c : Int, 0 ≤ x ∧ x < src.width → 0 ≤ y ∧ y < src.height →
            0 ≤ c ∧ c < src.bpp →
            (tr.writes.map Prod.fst).count (Index x y src.width c src.bpp) = 1) ∧
          (tr.calls.length : Int) = src.width * src.height * src.bpp ∧
          tr.calls.Nodup ∧
          (∀ x y c : Int, (x, y, c) ∈ tr.calls ↔
            (0 ≤ x ∧ x < src.width) ∧ (0 ≤ y ∧ y < src.height) ∧ (0 ≤ c ∧ c < src.bpp)) ∧
          List.Forall₂ (fun (cl : Int × Int × Int) (wr : Int × Nat) =>
            wr.1 = Index cl.1 cl.2.1 src.width cl.2.2 src.bpp ∧
              getPixelValue src cl.1 cl.2.1 cl.2.2 K = some wr.2) tr.calls tr.writes ∧
          (∀ wr ∈ tr.writes, out.data[wr.1.toNat]? = some wr.2) ∧
          (∀ x y c : Int, 0 ≤ x ∧ x < src.width → 0 ≤ y ∧ y < src.height →
            0 ≤ c ∧ c < src.bpp →
            out.data[(Index x y src.width c src.bpp).toNat]? = getPixelValue src x y c K)) ∧
      (∀ d ∈ threads, ∀ t0 : Trace, ∃ st tr,
        convoluteThreadTraced { d with destImage := dest } t0 = some (st, tr) ∧
          convoluteThread { d with destImage := dest } = some st ∧
          tr.writes.map Prod.fst = t0.writes.map Prod.fst ++ threadOffsets src d ∧
          tr.calls = t0.calls ++ (threadOffsets src d).map (cellOf src)) ∧
      (∀ x y c : Int, 0 ≤ x ∧ x < src.width → 0 ≤ y ∧ y < src.height →
        0 ≤ c ∧ c < src.bpp →
        ∃! i : Nat, ∃ d, threads[i]? = some d ∧
          Index x y src.width c src.bpp ∈ threadOffsets src d) ∧
      (∀ x y c x1 y1 c1 : Int, 0 ≤ x ∧ x < src.width → 0 ≤ c ∧ c < src.bpp →
        0 ≤ x1 ∧ x1 < src.width → 0 ≤ c1 ∧ c1 < src.bpp →
        Index x y src.width c src.bpp = Index x1 y1 src.width c1 src.bpp →
        x = x1 ∧ y = y1 ∧ c = c1) := by
  have hh : 0 ≤ src.height := by have := hv.2.1; omega
  have hworks : ∀ d ∈ (List.range n.toNat).map (fun i : Nat =>
      threadArg src dest K n (src.height / n) (i : Int)), WorksOn src K d := by
    intro d hdm
    rw [List.mem_map] at hdm
    obtain ⟨i, hi, rfl⟩ := hdm
    rw [List.mem_range] at hi
    exact threadArg_worksOn src dest K n hn hh i ⟨by omega, by omega⟩
  have hget : ∀ (i : Nat), (i : Int) < n →
      ((List.range n.toNat).map fun k : Nat =>
        threadArg src dest K n (src.height / n) (k : Int))[i]? =
        some (threadArg src dest K n (src.height / n) (i : Int)) := by
    intro i hi
    rw [List.getElem?_map, List.getElem?_range (by omega)]
    rfl
  refine ⟨_, splitWork_eq src dest K n hn hh, ?_, ?_, ?_, ?_⟩
  · intro order hp
    obtain ⟨out, h1, h2, h3⟩ := runThreadsTraced_eq src K hv order
      (fun d hdm => hworks d (hp.mem_iff.1 hdm)) dest (Trace.mk [] []) hd
    have hperm : (writeLog src order).Perm (offsets 0 (src.width * src.height * src.bpp)) := by
      rw [← writeLog_splitWork src dest K hv n hn]
      exact writeLog_perm src _ _ hp
    have hL : 0 ≤ src.width * src.height * src.bpp := by
      rw [← hv.2.2.2.1]; exact Int.ofNat_nonneg _
    have hlen : ((writeLog src order).length : Int) = src.width * src.height * src.bpp := by
      rw [hperm.length_eq, offsets_length, sub_zero, Int.toNat_of_nonneg hL]
    have hmem : ∀ i ∈ writeLog src order, 0 ≤ i ∧ i < src.width * src.height * src.bpp :=
      fun i hi => (mem_offsets _ _ _).1 (hperm.mem_iff.1 hi)
    have hnd : (writeLog src order).Nodup := hperm.nodup_iff.2 (offsets_nodup _ _)
    have hout : out = { dest with data := convolved src K } := by
      obtain ⟨threads, ht1, -, ht2⟩ := threads_any_order src dest K hv n hn hd
      rw [splitWork_eq src dest K n hn hh] at ht1
      have := ht2 order (by rw [← Option.some.inj ht1]; exact hp)
      rw [h2] at this
      exact Option.some.inj this
    have hcell : ∀ x y c : Int, 0 ≤ x ∧ x < src.width → 0 ≤ y ∧ y < src.height →
        0 ≤ c ∧ c < src.bpp →
        out.data[(Index x y src.width c src.bpp).toNat]? = getPixelValue src x y c K := by
      intro x y c hx hy hc
      rw [hout]
      exact (convolved_at src K hv x y c hx hy hc).symm
    simp only [List.nil_append] at h1 h3
    refine ⟨out, _, h1, h2, h3, ?_, ?_, ?_, ?_, ?_, ?_, ?_, ?_, ?_, hcell⟩
    · rw [map_fst_entry]
      exact hperm
    · rw [List.length_map]
      exact hlen
    · rw [map_fst_entry]
      exact hnd
    · intro x y c hx hy hc
      have hb := Index_bounds src.width src.height src.bpp x y c hv.2.2.1 hx hy hc
      rw [map_fst_entry, hperm.count_eq]
      exact List.count_eq_one_of_mem (offsets_nodup _ _) ((mem_offsets _ _ _).2 hb)
    · rw [List.length_map]
      exact hlen
    · exact List.Nodup.map_on
        (fun i hi j hj h => cellOf_injOn src hv i j (hmem i hi) (hmem j hj) h) hnd
    · intro x y c
      show (x, y, c) ∈ (writeLog src order).map (cellOf src) ↔ _
      rw [List.mem_map]
      constructor
      · rintro ⟨i, hi, he⟩
        obtain ⟨cx, cy, cc, -⟩ := cellOf_spec src hv i (hmem i hi)
        rw [he] at cx cy cc
        exact ⟨cx, cy, cc⟩
      · rintro ⟨hx, hy, hc⟩
        have hb := Index_bounds src.width src.height src.bpp x y c hv.2.2.1 hx hy hc
        exact ⟨Index x y src.width c src.bpp,
          hperm.mem_iff.2 ((mem_offsets _ _ _).2 hb), cellOf_Index src x y c hx hc⟩
    · exact forall₂_map_same _ _ _ _ fun i hi => entry_spec src K hv i (hmem i hi)
    · intro wr hwr
      have hwr2 : wr ∈ (writeLog src order).map (entry src K) := hwr
      rw [List.mem_map] at hwr2
      obtain ⟨i, hi, rfl⟩ := hwr2
      obtain ⟨cx, cy, cc, he⟩ := cellOf_spec src hv i (hmem i hi)
      obtain ⟨e1, e2⟩ := entry_spec src K hv i (hmem i hi)
      rw [← e2, ← hcell _ _ _ cx cy cc, he]
      rfl
  · intro d hdm t0
    obtain ⟨h1, h2, h3, h4⟩ := hworks d hdm
    have hlog := convoluteThreadTraced_eq
      (ThreadData.mk d.srcImage dest d.algorithm d.startRow d.endRow)
      ⟨by rw [h1]; exact hv, by rw [h1]; exact hd⟩ t0 h3 (by rw [h1]; exact h4)
    have hrun := convoluteThread_eq
      (ThreadData.mk d.srcImage dest d.algorithm d.startRow d.endRow)
      ⟨by rw [h1]; exact hv, by rw [h1]; exact hd⟩ h3 (by rw [h1]; exact h4)
    refine ⟨_, _, hlog, hrun, ?_, ?_⟩
    · show (t0.writes ++ (offsets _ _).map (entry d.srcImage d.algorithm)).map Prod.fst = _
      rw [List.map_append, map_fst_entry, h1]
      rfl
    · show t0.calls ++ (offsets _ _).map (cellOf d.srcImage) = _
      rw [h1]
      rfl
  · intro x y c hx hy hc
    obtain ⟨i, hi, hs, he⟩ := row_in_some_range src dest K n hn y hy
    refine ⟨i, ⟨_, hget i hi, (index_mem_rows src hv x y c _ _ hx hc).2 ⟨hs, he⟩⟩, ?_⟩
    rintro j ⟨e, hje, hmem⟩
    obtain ⟨hj, rfl⟩ := splitWork_getElem src dest K n j e hje
    have hrow := (index_mem_rows src hv x y c _ _ hx hc).1 hmem
    obtain ⟨r0, -, -⟩ := rowsPerThread_facts src.height n hn hh
    have hs' : (i : Int) * (src.height / n) ≤ y := hs
    have he' : y < (if (i : Int) = n - 1 then src.height
        else ((i : Int) + 1) * (src.height / n)) := he
    have hjs : (j : Int) * (src.height / n) ≤ y := hrow.1
    have hje' : y < (if (j : Int) = n - 1 then src.height
        else ((j : Int) + 1) * (src.height / n)) := hrow.2
    by_contra hne
    rcases Nat.lt_or_gt_of_ne hne with hlt | hlt
    · rw [if_neg (by omega)] at hje'
      have : ((j : Int) + 1) * (src.height / n) ≤ (i : Int) * (src.height / n) :=
        mul_le_mul_of_nonneg_right (by omega) r0
      omega
    · rw [if_neg (by omega)] at he'
      have : ((i : Int) + 1) * (src.height / n) ≤ (j : Int) * (src.height / n) :=
        mul_le_mul_of_nonneg_right (by omega) r0
      omega
  · intro x y c x1 y1 c1 hx hc hx1 hc1 h
    exact Index_injective src.width src.bpp x y c x1 y1 c1 hx hc hx1 hc1 h

/-- Witness of C8: the 2x2 image `checker` with the identity kernel and two workers,
run in creation order into a destination of four bytes 9: the trace is four calls,
for the cells (0,0), (1,0), (0,1), (1,1), and four writes, of 0, 255, 255, 0 at the
offsets 0, 1, 2, 3; the output is the initial buffer with these writes made. -/
theorem C8_written_once_witness :
    checker.Valid ∧
      ((splitWork checker (Image.mk [9, 9, 9, 9] 2 2 1)
          (kernelOf KernelTypes.IDENTITY) 2).bind
        (runThreadsTraced (Image.mk [9, 9, 9, 9] 2 2 1) (Trace.mk [] []))).map
          (fun r => (r.1.data, r.2.calls, r.2.writes)) =
        some ([0, 255, 255, 0], [(0, 0, 0), (1, 0, 0), (0, 1, 0), (1, 1, 0)],
          [(0, 0), (1, 255), (2, 255), (3, 0)]) ∧
      ∃ threads, splitWork checker (Image.mk [9, 9, 9, 9] 2 2 1)
          (kernelOf KernelTypes.IDENTITY) 2 = some threads ∧
        ∃ out tr, runThreadsTraced (Image.mk [9, 9, 9, 9] 2 2 1) (Trace.mk [] []) threads =
            some (out, tr) ∧
          runThreads (Image.mk [9, 9, 9, 9] 2 2 1) threads = some out ∧
          replay [9, 9, 9, 9] tr.writes = some out.data ∧
          (tr.writes.length : Int) = checker.width * checker.height * checker.bpp ∧
          (tr.writes.map Prod.fst).Nodup ∧
          (tr.calls.length : Int) = checker.width * checker.height * checker.bpp ∧
          tr.calls.Nodup := by
  obtain ⟨threads, h1, h2, -⟩ := C8_each_cell_written_once checker
    (Image.mk [9, 9, 9, 9] 2 2 1) (kernelOf KernelTypes.IDENTITY) 2 (by decide) (by decide) rfl
  obtain ⟨out, tr, h3, h4, h5, -, h6, h7, -, h8, h9, -⟩ := h2 threads (List.Perm.refl _)
  exact ⟨by decide, by decide!, threads, h1, out, tr, h3, h4, h5, h6, h7, h8, h9⟩

/-- C11: on a well-formed image, for every in-range cell and every kernel,
`getPixelValue` returns the 8-bit narrowing of the row-major sum of
`K[dy+1][dx+1] * data[index(clamp(x+dx), clamp(y+dy), c)]`, each coordinate clamped
on its own; when the width (height) is 1 both horizontal (vertical) neighbours clamp
to the pixel's own column (row). -/
theorem C11_pixel_is_clamped_weighted_sum (src : Image) (K : Matrix) (hv : src.Valid)
    (x y c : Int) (hx : 0 ≤ x ∧ x < src.width) (hy : 0 ≤ y ∧ y < src.height)
    (hc : 0 ≤ c ∧ c < src.bpp) :
    getPixelValue src x y c K = some (specPixel src x y c K) ∧
    (src.width = 1 → clamp (x + -1) 0 (src.width - 1) = x ∧
      clamp (x + 1) 0 (src.width - 1) = x) ∧
    (src.height = 1 → clamp (y + -1) 0 (src.height - 1) = y ∧
      clamp (y + 1) 0 (src.height - 1) = y) ∧
    (tapColumn src x 0 = clamp (x + -1) 0 (src.width - 1) ∧
      tapColumn src x 1 = clamp (x + 0) 0 (src.width - 1) ∧
      tapColumn src x 2 = clamp (x + 1) 0 (src.width - 1)) ∧
    (tapRow src y 0 = clamp (y + -1) 0 (src.height - 1) ∧
      tapRow src y 1 = clamp (y + 0) 0 (src.height - 1) ∧
      tapRow src y 2 = clamp (y + 1) 0 (src.height - 1)) := by
  refine ⟨?_, ?_, ?_, ?_, ?_⟩
  · rw [getPixelValue_eq src K hv x y c hx hy hc]
    rfl
  · intro h1
    unfold clamp
    constructor <;> split_ifs <;> omega
  · intro h1
    unfold clamp
    constructor <;> split_ifs <;> omega
  · obtain ⟨h1, h2, h3⟩ := clamp_code x src.width hx
    exact ⟨h1, h2, h3⟩
  · obtain ⟨h1, h2, h3⟩ := clamp_code y src.height hy
    exact ⟨h1, h2, h3⟩

/-- Witness of C11: a one-pixel image, whose nine neighbours are the pixel itself:
the sharpen kernel gives `(5 - 4) * 200 = 200`. -/
theorem C11_pixel_witness :
    (Image.mk [200] 1 1 1).Valid ∧
      getPixelValue (Image.mk [200] 1 1 1) 0 0 0 (kernelOf KernelTypes.SHARPEN) =
        some (specPixel (Image.mk [200] 1 1 1) 0 0 0 (kernelOf KernelTypes.SHARPEN)) ∧
      specPixel (Image.mk [200] 1 1 1) 0 0 0 (kernelOf KernelTypes.SHARPEN) = 200 :=
  ⟨by decide,
    (C11_pixel_is_clamped_weighted_sum (Image.mk [200] 1 1 1) (kernelOf KernelTypes.SHARPEN)
      (by decide) 0 0 0 (by decide) (by decide) (by decide)).1,
    by decide!⟩

/-- C12: for a range with `0 ≤ start` and `end ≤ height`, `convoluteThread` returns, and
afterwards every destination byte at `index(x, y, c)` with `start ≤ y < end`,
`0 ≤ x < width`, `0 ≤ c < bpp` is the byte `getPixelValue(src, x, y, c, K)` computed
on the source image. -/
theorem C12_rows_hold_pixel_values (d : ThreadData) (hr : d.Ready)
    (hs : 0 ≤ d.startRow) (he : d.endRow ≤ d.srcImage.height) :
    ∃ r, convoluteThread d = some r ∧
      ∀ x y c : Int, 0 ≤ x ∧ x < d.srcImage.width → d.startRow ≤ y ∧ y < d.endRow →
        0 ≤ c ∧ c < d.srcImage.bpp →
        ∃ v, getPixelValue d.srcImage x y c d.algorithm = some v ∧
          r.destImage.data[(Index x y d.srcImage.width c d.srcImage.bpp).toNat]? = some v := by
  refine ⟨_, convoluteThread_eq d hr hs he, ?_⟩
  intro x y c hx hy hc
  have hy2 : 0 ≤ y ∧ y < d.srcImage.height := ⟨by omega, by omega⟩
  have hb := Index_bounds d.srcImage.width d.srcImage.height d.srcImage.bpp x y c
    hr.1.2.2.1 hx hy2 hc
  have hlt : (Index x y d.srcImage.width c d.srcImage.bpp).toNat < d.destImage.data.length := by
    have := hr.1.2.2.2.1; have := hr.2; omega
  refine ⟨_, getPixelValue_eq_pixelAt d.srcImage d.algorithm hr.1 x y c hx hy2 hc, ?_⟩
  have hin := (index_mem_rows d.srcImage hr.1 x y c d.startRow d.endRow hx hc).2 hy
  rw [mem_offsets] at hin
  have hg := fill_getD d.srcImage d.algorithm (rowOffset d.srcImage d.startRow)
    (rowOffset d.srcImage d.endRow) d.destImage.data _ hlt
  rw [if_pos (by rw [Int.toNat_of_nonneg hb.1]; exact hin)] at hg
  show (fill d.srcImage d.algorithm (rowOffset d.srcImage d.startRow)
    (rowOffset d.srcImage d.endRow) d.destImage.data)[_]? = _
  rw [← hg, List.getD_eq_getElem?_getD, List.getElem?_eq_getElem (by rw [fill_length]; exact hlt)]
  rfl

/-- Witness of C12: the rows `0 .. 1` of the 2x2 image `checker`. -/
theorem C12_rows_witness :
    (ThreadData.mk checker checker (kernelOf KernelTypes.EDGE) 0 2).Ready ∧
      ∃ r, convoluteThread (ThreadData.mk checker checker (kernelOf KernelTypes.EDGE) 0 2) =
        some r :=
  ⟨⟨by decide, rfl⟩, by
    obtain ⟨r, h, -⟩ := C12_rows_hold_pixel_values
      (ThreadData.mk checker checker (kernelOf KernelTypes.EDGE) 0 2) ⟨by decide, rfl⟩
      (by decide) (by decide)
    exact ⟨r, h⟩⟩

/-- C13: for a range `0 ≤ start ≤ end ≤ height`, `convoluteThread` writes exactly the
`(end - start) * width * bpp` destination bytes of the rows `start .. end - 1`, each
once: every destination byte outside these rows keeps its value, the shape of the
destination and the source image are unchanged, and an empty range leaves the whole
record unchanged. -/
theorem C13_writes_only_own_rows (d : ThreadData) (hr : d.Ready)
    (hs : 0 ≤ d.startRow) (hse : d.startRow ≤ d.endRow) (he : d.endRow ≤ d.srcImage.height) :
    ∃ r log, convoluteThread d = some r ∧ convoluteThreadLogged d [] = some (r, log) ∧
      (log.length : Int) = (d.endRow - d.startRow) * d.srcImage.width * d.srcImage.bpp ∧
      log.Nodup ∧
      (∀ j : Int, j ∈ log ↔
        rowOffset d.srcImage d.startRow ≤ j ∧ j < rowOffset d.srcImage d.endRow) ∧
      (∀ j : Nat, ¬ (rowOffset d.srcImage d.startRow ≤ (j : Int) ∧
          (j : Int) < rowOffset d.srcImage d.endRow) →
        r.destImage.data[j]? = d.destImage.data[j]?) ∧
      (∀ x y c : Int, 0 ≤ x ∧ x < d.srcImage.width → 0 ≤ c ∧ c < d.srcImage.bpp →
        ¬ (d.startRow ≤ y ∧ y < d.endRow) → 0 ≤ y →
        r.destImage.data[(Index x y d.srcImage.width c d.srcImage.bpp).toNat]? =
          d.destImage.data[(Index x y d.srcImage.width c d.srcImage.bpp).toNat]?) ∧
      r.destImage.data.length = d.destImage.data.length ∧
      r.srcImage = d.srcImage ∧
      (d.startRow = d.endRow → r = d) := by
  have hrun := convoluteThread_eq d hr hs he
  have hlog := convoluteThreadLogged_eq d hr [] hs he
  have hframe : ∀ j : Nat, ¬ (rowOffset d.srcImage d.startRow ≤ (j : Int) ∧
      (j : Int) < rowOffset d.srcImage d.endRow) →
      (fill d.srcImage d.algorithm (rowOffset d.srcImage d.startRow)
        (rowOffset d.srcImage d.endRow) d.destImage.data)[j]? = d.destImage.data[j]? := by
    intro j hj
    by_cases hlt : j < d.destImage.data.length
    · have hg := fill_getD d.srcImage d.algorithm (rowOffset d.srcImage d.startRow)
        (rowOffset d.srcImage d.endRow) d.destImage.data j hlt
      rw [if_neg hj] at hg
      rw [List.getElem?_eq_getElem (by rw [fill_length]; exact hlt),
        List.getElem?_eq_getElem hlt]
      simpa [List.getD_eq_getElem?_getD, hlt, fill_length] using hg
    · rw [List.getElem?_eq_none (by rw [fill_length]; omega),
        List.getElem?_eq_none (by omega)]
  refine ⟨d.withDest (fill d.srcImage d.algorithm (rowOffset d.srcImage d.startRow)
      (rowOffset d.srcImage d.endRow) d.destImage.data),
    offsets (rowOffset d.srcImage d.startRow) (rowOffset d.srcImage d.endRow), hrun,
    by rw [hlog]; unfold stateAt; rw [List.nil_append], ?_, offsets_nodup _ _, ?_, hframe, ?_,
    fill_length .., rfl, ?_⟩
  · rw [offsets_length, Int.toNat_of_nonneg
      (by have := rowOffset_mono d.srcImage hr.1 _ _ hse; omega)]
    unfold rowOffset Index
    ring
  · intro j
    exact mem_offsets _ _ j
  · intro x y c hx hc hy hy0
    have hw : 0 ≤ d.srcImage.width := by have := hr.1.1; omega
    have hbp : 0 ≤ d.srcImage.bpp := by have := hr.1.2.2.1; omega
    have hnn : 0 ≤ Index x y d.srcImage.width c d.srcImage.bpp := by
      unfold Index
      have := mul_nonneg hy0 hw
      have := mul_nonneg (add_nonneg this hx.1) hbp
      omega
    apply hframe
    rw [Int.toNat_of_nonneg hnn]
    intro hin
    exact hy ((index_mem_rows d.srcImage hr.1 x y c d.startRow d.endRow hx hc).1
      ((mem_offsets _ _ _).2 hin))
  · intro heq
    rw [heq, fill_empty _ _ _ _ _ (le_refl _), withDest_self]

/-- Witness of C13: the row `1` of the 2x2 image `checker`, into a destination of
zeros: two bytes are written, the offsets 2 and 3. -/
theorem C13_frame_witness :
    (ThreadData.mk checker (Image.mk [0, 0, 0, 0] 2 2 1) (kernelOf KernelTypes.EDGE) 1 2).Ready ∧
      ∃ r log,
        convoluteThreadLogged
          (ThreadData.mk checker (Image.mk [0, 0, 0, 0] 2 2 1) (kernelOf KernelTypes.EDGE) 1 2)
          [] = some (r, log) ∧ (log.length : Int) = (2 - 1) * 2 * 1 := by
  obtain ⟨r, log, -, h2, h3, -⟩ := C13_writes_only_own_rows
    (ThreadData.mk checker (Image.mk [0, 0, 0, 0] 2 2 1) (kernelOf KernelTypes.EDGE) 1 2)
    ⟨by decide, rfl⟩ (by decide) (by decide) (by decide)
  exact ⟨⟨by decide, rfl⟩, r, log, h2, h3⟩

/-- C14: on a well-formed image, for every in-range cell, each of the nine source
offsets read by `getPixelValue` and the destination offset written by
`convoluteThread` lies in `[0, width*height*bpp)`: the nine reads and the write are
inside the buffers, so `getPixelValue` returns a byte and the assignment of the loop
body is defined. -/
theorem C14_offsets_in_bounds (src : Image) (hv : src.Valid) (x y c : Int)
    (hx : 0 ≤ x ∧ x < src.width) (hy : 0 ≤ y ∧ y < src.height) (hc : 0 ≤ c ∧ c < src.bpp) :
    (∀ i j : Fin 3,
      0 ≤ Index (tapColumn src x j) (tapRow src y i) src.width c src.bpp ∧
      Index (tapColumn src x j) (tapRow src y i) src.width c src.bpp <
        src.width * src.height * src.bpp ∧
      (readByte src.data
        (Index (tapColumn src x j) (tapRow src y i) src.width c src.bpp)).isSome) ∧
    (0 ≤ Index x y src.width c src.bpp ∧
      Index x y src.width c src.bpp < src.width * src.height * src.bpp) ∧
    (∀ K : Matrix, (getPixelValue src x y c K).isSome) ∧
    (∀ d : ThreadData, d.srcImage = src → d.destImage.data.length = src.data.length →
      (storePixel y x c d).isSome) := by
  have hcol : ∀ j : Fin 3, 0 ≤ tapColumn src x j ∧ tapColumn src x j < src.width := by
    obtain ⟨h1, h2⟩ := clamp_bounds x src.width hx
    intro j
    fin_cases j
    · exact h1
    · exact hx
    · exact h2
  have hrow : ∀ i : Fin 3, 0 ≤ tapRow src y i ∧ tapRow src y i < src.height := by
    obtain ⟨h1, h2⟩ := clamp_bounds y src.height hy
    intro i
    fin_cases i
    · exact h1
    · exact hy
    · exact h2
  refine ⟨?_, Index_bounds src.width src.height src.bpp x y c hv.2.2.1 hx hy hc, ?_, ?_⟩
  · intro i j
    have hb := Index_bounds src.width src.height src.bpp _ _ c hv.2.2.1 (hcol j) (hrow i) hc
    refine ⟨hb.1, hb.2, ?_⟩
    rw [readByte_eq_some _ _ hb.1 (by rw [hv.2.2.2.1]; exact hb.2)]
    rfl
  · intro K
    obtain ⟨v, h⟩ := getPixelValue_eq_some src K hv x y c hx hy hc
    rw [h]; rfl
  · intro d hs hd
    subst hs
    have h := storePixel_fill d ⟨hv, hd⟩ (Index x y d.srcImage.width c d.srcImage.bpp) y x c
      hy hx hc (le_refl _)
    rw [fill_empty _ _ _ _ _ (le_refl _), withDest_self] at h
    rw [h]; rfl

/-- Witness of C14: the corner `(0, 0)` of the 2x2 image `checker`. -/
theorem C14_bounds_witness :
    checker.Valid ∧ 0 ≤ Index 0 0 checker.width 0 checker.bpp ∧
      Index 0 0 checker.width 0 checker.bpp < checker.width * checker.height * checker.bpp :=
  ⟨by decide, (C14_offsets_in_bounds checker (by decide) 0 0 0 (by decide) (by decide)
    (by decide)).2.1⟩

/-- C15, counterexample: an image of 2 rows split among 4 workers gives the ranges
`[0,0), [0,0), [0,0), [0,2)`: the empty range of worker 0 comes before the non-empty
range of worker 3, not after it. -/
theorem C15_trailing_counterexample :
    ∃ threads, splitWork (Image.mk [] 1 2 1) checker (kernelOf KernelTypes.IDENTITY) 4 =
        some threads ∧
      threads.map ThreadData.range = [(0, 0), (0, 0), (0, 0), (0, 2)] ∧
      ¬ (∀ (i j : Nat) (d e : ThreadData), threads[i]? = some d → threads[j]? = some e →
          d.startRow = d.endRow → e.startRow < e.endRow → j < i) := by
  refine ⟨_, rfl, rfl, ?_⟩
  intro h
  have := h 0 3 _ _ rfl rfl (by decide) (by decide)
  omega

/-- C15, as amended: for `height ≥ 1` and more workers than rows, `rowsPerThread` is
0, so every range but the last is the empty range `[0, 0)` and the last range is
`[0, height)`, which is not empty: the empty ranges are the leading ones, each of
them comes before the only non-empty range. -/
theorem C15_empty_ranges_lead (src dest : Image) (K : Matrix) (n : Int)
    (hh : 1 ≤ src.height) (hn : src.height < n) :
    ∃ threads, splitWork src dest K n = some threads ∧ (threads.length : Int) = n ∧
      (∀ (i : Nat) (d : ThreadData), threads[i]? = some d →
        ((i : Int) < n - 1 → d.startRow = 0 ∧ d.endRow = 0) ∧
        ((i : Int) = n - 1 → d.startRow = 0 ∧ d.endRow = src.height)) ∧
      (∀ (i j : Nat) (d e : ThreadData), threads[i]? = some d → threads[j]? = some e →
        d.startRow = d.endRow → e.startRow < e.endRow → i < j) := by
  have hh0 : 0 ≤ src.height := by omega
  have hr : src.height / n = 0 := Int.ediv_eq_zero_of_lt hh0 hn
  have key : ∀ (i : Nat) (d : ThreadData),
      ((List.range n.toNat).map fun k : Nat =>
        threadArg src dest K n (src.height / n) (k : Int))[i]? = some d →
      (i : Int) < n ∧ d.startRow = 0 ∧
        d.endRow = (if (i : Int) = n - 1 then src.height else 0) := by
    intro i d hd
    obtain ⟨hi, rfl⟩ := splitWork_getElem src dest K n i d hd
    refine ⟨hi, ?_, ?_⟩
    · show (i : Int) * (src.height / n) = 0
      rw [hr, mul_zero]
    · show (if (i : Int) = n - 1 then src.height else ((i : Int) + 1) * (src.height / n)) = _
      rw [hr, mul_zero]
  refine ⟨_, splitWork_eq src dest K n (by omega) hh0, ?_, ?_, ?_⟩
  · simp only [List.length_map, List.length_range]
    omega
  · intro i d hd
    obtain ⟨hi, h1, h2⟩ := key i d hd
    constructor
    · intro hlt
      rw [if_neg (by omega)] at h2
      exact ⟨h1, h2⟩
    · intro heq
      rw [if_pos heq] at h2
      exact ⟨h1, h2⟩
  · intro i j d e hd he hempty hnon
    obtain ⟨hi, h1, h2⟩ := key i d hd
    obtain ⟨hj, h3, h4⟩ := key j e he
    by_cases hjl : (j : Int) = n - 1
    · by_cases hil : (i : Int) = n - 1
      · rw [if_pos hil] at h2
        omega
      · omega
    · rw [if_neg hjl] at h4
      omega

/-- Witness of C15 as amended: 2 rows and 4 workers. -/
theorem C15_empty_lead_witness :
    ∃ threads, splitWork (Image.mk [] 1 2 1) checker (kernelOf KernelTypes.IDENTITY) 4 =
        some threads ∧ (threads.length : Int) = 4 := by
  obtain ⟨threads, h1, h2, -⟩ := C15_empty_ranges_lead (Image.mk [] 1 2 1) checker
    (kernelOf KernelTypes.IDENTITY) 4 (by decide) (by decide)
  exact ⟨threads, h1, h2⟩

/-- C16: for `height ≥ 0` and `n ≥ 1` workers, with `rowsPerThread = height / n`
rounded down, each of the first `n - 1` ranges has exactly `rowsPerThread` rows and
the last one `rowsPerThread + height mod n` rows; all ranges have the same size
exactly when `n` divides `height`. -/
theorem C16_range_sizes (src dest : Image) (K : Matrix) (n : Int)
    (hh : 0 ≤ src.height) (hn : 1 ≤ n) :
    ∃ threads, splitWork src dest K n = some threads ∧ (threads.length : Int) = n ∧
      Int.tdiv src.height n = src.height / n ∧
      (∀ (i : Nat) (d : ThreadData), threads[i]? = some d →
        ((i : Int) < n - 1 → d.endRow - d.startRow = src.height / n) ∧
        ((i : Int) = n - 1 → d.endRow - d.startRow = src.height / n + src.height % n)) ∧
      ((∀ (i j : Nat) (d e : ThreadData), threads[i]? = some d → threads[j]? = some e →
          d.endRow - d.startRow = e.endRow - e.startRow) ↔ n ∣ src.height) := by
  have hmod : src.height % n + n * (src.height / n) = src.height :=
    Int.emod_add_ediv src.height n
  have key : ∀ (i : Nat) (d : ThreadData),
      ((List.range n.toNat).map fun k : Nat =>
        threadArg src dest K n (src.height / n) (k : Int))[i]? = some d →
      (i : Int) < n ∧ d.endRow - d.startRow =
        (if (i : Int) = n - 1 then src.height / n + src.height % n else src.height / n) := by
    intro i d hd
    obtain ⟨hi, rfl⟩ := splitWork_getElem src dest K n i d hd
    refine ⟨hi, ?_⟩
    show (if (i : Int) = n - 1 then src.height else ((i : Int) + 1) * (src.height / n)) -
      (i : Int) * (src.height / n) = _
    split_ifs with hc
    · rw [hc]; linarith
    · ring
  have hget : ∀ (i : Nat), (i : Int) < n →
      ((List.range n.toNat).map fun k : Nat =>
        threadArg src dest K n (src.height / n) (k : Int))[i]? =
        some (threadArg src dest K n (src.height / n) (i : Int)) := by
    intro i hi
    rw [List.getElem?_map, List.getElem?_range (by omega)]
    rfl
  refine ⟨_, splitWork_eq src dest K n hn hh, ?_, Int.tdiv_eq_ediv hh (by omega), ?_, ?_⟩
  · simp only [List.length_map, List.length_range]
    omega
  · intro i d hd
    obtain ⟨hi, h1⟩ := key i d hd
    constructor
    · intro hlt
      rw [if_neg (by omega)] at h1
      exact h1
    · intro heq
      rw [if_pos heq] at h1
      exact h1
  · constructor
    · intro hall
      apply Int.dvd_of_emod_eq_zero
      have hk : (((n - 1).toNat : Nat) : Int) = n - 1 := Int.toNat_of_nonneg (by omega)
      have h0 := (key 0 _ (hget 0 (by omega))).2
      have hl := (key (n - 1).toNat _ (hget (n - 1).toNat (by omega))).2
      rw [if_pos hk] at hl
      have he := hall 0 (n - 1).toNat _ _ (hget 0 (by omega)) (hget (n - 1).toNat (by omega))
      by_cases h1 : n = 1
      · subst h1
        exact Int.emod_one _
      · have hne : ¬ (((0 : Nat) : Int) = n - 1) := by
          push_cast; omega
        rw [if_neg hne] at h0
        rw [h0, hl] at he
        omega
    · intro hdvd i j d e hd he
      have hz : src.height % n = 0 := Int.emod_eq_zero_of_dvd hdvd
      obtain ⟨-, h1⟩ := key i d hd
      obtain ⟨-, h2⟩ := key j e he
      rw [h1, h2, hz]
      split_ifs <;> omega

/-- Witness of C16: 10 rows and 4 workers: sizes 2, 2, 2 and `2 + 10 mod 4 = 4`. -/
theorem C16_range_sizes_witness :
    ∃ threads, splitWork (Image.mk [] 1 10 1) checker (kernelOf KernelTypes.IDENTITY) 4 =
        some threads ∧ (threads.length : Int) = 4 ∧
      threads.map ThreadData.range = [(0, 2), (2, 4), (4, 6), (6, 10)] := by
  obtain ⟨threads, h1, h2, -⟩ := C16_range_sizes (Image.mk [] 1 10 1) checker
    (kernelOf KernelTypes.IDENTITY) 4 (by decide) (by decide)
  refine ⟨threads, h1, h2, ?_⟩
  have h3 : splitWork (Image.mk [] 1 10 1) checker (kernelOf KernelTypes.IDENTITY) 4 =
    some _ := rfl
  rw [h3] at h1
  cases h1
  rfl

/-- C18: on a well-formed image whose bytes all equal `v`, the edge-detect kernel
(weights summing to 0) returns 0 at every in-range cell, border cells included. -/
theorem C18_edge_uniform_zero (src : Image) (v : Nat) (hv : src.Valid)
    (hu : ∀ b ∈ src.data, b = v) (x y c : Int)
    (hx : 0 ≤ x ∧ x < src.width) (hy : 0 ≤ y ∧ y < src.height) (hc : 0 ≤ c ∧ c < src.bpp) :
    getPixelValue src x y c (kernelOf KernelTypes.EDGE) = some 0 := by
  have hn : ∀ dx dy : Int, neighbourByte src x y c dx dy = v :=
    fun dx dy => neighbourByte_uniform src v hv hu x y c dx dy hc
  have hv256 : v < 256 := by
    rw [← hn 0 0]; exact neighbourByte_lt src hv x y c 0 0 hc
  rw [getPixelValue_eq src _ hv x y c hx hy hc, kernelOf_edge]
  simp only [hn]
  rw [kernelSum_mat3i 0 (-1) 0 (-1) 4 (-1) 0 (-1) 0 (by decide) v v v v v v v v v
    (by intro b hb; simp only [List.mem_cons, List.mem_singleton, List.not_mem_nil,
          or_false, or_self] at hb; rw [hb]; exact hv256)]
  congr 1
  have : (0 * (v : Int) + -1 * v + 0 * v + -1 * v + 4 * v + -1 * v + 0 * v + -1 * v + 0 * v)
      = 0 := by ring
  rw [this]
  rfl

/-- Witness of C18: the 4x4 image of all 100 at its corner. -/
theorem C18_edge_uniform_witness :
    (uniform4 100).Valid ∧ (∀ b ∈ (uniform4 100).data, b = 100) ∧
      getPixelValue (uniform4 100) 0 0 0 (kernelOf KernelTypes.EDGE) = some 0 :=
  ⟨by decide, by decide,
    C18_edge_uniform_zero (uniform4 100) 100 (by decide) (by decide) 0 0 0 (by decide)
      (by decide) (by decide)⟩

/-- C19: channels are convolved independently and locally: two well-formed images
of the same shape that agree on channel `c` at the nine clamped neighbours of
`(x, y)` get the same byte from `getPixelValue` at `(x, y, c)` for the same kernel,
whatever they hold in other channels or at other pixels. -/
theorem C19_local_per_channel (src1 src2 : Image) (K : Matrix) (hv1 : src1.Valid)
    (hv2 : src2.Valid) (hw : src1.width = src2.width) (hh : src1.height = src2.height)
    (hb : src1.bpp = src2.bpp) (x y c : Int)
    (hx : 0 ≤ x ∧ x < src1.width) (hy : 0 ≤ y ∧ y < src1.height) (hc : 0 ≤ c ∧ c < src1.bpp)
    (hagree : ∀ dx ∈ [(-1 : Int), 0, 1], ∀ dy ∈ [(-1 : Int), 0, 1],
      neighbourByte src1 x y c dx dy = neighbourByte src2 x y c dx dy) :
    getPixelValue src1 x y c K = getPixelValue src2 x y c K ∧
      ∃ v, getPixelValue src1 x y c K = some v := by
  have e := getPixelValue_eq src1 K hv1 x y c hx hy hc
  refine ⟨?_, _, e⟩
  rw [e, getPixelValue_eq src2 K hv2 x y c (by rw [← hw]; exact hx) (by rw [← hh]; exact hy)
    (by rw [← hb]; exact hc)]
  rw [hagree (-1) (by simp) (-1) (by simp), hagree 0 (by simp) (-1) (by simp),
    hagree 1 (by simp) (-1) (by simp), hagree (-1) (by simp) 0 (by simp),
    hagree 0 (by simp) 0 (by simp), hagree 1 (by simp) 0 (by simp),
    hagree (-1) (by simp) 1 (by simp), hagree 0 (by simp) 1 (by simp),
    hagree 1 (by simp) 1 (by simp)]

/-- Witness of C19: two 2x1 images of two channels that agree on channel 0 and
differ on channel 1. -/
theorem C19_local_witness :
    (Image.mk [5, 7, 6, 8] 2 1 2).Valid ∧ (Image.mk [5, 9, 6, 1] 2 1 2).Valid ∧
      getPixelValue (Image.mk [5, 7, 6, 8] 2 1 2) 0 0 0 (kernelOf KernelTypes.SHARPEN) =
        getPixelValue (Image.mk [5, 9, 6, 1] 2 1 2) 0 0 0 (kernelOf KernelTypes.SHARPEN) :=
  ⟨by decide, by decide,
    (C19_local_per_channel (Image.mk [5, 7, 6, 8] 2 1 2) (Image.mk [5, 9, 6, 1] 2 1 2)
      (kernelOf KernelTypes.SHARPEN) (by decide) (by decide) rfl rfl rfl 0 0 0 (by decide)
      (by decide) (by decide) (by decide)).1⟩

/-- C17: on a well-formed image whose bytes all equal `v`, the gaussian-blur kernel
(weights `1/16, 1/8, 1/16 / 1/8, 1/4, 1/8 / 1/16, 1/8, 1/16`, powers of two that sum
to 1) returns `v` at every in-range cell, border cells included: the nine products
and their sums are exact in `double`. -/
theorem C17_gauss_uniform (src : Image) (v : Nat) (hv : src.Valid)
    (hu : ∀ b ∈ src.data, b = v) (x y c : Int)
    (hx : 0 ≤ x ∧ x < src.width) (hy : 0 ≤ y ∧ y < src.height) (hc : 0 ≤ c ∧ c < src.bpp) :
    getPixelValue src x y c (kernelOf KernelTypes.GAUSE_BLUR) = some v := by
  have hn : ∀ dx dy : Int, neighbourByte src x y c dx dy = v :=
    fun dx dy => neighbourByte_uniform src v hv hu x y c dx dy hc
  have hv256 : v < 256 := by
    rw [← hn 0 0]; exact neighbourByte_lt src hv x y c 0 0 hc
  rw [getPixelValue_eq src _ hv x y c hx hy hc]
  simp only [hn]
  rw [kernelSum_dyadic _ _ 4 (by decide) gauss_holds v v v v v v v v v hv256 hv256 hv256
    hv256 hv256 hv256 hv256 hv256 hv256]
  congr 1
  have e : (mat3i 1 2 1 2 4 2 1 2 1 0 0 * (v : Int) + mat3i 1 2 1 2 4 2 1 2 1 0 1 * v +
      mat3i 1 2 1 2 4 2 1 2 1 0 2 * v + mat3i 1 2 1 2 4 2 1 2 1 1 0 * v +
      mat3i 1 2 1 2 4 2 1 2 1 1 1 * v + mat3i 1 2 1 2 4 2 1 2 1 1 2 * v +
      mat3i 1 2 1 2 4 2 1 2 1 2 0 * v + mat3i 1 2 1 2 4 2 1 2 1 2 1 * v +
      mat3i 1 2 1 2 4 2 1 2 1 2 2 * v) = ((16 * v : Nat) : Int) := by
    show (1 * (v : Int) + 2 * v + 1 * v + 2 * v + 4 * v + 2 * v + 1 * v + 2 * v + 1 * v) = _
    push_cast
    ring
  rw [e, Int.toNat_ofNat]
  omega

/-- Witness of C17: the 4x4 image of all 5 (which the box blur turns into 4) keeps
its value under the gaussian blur. -/
theorem C17_gauss_uniform_witness :
    (uniform4 5).Valid ∧ (∀ b ∈ (uniform4 5).data, b = 5) ∧
      getPixelValue (uniform4 5) 0 0 0 (kernelOf KernelTypes.GAUSE_BLUR) = some 5 :=
  ⟨by decide, by decide,
    C17_gauss_uniform (uniform4 5) 5 (by decide) (by decide) 0 0 0 (by decide)
      (by decide) (by decide)⟩

end PicProject
